import Mathlib

/-!
# Script Report: the scripting shell (`src/engine/shell.cpp`)

A shallow embedding of the read-evaluate-print driver `Shell`.

* `ShellPrivate` is the private state of a shell, field by field.
* The script engine (Qt's `QScriptEngine`) and the pure virtual input methods
  of `Shell` (`readSentence`, `readAll`) are external to `shell.cpp`; their
  operations are the fields of `Host`, over an arbitrary engine state `E`,
  script value type `V` and outside world `σ`.
* Calls that leave the shell (reads, evaluations, prints, the `finished`
  signal, `initEngine`) are recorded in a chronological log, each together with
  the private state at the moment of the call.
* The two `do ... while` loops are run with a fuel bound (`doWhile`); the three
  other run operations are straight-line code and total.
-/

namespace ScriptReport

/-! ## Data model -/

/-- A `QString`; `none` is the null string (`QString()`), for which `isNull()` holds. -/
abbrev QString := Option String

/-- Modelled from the spec: `ScriptableShellEngine` (declared in
`scriptable/scriptableshellengine.h`, which is not part of the sources) is the host API
object; of its state `shell.cpp` only uses the script arguments. -/
structure ScriptableShellEngine where
  arguments : List String := []
  deriving DecidableEq, Repr

/-- The class `ShellPrivate` (`shell.cpp` lines 26-46). The defaults are those of its
constructor; `engine` is the object `d->engine` points to and `scriptableEngine` is `none`
for the null pointer. -/
structure ShellPrivate (E : Type) where
  lineNumber : Int := 1
  engine : E
  isInitialized : Bool := false
  useGlobalEngine : Bool := true
  exit : Bool := false
  exitCode : Int := 0
  fileName : QString := none
  scriptableEngine : Option ScriptableShellEngine := none
  deriving DecidableEq, Repr

/-- The `QObject`s that `initEngine` wraps with `QScriptEngine::newQObject`. -/
inductive QObjectRef where
  | scriptableEngine
  | shell
  deriving DecidableEq, Repr

/-- The native functions that `shell.cpp` hands to `QScriptEngine::newFunction`. -/
inductive NativeFunction where
  | print
  deriving DecidableEq, Repr

/-- Bit masks of `QScriptValue::PropertyFlags`. -/
abbrev PropertyFlags := Nat

/-- The flag `QScriptValue::Undeletable`. -/
def Undeletable : PropertyFlags := 2

/-- One position of a `QScriptValueIterator`: `name()`, `value()` and `flags()`. -/
structure PropertyEntry (V : Type) where
  name : String
  value : V
  flags : PropertyFlags

/-- What one call of `QScriptEngine::evaluate` does, seen from the shell: the value it
returns, the engine and the outside world it leaves behind, and the arguments of the calls
of `Shell::exit` the script made while it ran (through `sr.engine.exit`), in order.
`Shell::exit` is the only operation of the script-facing API that writes `ShellPrivate`. -/
structure Evaluation (σ E V : Type) where
  result : V
  engine : E
  world : σ
  exitCalls : List Int := []

/-- A `QScriptContext`, as far as `shell.cpp` reads it: the `this` object
(`context->thisObject()`), the data of the function that is called
(`context->callee().data()`) and the arguments of the call (`context->argumentCount()` and
`context->argument(i)`). -/
structure QScriptContext (V : Type) where
  thisObject : V
  calleeData : V
  arguments : List V

/-- The collaborators of `Shell` that `shell.cpp` does not define: the pure virtual input
methods of the class and the part of the interface of `QScriptEngine`, `QScriptValue` and
`QScriptValueIterator` that the shell calls. `σ` is the state of the world outside the
shell (the input the sentences come from, whatever scripts can reach), `E` the state of a
script engine and `V` the type of script values.

An `int &finalLineNumber` argument is the line number passed in together with the one
written back. -/
structure Host (σ E V : Type) where
  /-- The method `Shell::readSentence(int &finalLineNumber)`. -/
  readSentence : σ → Int → QString × Int × σ
  /-- The method `Shell::readAll(int &finalLineNumber)`. -/
  readAll : σ → Int → QString × Int × σ
  /-- The call `engine->evaluate(program, fileName, lineNumber)`. -/
  evaluate : σ → E → QString → QString → Int → Evaluation σ E V
  /-- The call `engine->hasUncaughtException()`. -/
  hasUncaughtException : E → Bool
  /-- The call `value.isUndefined()`. -/
  isUndefined : V → Bool
  /-- The constructor `new QScriptEngine(this)`. -/
  newEngine : E
  /-- The call `engine->processEventsInterval()`. -/
  processEventsInterval : E → Int
  /-- The call `engine->setProcessEventsInterval(interval)`. -/
  setProcessEventsInterval : E → Int → E
  /-- The call `engine.globalObject()`. -/
  globalObject : E → V
  /-- The call `engine.setGlobalObject(object)`. -/
  setGlobalObject : E → V → E
  /-- The call `engine.newQObject(object, ...)`; the flag tells whether the options
  `ExcludeChildObjects | ExcludeSuperClassContents | ExcludeDeleteLater` are given. -/
  newQObject : E → QObjectRef → Bool → V × E
  /-- The call `engine.newFunction(f)`. -/
  newFunction : E → NativeFunction → V × E
  /-- The call `engine.newObject()`. -/
  newObject : E → V × E
  /-- The call `function.setData(data)`. -/
  setData : E → V → V → E
  /-- The call `object.setProperty(name, value, flags)`. -/
  setProperty : E → V → String → V → PropertyFlags → E
  /-- The properties a `QScriptValueIterator` over `object` runs through, in order. -/
  properties : E → V → List (PropertyEntry V)
  /-- The call `engine->currentContext()`. -/
  currentContext : E → QScriptContext V
  /-- The call `object.property(name)`. -/
  property : E → V → QString → V
  /-- The call `value.isObject()`. -/
  isObject : V → Bool
  /-- The call `engine->undefinedValue()`. -/
  undefinedValue : E → V
  /-- The call `value.toQObject()`, for the objects `shell.cpp` wraps; `none` is the null
  pointer. -/
  toQObject : V → Option QObjectRef
  /-- The call `ch.isLetter()` of `QChar`. -/
  isLetter : Char → Bool
  /-- The call `ch.isNumber()` of `QChar`. -/
  isNumber : Char → Bool

/-- The calls the shell makes that are visible from outside `shell.cpp`. -/
inductive Event (V : Type) where
  /-- The call `initEngine(*d->engine)`. -/
  | initEngine
  /-- A call of `readSentence`, with the sentence it returned and the line number it
  wrote back. -/
  | readSentence (sentence : QString) (finalLineNumber : Int)
  /-- A call of `readAll`, with the script it returned and the line number it wrote back. -/
  | readAll (script : QString) (finalLineNumber : Int)
  /-- A call `d->engine->evaluate(program, fileName, lineNumber)`. -/
  | evaluate (program : QString) (fileName : QString) (lineNumber : Int)
  /-- A call of `Shell::exit(exitCode)`. -/
  | exit (exitCode : Int)
  /-- An emission of the signal `finished(exitCode)`. -/
  | finished (exitCode : Int)
  /-- A call of `printUncaughtException(exception)`. -/
  | printUncaughtException (exception : V)
  /-- A call of `printResult(result)`. -/
  | printResult (result : V)
  /-- A call of `printOut(message, last)`. -/
  | printOut (message : V) (last : Bool)
  deriving DecidableEq, Repr

/-- A logged call: the private state of the shell at the moment the call is made, and the
call. -/
structure Call (E V : Type) where
  state : ShellPrivate E
  event : Event V
  deriving DecidableEq, Repr

/-- A shell in its environment: the private state `d`, the outside world, and the
chronological log of the calls made so far. -/
structure Shell (σ E V : Type) where
  d : ShellPrivate E
  world : σ
  log : List (Call E V) := []

variable {σ E V : Type}

/-! ## Classification of events -/

/-- Is the event a call of `readSentence`? -/
def Event.isReadSentence : Event V → Bool
  | .readSentence _ _ => true
  | _ => false

/-- Is the event a call of `readAll`? -/
def Event.isReadAll : Event V → Bool
  | .readAll _ _ => true
  | _ => false

/-- Is the event a read, of either kind? -/
def Event.isRead (e : Event V) : Bool := e.isReadSentence || e.isReadAll

/-- Is the event a call of the engine's `evaluate`? -/
def Event.isEvaluate : Event V → Bool
  | .evaluate _ _ _ => true
  | _ => false

/-- Is the event a call of `Shell::exit`? -/
def Event.isExit : Event V → Bool
  | .exit _ => true
  | _ => false

/-- Is the event an emission of `finished`? -/
def Event.isFinished : Event V → Bool
  | .finished _ => true
  | _ => false

/-- Is the event a call of `printUncaughtException`? -/
def Event.isPrintUncaughtException : Event V → Bool
  | .printUncaughtException _ => true
  | _ => false

/-- Is the event a call of `printResult`? -/
def Event.isPrintResult : Event V → Bool
  | .printResult _ => true
  | _ => false

/-- Is the event the call of `initEngine`? -/
def Event.isInitEngine : Event V → Bool
  | .initEngine => true
  | _ => false

/-- The number of logged calls whose event satisfies `p`. -/
def count (p : Event V → Bool) (log : List (Call E V)) : Nat :=
  log.countP fun c => p c.event

/-- The codes of the `finished` signals in a log, in order of emission. -/
def finishedCodes (log : List (Call E V)) : List Int :=
  log.filterMap fun c =>
    match c.event with
    | .finished code => some code
    | _ => none

/-- The arguments of the calls of `Shell::exit` in a log, in order. -/
def exitCodes (log : List (Call E V)) : List Int :=
  log.filterMap fun c =>
    match c.event with
    | .exit code => some code
    | _ => none

/-! ## The operations of `Shell` -/

/-- Record a call in the log, with the private state at this moment. -/
def Shell.emit (s : Shell σ E V) (e : Event V) : Shell σ E V :=
  { s with log := s.log ++ [⟨s.d, e⟩] }

/-- The loop of lines 135-141 of `Shell::initEngine` on the engine: the iterator runs
through `properties`, and each property is set on `globalEngine`, except `print`. -/
def initEngine.copy (h : Host σ E V) (globalEngine : V) (properties : List (PropertyEntry V))
    (engine : E) : E :=
  properties.foldl
    (fun engine it =>
      -- we provide our own print implementation, but we want the rest
      if it.name ≠ "print" then
        h.setProperty engine globalEngine it.name it.value it.flags
      else engine)
    engine

/-- The method `Shell::initEngine` (lines 125-157), on the private state. -/
def initEngine (h : Host σ E V) (d : ShellPrivate E) : ShellPrivate E :=
  let scriptableEngine :=
    match d.scriptableEngine with
    | none => some ({} : ScriptableShellEngine)
    | some e => some e
  let engine := d.engine
  let global := h.globalObject engine
  let installed : V × E :=
    if d.useGlobalEngine then
      let globalEngine := h.newQObject engine .scriptableEngine true
      let engine := initEngine.copy h globalEngine.1 (h.properties globalEngine.2 global)
        globalEngine.2
      (globalEngine.1, h.setGlobalObject engine globalEngine.1)
    else
      -- replace the default print
      let printFunction := h.newFunction engine .print
      let data := h.newQObject printFunction.2 .shell false
      let engine := h.setData data.2 printFunction.1 data.1
      (global, h.setProperty engine (h.globalObject engine) "print" printFunction.1
        Undeletable)
  let global := installed.1
  let sr := h.newObject installed.2
  let engine := h.setProperty sr.2 global "sr" sr.1 Undeletable
  let eng := h.newQObject engine .scriptableEngine true
  let engine := h.setProperty eng.2 sr.1 "engine" eng.1 Undeletable
  { d with scriptableEngine := scriptableEngine, engine := engine }

/-- The guard every entry point starts with (lines 165-168, 198-201, 228-231, 253-256,
274-277, 487-490, 599-602): the flag is set before `initEngine` is called. -/
def Shell.initIfNeeded (h : Host σ E V) (s : Shell σ E V) : Shell σ E V :=
  if !s.d.isInitialized then
    let s := { s with d := { s.d with isInitialized := true } }
    let s := s.emit .initEngine
    { s with d := initEngine h s.d }
  else s

/-- The method `Shell::exit` (lines 306-310); the call itself is logged first. -/
def Shell.exit (s : Shell σ E V) (exitCode : Int) : Shell σ E V :=
  let s := s.emit (.exit exitCode)
  let s := { s with d := { s.d with exit := true, exitCode := exitCode } }
  s.emit (.finished exitCode)

/-- The method `Shell::exitCode` (lines 317-319). -/
def Shell.exitCode (s : Shell σ E V) : Int := s.d.exitCode

/-- The method `Shell::isExitCalled` (lines 469-471). -/
def Shell.isExitCalled (s : Shell σ E V) : Bool := s.d.exit

/-- The method `Shell::isEngineInitialized` (lines 478-480). -/
def Shell.isEngineInitialized (s : Shell σ E V) : Bool := s.d.isInitialized

/-- The method `Shell::currentLineNumber` (lines 443-445). -/
def Shell.currentLineNumber (s : Shell σ E V) : Int := s.d.lineNumber

/-- The statement `sentence = readSentence(d->lineNumber)`: the line number is passed by
reference, so what the source writes back is the new `d->lineNumber`. -/
def Shell.readSentence (h : Host σ E V) (s : Shell σ E V) : Shell σ E V × QString :=
  let r := h.readSentence s.world s.d.lineNumber
  let s := s.emit (.readSentence r.1 r.2.1)
  ({ s with d := { s.d with lineNumber := r.2.1 }, world := r.2.2 }, r.1)

/-- The statement `script = readAll(d->lineNumber)`. -/
def Shell.readAll (h : Host σ E V) (s : Shell σ E V) : Shell σ E V × QString :=
  let r := h.readAll s.world s.d.lineNumber
  let s := s.emit (.readAll r.1 r.2.1)
  ({ s with d := { s.d with lineNumber := r.2.1 }, world := r.2.2 }, r.1)

/-- The statement `result = d->engine->evaluate(program, d->fileName, lineNumber)`. While
the script runs it may call `Shell::exit`; those calls act on the shell in order. Their
log entries show the engine as the evaluation leaves it. -/
def Shell.engineEvaluate (h : Host σ E V) (s : Shell σ E V) (program : QString)
    (lineNumber : Int) : Shell σ E V × V :=
  let s := s.emit (.evaluate program s.d.fileName lineNumber)
  let ev := h.evaluate s.world s.d.engine program s.d.fileName lineNumber
  let s := { s with d := { s.d with engine := ev.engine }, world := ev.world }
  (ev.exitCalls.foldl Shell.exit s, ev.result)

/-- A C++ `do body while (cond)` loop on a state `α`, run for at most `fuel` iterations:
`none` when the fuel does not suffice. -/
def doWhile {α : Type} (body : α → α) (cond : α → Bool) : Nat → α → Option α
  | 0, _ => none
  | fuel + 1, a =>
    let a := body a
    if cond a then doWhile body cond fuel a else some a

/-- The state of the loops of `runInteractive` and `runQuiet`: the shell and the locals
`sentence` and `previousLine`. -/
structure Loop (σ E V : Type) where
  shell : Shell σ E V
  sentence : QString
  previousLine : Int

/-- The loop condition `!sentence.isNull() && !d->exit` (lines 185 and 216). -/
def Loop.cond (l : Loop σ E V) : Bool :=
  !l.sentence.isNone && !l.shell.d.exit

/-- The statements every run operation starts with (lines 165-170 and their copies): the
guard, then `d->exit = false; d->exitCode = 0;`. -/
def Shell.beginRun (h : Host σ E V) (s : Shell σ E V) : Shell σ E V :=
  let s := s.initIfNeeded h
  { s with d := { s.d with exit := false, exitCode := 0 } }

/-- The locals on entry of the loops (lines 172-173 and 205-206):
`QString sentence; int previousLine = d->lineNumber;`. -/
def Shell.enterLoop (s : Shell σ E V) : Loop σ E V :=
  { shell := s, sentence := none, previousLine := s.d.lineNumber }

/-- The statement after the loops (lines 187-189 and 218-220):
`if (!d->exit) emit finished(0);`. -/
def Loop.leave (l : Loop σ E V) : Shell σ E V :=
  if !l.shell.d.exit then l.shell.emit (.finished 0) else l.shell

/-- The body of the loop of `runInteractive` (lines 175-183). -/
def Shell.runInteractive.body (h : Host σ E V) (l : Loop σ E V) : Loop σ E V :=
  let r := l.shell.readSentence h
  let sentence := r.2
  let e := r.1.engineEvaluate h sentence l.previousLine
  let result := e.2
  let previousLine := e.1.d.lineNumber
  let shell :=
    if h.hasUncaughtException e.1.d.engine then
      e.1.emit (.printUncaughtException result)
    else if !h.isUndefined result then
      e.1.emit (.printResult result)
    else e.1
  { shell := shell, sentence := sentence, previousLine := previousLine }

/-- The method `Shell::runInteractive` (lines 164-190). -/
def Shell.runInteractive (h : Host σ E V) (fuel : Nat) (s : Shell σ E V) :
    Option (Shell σ E V) :=
  (doWhile (Shell.runInteractive.body h) Loop.cond fuel (s.beginRun h).enterLoop).map
    Loop.leave

/-- The body of the loop of `runQuiet` (lines 208-214). -/
def Shell.runQuiet.body (h : Host σ E V) (l : Loop σ E V) : Loop σ E V :=
  let r := l.shell.readSentence h
  let sentence := r.2
  let e := r.1.engineEvaluate h sentence l.previousLine
  let result := e.2
  let previousLine := e.1.d.lineNumber
  let shell :=
    if h.hasUncaughtException e.1.d.engine then
      e.1.emit (.printUncaughtException result)
    else e.1
  { shell := shell, sentence := sentence, previousLine := previousLine }

/-- The method `Shell::runQuiet` (lines 197-221). -/
def Shell.runQuiet (h : Host σ E V) (fuel : Nat) (s : Shell σ E V) :
    Option (Shell σ E V) :=
  (doWhile (Shell.runQuiet.body h) Loop.cond fuel (s.beginRun h).enterLoop).map
    Loop.leave

/-- The method `Shell::runBatch` (lines 227-246). -/
def Shell.runBatch (h : Host σ E V) (s : Shell σ E V) : Shell σ E V :=
  let s := s.beginRun h
  let previousLine := s.d.lineNumber
  let r := s.readAll h
  let script := r.2
  let e := r.1.engineEvaluate h script previousLine
  let result := e.2
  let s :=
    if h.hasUncaughtException e.1.d.engine then
      e.1.emit (.printUncaughtException result)
    else e.1
  if !s.d.exit then s.emit (.finished 0) else s

/-- The method `Shell::runOneSentence` (lines 252-267). -/
def Shell.runOneSentence (h : Host σ E V) (s : Shell σ E V) : Shell σ E V :=
  let s := s.beginRun h
  let previousLine := s.d.lineNumber
  let r := s.readSentence h
  let sentence := r.2
  let e := r.1.engineEvaluate h sentence previousLine
  let result := e.2
  if h.hasUncaughtException e.1.d.engine then
    e.1.emit (.printUncaughtException result)
  else e.1

/-- The method `Shell::runOneSentenceInteractive` (lines 273-290). -/
def Shell.runOneSentenceInteractive (h : Host σ E V) (s : Shell σ E V) : Shell σ E V :=
  let s := s.beginRun h
  let previousLine := s.d.lineNumber
  let r := s.readSentence h
  let sentence := r.2
  let e := r.1.engineEvaluate h sentence previousLine
  let result := e.2
  if h.hasUncaughtException e.1.d.engine then
    e.1.emit (.printUncaughtException result)
  else if !h.isUndefined result then
    e.1.emit (.printResult result)
  else e.1

/-- The method `Shell::engine` (lines 486-492): the shell it leaves and the engine it
returns. -/
def Shell.engine (h : Host σ E V) (s : Shell σ E V) : Shell σ E V × E :=
  let s := s.initIfNeeded h
  (s, s.d.engine)

/-- The constructor `Shell::Shell` (lines 85-90), in front of the world `w`: the private
state has the defaults of `ShellPrivate()` and a new engine. -/
def Shell.construct (h : Host σ E V) (w : σ) : Shell σ E V :=
  { d := { engine := h.newEngine }, world := w }

/-- A `QStringList`. -/
abbrev QStringList := List QString

/-- The method `Shell::completeScriptExpression` (lines 598-636): the shell it leaves, and
the list it returns with the values written to `completitionStartAt` and `commonName`.
After the guard (lines 599-602) the method writes no member of `d`: lines 604-636 compute
the result from `d->engine`, the expression and the incoming values of the two reference
arguments. `completions` stands for that computation, whose embedding is the function
`completions` below, with results of the type `R` of its outcomes. -/
def Shell.completeScriptExpression {R : Type} (h : Host σ E V)
    (completions : E → QString → Int → QString → R)
    (s : Shell σ E V) (expression : QString) (completitionStartAt : Int)
    (commonName : QString) : Shell σ E V × R :=
  let s := s.initIfNeeded h
  (s, completions s.d.engine expression completitionStartAt commonName)

/-- The method `Shell::reset` (lines 498-506). -/
def Shell.reset (h : Host σ E V) (s : Shell σ E V) : Shell σ E V :=
  let d := { s.d with lineNumber := 1 }
  let interval := h.processEventsInterval d.engine
  let d := { d with engine := h.newEngine }
  let d := { d with engine := h.setProcessEventsInterval d.engine interval }
  let d := { d with isInitialized := false }
  let d := { d with exit := false }
  { s with d := d }

/-! ## Vocabulary for the statements -/

/-- The log entries that a sequence of calls of `Shell::exit` appends, starting from the
private state `d`: for each call the call itself, then the `finished` signal, emitted after
`d->exit` and `d->exitCode` were written. -/
def exitLog (d : ShellPrivate E) : List Int → List (Call E V)
  | [] => []
  | c :: cs =>
    ⟨d, .exit c⟩ :: ⟨{ d with exit := true, exitCode := c }, .finished c⟩ ::
      exitLog { d with exit := true, exitCode := c } cs

/-- What the read of the next iteration of a loop returns: the sentence, the line number
written back and the world after the read. -/
def Loop.nextRead (h : Host σ E V) (l : Loop σ E V) : QString × Int × σ :=
  h.readSentence l.shell.world l.shell.d.lineNumber

/-- The evaluation that the next iteration of a loop makes, of the sentence it reads. -/
def Loop.nextEvaluation (h : Host σ E V) (l : Loop σ E V) : Evaluation σ E V :=
  h.evaluate (l.nextRead h).2.2 l.shell.d.engine (l.nextRead h).1 l.shell.d.fileName
    l.previousLine

/-- The private state right after the read of the next iteration of a loop. -/
def Loop.afterRead (h : Host σ E V) (l : Loop σ E V) : ShellPrivate E :=
  { l.shell.d with lineNumber := (l.nextRead h).2.1 }

/-- The private state right after the evaluation of the next iteration of a loop. -/
def Loop.afterEvaluation (h : Host σ E V) (l : Loop σ E V) : ShellPrivate E :=
  { l.shell.d with
    lineNumber := (l.nextRead h).2.1,
    engine := (l.nextEvaluation h).engine,
    exit := l.shell.d.exit || !(l.nextEvaluation h).exitCalls.isEmpty,
    exitCode := (l.nextEvaluation h).exitCalls.getLast?.getD l.shell.d.exitCode }

/-- The log entries of the read and of the evaluation of the next iteration of a loop,
the latter with the calls of `Shell::exit` made by the script. -/
def Loop.readEvaluateLog (h : Host σ E V) (l : Loop σ E V) : List (Call E V) :=
  ⟨l.shell.d, .readSentence (l.nextRead h).1 (l.nextRead h).2.1⟩ ::
  ⟨l.afterRead h, .evaluate (l.nextRead h).1 l.shell.d.fileName l.previousLine⟩ ::
  exitLog { l.afterRead h with engine := (l.nextEvaluation h).engine }
    (l.nextEvaluation h).exitCalls

/-- What the bodies of the loops of `runInteractive` and `runQuiet` have in common: an
iteration reads a sentence, evaluates it, and then only prints; an uncaught exception is
printed with `printUncaughtException`, and nothing else is printed but results. -/
def LoopBody (h : Host σ E V) (body : Loop σ E V → Loop σ E V) : Prop :=
  ∀ l : Loop σ E V,
    (body l).sentence = (l.nextRead h).1 ∧
    (body l).previousLine = (l.nextRead h).2.1 ∧
    (body l).shell.d = l.afterEvaluation h ∧
    (body l).shell.world = (l.nextEvaluation h).world ∧
    ∃ prints : List (Call E V),
      (body l).shell.log = l.shell.log ++ (l.readEvaluateLog h ++ prints) ∧
      (h.hasUncaughtException (l.nextEvaluation h).engine = true →
        prints = [⟨l.afterEvaluation h,
          .printUncaughtException (l.nextEvaluation h).result⟩]) ∧
      (h.hasUncaughtException (l.nextEvaluation h).engine = false →
        ∀ c ∈ prints, c.event.isPrintResult = true)

/-- The exit state agrees with the log: the `finished` signals are those of the calls of
`Shell::exit`, `d->exit` tells whether there was such a call, and `d->exitCode` is the
argument of the last one. -/
def ExitAgrees (s : Shell σ E V) : Prop :=
  finishedCodes s.log = exitCodes s.log ∧
  s.d.exit = !(exitCodes s.log).isEmpty ∧
  s.d.exitCode = (exitCodes s.log).getLast?.getD 0

/-- The first read of a log is made with `d->exit` false and `d->exitCode` zero. -/
def ClearedAtFirstRead (log : List (Call E V)) : Prop :=
  ∃ pre rd post, log = pre ++ rd :: post ∧ count Event.isRead pre = 0 ∧
    rd.event.isRead = true ∧ rd.state.exit = false ∧ rd.state.exitCode = 0

/-- A run that starts cleared: its first read is made with `d->exit` false and
`d->exitCode` zero, and if its log holds no call of `Shell::exit` it ends with
`isExitCalled()` false and `exitCode()` zero. -/
def StartsCleared (r : Shell σ E V) : Prop :=
  ClearedAtFirstRead r.log ∧ (exitCodes r.log = [] → r.isExitCalled = false ∧ r.exitCode = 0)

/-- The line bookkeeping between two consecutive log entries `x` and `y`: when `x` is a
read or `y` is an evaluation, then `x` is a read, `y` is the evaluation of the text that
`x` returned, the start line given to the evaluation is `d->lineNumber` as it was when the
read was called, and `d->lineNumber` at the call of the evaluation is the line number that
the read wrote back. -/
def Adjacent (x y : Call E V) : Prop :=
  (x.event.isRead = true ∨ y.event.isEvaluate = true) →
    ∃ text final fileName,
      (x.event = .readSentence text final ∨ x.event = .readAll text final) ∧
      y.event = .evaluate text fileName x.state.lineNumber ∧
      y.state.lineNumber = final

/-- The line bookkeeping of a log. Every evaluation comes right after a read, is of the
text that read returned, and gets as start line the value `d->lineNumber` had when the
read was called; and every read is followed at once by the evaluation of its text, at
whose call `d->lineNumber` is the line number the read wrote back. -/
def LineBookkeeping (log : List (Call E V)) : Prop :=
  (∀ pre ev post program fileName line, log = pre ++ ev :: post →
    ev.event = .evaluate program fileName line →
    ∃ pre' rd final, pre = pre' ++ [rd] ∧
      (rd.event = .readSentence program final ∨ rd.event = .readAll program final) ∧
      line = rd.state.lineNumber ∧ ev.state.lineNumber = final) ∧
  (∀ pre rd post text final, log = pre ++ rd :: post →
    (rd.event = .readSentence text final ∨ rd.event = .readAll text final) →
    ∃ ev post' fileName, post = ev :: post' ∧
      ev.event = .evaluate text fileName rd.state.lineNumber ∧
      ev.state.lineNumber = final)

/-- The invariant behind `LineBookkeeping`: the log does not start with an evaluation,
does not end with a read, and consecutive entries are `Adjacent`. -/
def Booked (log : List (Call E V)) : Prop :=
  (∀ c ∈ log.head?, c.event.isEvaluate = false) ∧
  (∀ c ∈ log.getLast?, c.event.isRead = false) ∧
  List.Chain' Adjacent log

/-- A run that `Shell::exit` stopped: with `k` reads and `k` evaluations in all, none of
them after the call `exit(c)`, which is made during evaluation number `k` and is the only
one; `finished(c)` is the only signal, and the run ends with `isExitCalled()` true and
`exitCode()` equal to `c`. -/
def StopsAtExit (k : Nat) (c : Int) (r : Shell σ E V) : Prop :=
  count Event.isRead r.log = k ∧
  count Event.isEvaluate r.log = k ∧
  r.isExitCalled = true ∧
  r.exitCode = c ∧
  finishedCodes r.log = [c] ∧
  ∃ pre x post, r.log = pre ++ x :: post ∧ x.event = .exit c ∧
    (∃ pre' ev, pre = pre' ++ [ev] ∧ ev.event.isEvaluate = true) ∧
    count Event.isEvaluate pre = k ∧
    count Event.isRead post = 0 ∧ count Event.isEvaluate post = 0 ∧
    count Event.isExit (pre ++ post) = 0

/-- The log entry of the read of the next iteration of a loop. -/
def Loop.nextReadCall (h : Host σ E V) (l : Loop σ E V) : Call E V :=
  ⟨l.shell.d, .readSentence (l.nextRead h).1 (l.nextRead h).2.1⟩

/-- The log entry of the evaluation of the next iteration of a loop. -/
def Loop.nextEvaluateCall (h : Host σ E V) (l : Loop σ E V) : Call E V :=
  ⟨l.afterRead h, .evaluate (l.nextRead h).1 l.shell.d.fileName l.previousLine⟩

/-- What it means that the uncaught exception left by an iteration of a loop is reported
and does not end the loop. `before` is the state of the loop when the iteration starts and
`after` its state when the iteration ends; `run` gives, for each amount of fuel, the result
of the run. The last call of the iteration is `printUncaughtException`, of the value the
evaluation returned; the run does not return with no more fuel than `spent`, the
iterations made so far; and the log of every run that returns goes on, after the log of
the iteration, with the read of the next sentence and the evaluation of what was read. -/
def ReportedAndGoesOn (h : Host σ E V) (before after : Loop σ E V) (spent : Nat)
    (run : Nat → Option (Shell σ E V)) : Prop :=
  (∃ log, after.shell.log = log ++
    [⟨before.afterEvaluation h,
      .printUncaughtException (before.nextEvaluation h).result⟩]) ∧
  (∀ fuel ≤ spent, run fuel = none) ∧
  (∀ fuel r, run fuel = some r →
    ∃ post, r.log = after.shell.log ++
      after.nextReadCall h :: after.nextEvaluateCall h :: post)

/-- The state of the loop of `runInteractive` after `n` executions of its body, for the
run that starts from the shell `s`. -/
def Shell.runInteractive.iter (h : Host σ E V) (s : Shell σ E V) (n : Nat) : Loop σ E V :=
  (Shell.runInteractive.body h)^[n] (s.beginRun h).enterLoop

/-- The state of the loop of `runQuiet` after `n` executions of its body, for the run that
starts from the shell `s`. -/
def Shell.runQuiet.iter (h : Host σ E V) (s : Shell σ E V) (n : Nat) : Loop σ E V :=
  (Shell.runQuiet.body h)^[n] (s.beginRun h).enterLoop

/-- A shell with the same state whose log lacks the calls of `printResult`. -/
def Shell.withoutPrintResult (s : Shell σ E V) : Shell σ E V :=
  { s with log := s.log.filter fun c => !c.event.isPrintResult }

/-- The loop state with the calls of `printResult` removed from the log of its shell. -/
def Loop.withoutPrintResult (l : Loop σ E V) : Loop σ E V :=
  { l with shell := l.shell.withoutPrintResult }

/-- The calls on a shell that reach the guard of `initEngine`, and `reset()`: the five run
operations, `engine()`, `completeScriptExpression` with its arguments, and `reset()`. -/
inductive Op where
  | runInteractive
  | runQuiet
  | runBatch
  | runOneSentence
  | runOneSentenceInteractive
  | engine
  | completeScriptExpression (expression : QString) (completitionStartAt : Int)
      (commonName : QString)
  | reset
  deriving DecidableEq, Repr

/-- Is the call a `reset()`? -/
def Op.isReset : Op → Bool
  | .reset => true
  | _ => false

/-- The shell after one call; `none` when a loop runs out of its fuel. -/
def Shell.call (h : Host σ E V)
    (completions : E → QString → Int → QString → QStringList × Int × QString)
    (fuel : Nat) (op : Op) (s : Shell σ E V) : Option (Shell σ E V) :=
  match op with
  | .runInteractive => Shell.runInteractive h fuel s
  | .runQuiet => Shell.runQuiet h fuel s
  | .runBatch => some (Shell.runBatch h s)
  | .runOneSentence => some (Shell.runOneSentence h s)
  | .runOneSentenceInteractive => some (Shell.runOneSentenceInteractive h s)
  | .engine => some (Shell.engine h s).1
  | .completeScriptExpression expression completitionStartAt commonName =>
    some (Shell.completeScriptExpression h completions s expression completitionStartAt
      commonName).1
  | .reset => some (Shell.reset h s)

/-- The shell after a sequence of calls, each loop with the fuel `fuel`. -/
def Shell.callAll (h : Host σ E V)
    (completions : E → QString → Int → QString → QStringList × Int × QString)
    (fuel : Nat) : List Op → Shell σ E V → Option (Shell σ E V)
  | [], s => some s
  | op :: ops, s => (Shell.call h completions fuel op s).bind (Shell.callAll h completions fuel ops)

/-! ## A small host, to run the shell on concrete input -/

/-- The values of the demonstration engine. -/
inductive DemoValue where
  | undefined
  | number (n : Int)
  | error (message : String)
  deriving DecidableEq, Repr

/-- The state of the demonstration engine: whether the last evaluation left an uncaught
exception, and the interval of `processEventsInterval`. -/
structure DemoEngine where
  uncaught : Bool := false
  interval : Int := -1
  deriving DecidableEq, Repr

/-- The evaluation of the demonstration engine. It knows four sentences: `6*7` yields 42,
`exit(7)` calls `Shell::exit(7)`, `exit(1);exit(2)` calls it twice and `throw 1` leaves an
uncaught exception; every other text, the null string included, yields undefined. -/
def demoEvaluate (w : List String) (e : DemoEngine) (program : QString) :
    Evaluation (List String) DemoEngine DemoValue :=
  if program = some "6*7" then
    { result := .number 42, engine := { e with uncaught := false }, world := w }
  else if program = some "exit(7)" then
    { result := .undefined, engine := { e with uncaught := false }, world := w,
      exitCalls := [7] }
  else if program = some "exit(1);exit(2)" then
    { result := .undefined, engine := { e with uncaught := false }, world := w,
      exitCalls := [1, 2] }
  else if program = some "throw 1" then
    { result := .error "1", engine := { e with uncaught := true }, world := w }
  else
    { result := .undefined, engine := { e with uncaught := false }, world := w }

/-- A host whose world is the list of the sentences still to be read, one per line:
`readSentence` hands out the first one and advances the line number by one, and returns
the null string when none is left; `readAll` hands out all of them, joined. The engine
keeps no script objects. -/
def demoHost : Host (List String) DemoEngine DemoValue where
  readSentence := fun w line =>
    match w with
    | [] => (none, line, [])
    | s :: rest => (some s, line + 1, rest)
  readAll := fun w line =>
    match w with
    | [] => (none, line, [])
    | s :: rest => (some (String.intercalate ";" (s :: rest)), line + (rest.length + 1), [])
  evaluate := fun w e program _ _ => demoEvaluate w e program
  hasUncaughtException := fun e => e.uncaught
  isUndefined := fun v => v == .undefined
  newEngine := {}
  processEventsInterval := fun e => e.interval
  setProcessEventsInterval := fun e i => { e with interval := i }
  globalObject := fun _ => .undefined
  setGlobalObject := fun e _ => e
  newQObject := fun e _ _ => (.undefined, e)
  newFunction := fun e _ => (.undefined, e)
  newObject := fun e => (.undefined, e)
  setData := fun e _ _ => e
  setProperty := fun e _ _ _ _ => e
  properties := fun _ _ => []
  currentContext := fun _ =>
    { thisObject := .undefined, calleeData := .undefined, arguments := [] }
  property := fun _ _ _ => .undefined
  isObject := fun _ => false
  undefinedValue := fun _ => .undefined
  toQObject := fun _ => none
  isLetter := Char.isAlpha
  isNumber := Char.isDigit

/-- A freshly constructed shell (lines 85-90) of the demonstration host, in front of the
given input. -/
def demoShell (input : List String) : Shell (List String) DemoEngine DemoValue :=
  Shell.construct demoHost input

/-- A stand-in for the computation of the completions, for concrete runs: no candidate,
and the two reference arguments as they came in. -/
def demoCompletions (_ : DemoEngine) (_ : QString) (completitionStartAt : Int)
    (commonName : QString) : QStringList × Int × QString :=
  ([], completitionStartAt, commonName)

/-! ## Strings

The operations of `QString` that `shell.cpp` calls, after `qstring.cpp` of Qt. A `QChar`
is modelled by a `Char`, so the model covers text of the Basic Multilingual Plane, where a
character is one UTF-16 code unit. -/

/-- The characters of a `QString`; the null string has none. -/
def QString.chars : QString → List Char
  | none => []
  | some t => t.data

/-- The call `QString::fromLatin1(text)`, on a literal. -/
def QString.fromLatin1 (text : String) : QString := some text

/-- The call `s.isNull()`. -/
def QString.isNull (s : QString) : Bool := s.isNone

/-- The call `s.isEmpty()`: the null string is empty too. -/
def QString.isEmpty (s : QString) : Bool := (QString.chars s).isEmpty

/-- The call `s.length()`. -/
def QString.length (s : QString) : Int := (QString.chars s).length

/-- The call `s.at(i)`; `none` when `i` is out of range, where `QString::at` is not
defined. -/
def QString.at (s : QString) (i : Int) : Option Char :=
  if 0 ≤ i then (QString.chars s)[i.toNat]? else none

/-- The call `s.mid(position, n)`; the default of `n` is `-1`. For `position` equal to the
length the result is the empty string, as in Qt 5; a version of Qt that returns the null
string there gives a string of the same characters. -/
def QString.mid (s : QString) (position : Int) (n : Int) : QString :=
  match s with
  | none => none
  | some t =>
    let size : Int := t.data.length
    if position > size then none
    else
      let n := if n < 0 then size - position else n
      let n := if position < 0 then n + position else n
      let position := if position < 0 then 0 else position
      let n := if n + position > size then size - position else n
      if position = 0 ∧ n = size then some t
      else some (String.mk ((t.data.drop position.toNat).take n.toNat))

/-- The call `s.startsWith(other)`, case sensitive. -/
def QString.startsWith (s other : QString) : Bool :=
  match s with
  | none => QString.isNull other
  | some t =>
    if t.data.length = 0 then (QString.chars other).length = 0
    else if (QString.chars other).length > t.data.length then false
    else (QString.chars other).isPrefixOf t.data

/-- The comparison `s == other` of `QString`: by content, so the null string equals the
empty one. -/
def QString.equals (s other : QString) : Bool := QString.chars s = QString.chars other

/-- The comparison of two sequences of code units that `QString::operator<` makes: the
first position where they differ decides, and a proper prefix comes first. -/
def ucstrcmpLess : List Nat → List Nat → Bool
  | _, [] => false
  | [], _ :: _ => true
  | a :: as, b :: bs => a < b || (a = b && ucstrcmpLess as bs)

/-- The comparison `s < other` of `QString`. -/
def QString.less (s other : QString) : Bool :=
  ucstrcmpLess ((QString.chars s).map Char.toNat) ((QString.chars other).map Char.toNat)

/-- Not after: `s` may stand before `other` in a list sorted by `QString::operator<`. -/
def QString.notAfter (s other : QString) : Prop := QString.less other s = false

instance : DecidableRel QString.notAfter := fun s other =>
  inferInstanceAs (Decidable (QString.less other s = false))

/-- The call `qStableSort(list)` on a `QStringList`: a stable sort by `operator<`, here by
insertion. -/
def qStableSort (list : QStringList) : QStringList :=
  list.insertionSort QString.notAfter

/-- A C++ `while (cond) body` loop on a state `α`, run for at most `fuel` tests of the
condition: `none` when the fuel does not suffice, or when the condition or the body is not
defined. -/
def whileLoop {α : Type} (cond : α → Option Bool) (body : α → Option α) :
    Nat → α → Option α
  | 0, _ => none
  | fuel + 1, a =>
    match cond a with
    | none => none
    | some false => some a
    | some true =>
      match body a with
      | none => none
      | some a => whileLoop cond body fuel a

/-! ## Script arguments and the `print` function -/

/-- Modelled from the spec: the setter `ScriptableShellEngine::setArguments`, whose source
is not at hand: it stores the script arguments. -/
def ScriptableShellEngine.setArguments (_e : ScriptableShellEngine)
    (arguments : List String) : ScriptableShellEngine :=
  { arguments := arguments }

/-- The getter `Shell::arguments` (lines 411-417). With a null `d->scriptableEngine` the
method calls through the null pointer, which is not defined: `none`. -/
def Shell.arguments (s : Shell σ E V) : Option (List String) :=
  match s.d.scriptableEngine with
  | none => none
  | some _ => some []

/-- The setter `Shell::setArguments` (lines 419-424). -/
def Shell.setArguments (s : Shell σ E V) (arguments : List String) : Shell σ E V :=
  let scriptableEngine : ScriptableShellEngine :=
    match s.d.scriptableEngine with
    | none => {}
    | some e => e
  { s with d := { s.d with
      scriptableEngine := some (scriptableEngine.setArguments arguments) } }

/-- Modelled from the spec: the default value of the parameter `last` of `Shell::printOut`,
which `shell.h` declares and which is not at hand; the spec has the final argument of a
call of `print` flagged as last. -/
def printOutDefaultLast : Bool := true

/-- The call `context->argument(i)`: the undefined value when there is no such argument. -/
def QScriptContext.argument (h : Host σ E V) (engine : E) (context : QScriptContext V)
    (i : Nat) : V :=
  context.arguments.getD i (h.undefinedValue engine)

/-- The static function `print` (lines 52-67), called by the script on the shell `s`: the
shell it leaves and the value it returns. The pointer `shell` is null unless the data of the
callee wraps the shell; a call of `printOut` through the null pointer is not defined:
`none`. -/
def print (h : Host σ E V) (s : Shell σ E V) (context : QScriptContext V) (engine : E) :
    Option (Shell σ E V × V) :=
  let calleeData := context.calleeData
  let shell : Option (Shell σ E V) :=
    match h.toQObject calleeData with
    | some .shell => some s
    | _ => none
  let argumentCount := context.arguments.length
  if argumentCount > 0 then
    match shell with
    | none => none
    | some shell =>
      let shell := (List.range (argumentCount - 1)).foldl
        (fun shell i =>
          let value := context.argument h engine i
          shell.emit (.printOut value false))
        shell
      let value := context.argument h engine (argumentCount - 1)
      some (shell.emit (.printOut value printOutDefaultLast), h.undefinedValue engine)
  else some (s, h.undefinedValue engine)

/-! ## Completion -/

/-- The static function `isIdentifierChar` (lines 508-512). -/
def isIdentifierChar (h : Host σ E V) (ch : Char) : Bool :=
  let underscore := '_'
  h.isLetter ch || h.isNumber ch || ch = underscore

/-- The four words `findCompletions` offers besides the property names, in the order in
which it appends them (lines 536-539 and 568-583). -/
def reservedWords : QStringList :=
  [QString.fromLatin1 "this", QString.fromLatin1 "true", QString.fromLatin1 "false",
    QString.fromLatin1 "null"]

/-- The value `findCompletions` completes on (lines 515-527): the `this` object of the
context, walked along `path`, whose first item is skipped when it is `this`. -/
def findCompletions.resolve (h : Host σ E V) (engine : E) (context : QScriptContext V)
    (path : QStringList) : V :=
  let v := context.thisObject
  match path with
  | [] => v
  | first :: _ =>
    let pos := if QString.equals first (QString.fromLatin1 "this") then 1 else 0
    (path.drop pos).foldl (fun v item => h.property engine v item) v

/-- The index at which the loop of lines 553-558 stops: the number of leading positions at
which the two strings agree. -/
def findCompletions.commonLength : List Char → List Char → Nat
  | a :: as, b :: bs => if a ≠ b then 0 else findCompletions.commonLength as bs + 1
  | _, _ => 0

/-- One turn of the loop of lines 545-562 on `result` and `common`. -/
def findCompletions.step (name : QString) (acc : QStringList × QString)
    (it : PropertyEntry V) : QStringList × QString :=
  let propertyName : QString := some it.name
  if QString.startsWith propertyName name then
    (acc.1 ++ [propertyName],
      if QString.isNull acc.2 then propertyName
      else
        let i := findCompletions.commonLength (QString.chars acc.2)
          (QString.chars propertyName)
        QString.mid acc.2 0 i)
  else acc

/-- The list `result` of `findCompletions` before it is sorted, and the value of
`commonName` (lines 529-585). -/
def findCompletions.collect (h : Host σ E V) (engine : E) (context : QScriptContext V)
    (path : QStringList) (name : QString) (commonName : QString) : QStringList × QString :=
  let v := findCompletions.resolve h engine context path
  let lenght := path.length
  if QString.isEmpty name then
    let result := (h.properties engine v).foldl
      (fun (result : QStringList) it => result ++ [some it.name]) []
    (if lenght = 0 then result ++ reservedWords else result, commonName)
  else
    let loop := (h.properties engine v).foldl (findCompletions.step name) ([], none)
    let result := loop.1
    let common := loop.2
    let commonName :=
      if !QString.isNull common then QString.mid common (QString.length name) (-1)
      else commonName
    let result :=
      if lenght = 0 then
        result ++ reservedWords.filter fun word => QString.startsWith word name
      else result
    (result, commonName)

/-- The static function `findCompletions` (lines 514-589): the list it returns and the
value it leaves in `commonName`. -/
def findCompletions (h : Host σ E V) (engine : E) (context : QScriptContext V)
    (path : QStringList) (name : QString) (commonName : QString) : QStringList × QString :=
  let collected := findCompletions.collect h engine context path name commonName
  (qStableSort collected.1, collected.2)

/-- The loop `while (startWord > 0 && isIdentifierChar(expression.at(startWord - 1)))
startWord--;` (lines 615-617 and 626-628). -/
def Shell.completeScriptExpression.skipIdentifier (h : Host σ E V) (expression : QString)
    (fuel : Nat) (startWord : Int) : Option Int :=
  whileLoop
    (fun startWord =>
      if startWord > 0 then (QString.at expression (startWord - 1)).map (isIdentifierChar h)
      else some false)
    (fun startWord => some (startWord - 1))
    fuel startWord

/-- The condition of the loop of lines 624-632 on `startWord` and `path`:
`startWord > 0 && expression.at(startWord) == dot`. -/
def Shell.completeScriptExpression.pathLoop.cond (expression : QString)
    (a : Int × QStringList) : Option Bool :=
  let dot := '.'
  if a.1 > 0 then (QString.at expression a.1).map fun ch => ch = dot
  else some false

/-- The body of the loop of lines 624-632 on `startWord` and `path` (lines 625-631); its
inner loop is run with `fuel` tests of the condition. -/
def Shell.completeScriptExpression.pathLoop.body (h : Host σ E V) (expression : QString)
    (fuel : Nat) (a : Int × QStringList) : Option (Int × QStringList) :=
  let endWord := a.1
  match Shell.completeScriptExpression.skipIdentifier h expression fuel a.1 with
  | none => none
  | some startWord =>
    let pathItem := QString.mid expression startWord (endWord - startWord)
    some (startWord - 1, pathItem :: a.2)

/-- The loop of lines 624-632 on `startWord` and `path`. -/
def Shell.completeScriptExpression.pathLoop (h : Host σ E V) (expression : QString)
    (fuel : Nat) (startWord : Int) (path : QStringList) : Option (Int × QStringList) :=
  whileLoop (Shell.completeScriptExpression.pathLoop.cond expression)
    (Shell.completeScriptExpression.pathLoop.body h expression fuel) fuel (startWord, path)

/-- What lines 604-633 of `Shell::completeScriptExpression` make of the expression: the
path, the name and the value written to `completitionStartAt`. Each loop is run with
`fuel` tests of its condition. -/
def Shell.completeScriptExpression.parse (h : Host σ E V) (expression : QString)
    (fuel : Nat) : Option (QStringList × QString × Int) :=
  let path : QStringList := []
  let name : QString := none
  if QString.isEmpty expression then some (path, name, 0)
  else
    let endWord := QString.length expression - 1
    let startWord := endWord + 1
    match Shell.completeScriptExpression.skipIdentifier h expression fuel startWord with
    | none => none
    | some startWord =>
      let name :=
        if startWord ≤ endWord then
          QString.mid expression startWord (endWord - startWord + 1)
        else name
      let completitionStartAt := startWord
      let startWord := startWord - 1
      match Shell.completeScriptExpression.pathLoop h expression fuel startWord path with
      | none => none
      | some a => some (a.2, name, completitionStartAt)

/-- Lines 604-636 of `Shell::completeScriptExpression` on the engine `d->engine`: the list
returned and the values left in `completitionStartAt` and `commonName`. The loops get as
many tests of their conditions as the expression has characters, and two more. -/
def completions (h : Host σ E V) (engine : E) (expression : QString)
    (_completitionStartAt : Int) (commonName : QString) :
    Option (QStringList × Int × QString) :=
  match Shell.completeScriptExpression.parse h expression
      ((QString.chars expression).length + 2) with
  | none => none
  | some (path, name, completitionStartAt) =>
    let found := findCompletions h engine (h.currentContext engine) path name commonName
    some (found.1, completitionStartAt, found.2)

/-! ## The engine as a property map

`shell.cpp` relies on the script engine to keep the properties of objects: what it sets is
what is read later, and what it does to one object leaves the others alone. `EngineLaws`
spells this out for the operations `initEngine` and `reset` call. -/

/-- The laws of an engine whose objects are property maps. -/
structure EngineLaws (h : Host σ E V) : Prop where
  /-- The global object is an object. -/
  isObject_globalObject : ∀ e, h.isObject (h.globalObject e) = true
  /-- A wrapper of a `QObject` is an object. -/
  isObject_newQObject : ∀ e r b, h.isObject (h.newQObject e r b).1 = true
  /-- A function is an object. -/
  isObject_newFunction : ∀ e f, h.isObject (h.newFunction e f).1 = true
  /-- A new object is an object. -/
  isObject_newObject : ∀ e, h.isObject (h.newObject e).1 = true
  /-- A new wrapper is not the global object. -/
  newQObject_ne_globalObject : ∀ e r b, (h.newQObject e r b).1 ≠ h.globalObject e
  /-- A new function is not the global object. -/
  newFunction_ne_globalObject : ∀ e f, (h.newFunction e f).1 ≠ h.globalObject e
  /-- A new object is not the global object. -/
  newObject_ne_globalObject : ∀ e, (h.newObject e).1 ≠ h.globalObject e
  /-- An object that is set as global object is the global object. -/
  globalObject_setGlobalObject : ∀ e v, h.isObject v = true →
    h.globalObject (h.setGlobalObject e v) = v
  /-- Wrapping a `QObject` keeps the global object. -/
  globalObject_newQObject : ∀ e r b,
    h.globalObject (h.newQObject e r b).2 = h.globalObject e
  /-- Creating a function keeps the global object. -/
  globalObject_newFunction : ∀ e f, h.globalObject (h.newFunction e f).2 = h.globalObject e
  /-- Creating an object keeps the global object. -/
  globalObject_newObject : ∀ e, h.globalObject (h.newObject e).2 = h.globalObject e
  /-- Setting the data of a function keeps the global object. -/
  globalObject_setData : ∀ e f x, h.globalObject (h.setData e f x) = h.globalObject e
  /-- Setting a property keeps the global object. -/
  globalObject_setProperty : ∀ e o n x f,
    h.globalObject (h.setProperty e o n x f) = h.globalObject e
  /-- Setting the interval keeps the global object. -/
  globalObject_setProcessEventsInterval : ∀ e i,
    h.globalObject (h.setProcessEventsInterval e i) = h.globalObject e
  /-- A property of an object has the value it was set to. -/
  property_setProperty_same : ∀ e o n x f, h.isObject o = true →
    h.property (h.setProperty e o n x f) o (some n) = x
  /-- Setting a property leaves the other objects and the other names alone. -/
  property_setProperty_other : ∀ e o n x f o' n',
    o' ≠ o ∨ QString.chars n' ≠ n.data →
    h.property (h.setProperty e o n x f) o' n' = h.property e o' n'
  /-- Wrapping a `QObject` leaves the properties of the other objects alone. -/
  property_newQObject : ∀ e r b o n, o ≠ (h.newQObject e r b).1 →
    h.property (h.newQObject e r b).2 o n = h.property e o n
  /-- Creating an object leaves the properties of the other objects alone. -/
  property_newObject : ∀ e o n, o ≠ (h.newObject e).1 →
    h.property (h.newObject e).2 o n = h.property e o n
  /-- Setting the global object changes no property. -/
  property_setGlobalObject : ∀ e v o n,
    h.property (h.setGlobalObject e v) o n = h.property e o n
  /-- An iterator shows the values the properties have. -/
  properties_value : ∀ e o it, it ∈ h.properties e o →
    h.property e o (some it.name) = it.value
  /-- An iterator shows a property that was set to an object, with its flags. -/
  mem_properties_setProperty_same : ∀ e o n x, h.isObject o = true → h.isObject x = true →
    ⟨n, x, Undeletable⟩ ∈ h.properties (h.setProperty e o n x Undeletable) o
  /-- Setting a property leaves the other objects and the other names alone, for an
  iterator too. -/
  mem_properties_setProperty_other : ∀ e o n x f o' it, it ∈ h.properties e o' →
    o' ≠ o ∨ it.name ≠ n → it ∈ h.properties (h.setProperty e o n x f) o'
  /-- Wrapping a `QObject` leaves the properties of the other objects alone, for an iterator
  too. -/
  properties_newQObject : ∀ e r b o, o ≠ (h.newQObject e r b).1 →
    h.properties (h.newQObject e r b).2 o = h.properties e o
  /-- Creating a function leaves the properties of the other objects alone. -/
  properties_newFunction : ∀ e f o, o ≠ (h.newFunction e f).1 →
    h.properties (h.newFunction e f).2 o = h.properties e o
  /-- Creating an object leaves the properties of the other objects alone, for an iterator
  too. -/
  properties_newObject : ∀ e o, o ≠ (h.newObject e).1 →
    h.properties (h.newObject e).2 o = h.properties e o
  /-- Setting the data of a function changes no property. -/
  properties_setData : ∀ e f x o, h.properties (h.setData e f x) o = h.properties e o
  /-- Setting the interval changes no property. -/
  properties_setProcessEventsInterval : ∀ e i o,
    h.properties (h.setProcessEventsInterval e i) o = h.properties e o
  /-- The interval of an engine is the one it was set to. -/
  processEventsInterval_setProcessEventsInterval : ∀ e i,
    h.processEventsInterval (h.setProcessEventsInterval e i) = i

/-! ## A host whose engine is a property map -/

/-- The values of the property-map engine: an object is known by its number and by the
`QObject` it wraps, if any. -/
inductive MapValue where
  | invalid
  | undefined
  | number (n : Int)
  | native (name : String)
  | object (id : Nat) (wraps : Option QObjectRef)
  deriving DecidableEq, Repr

/-- Is the value an object? -/
def MapValue.isObject : MapValue → Bool
  | .object _ _ => true
  | _ => false

/-- The state of the property-map engine: for every value its properties by name and the
order in which an iterator runs through the names, the global object, the number of the
next object, the `this` object and the callee data of the current context when they are
set, the arguments of the current call, and the interval of `processEventsInterval`. -/
structure MapEngine where
  slots : MapValue → String → Option (MapValue × PropertyFlags) := fun _ _ => none
  names : MapValue → List String := fun _ => []
  global : Nat × Option QObjectRef := (0, none)
  next : Nat := 1
  thisObject : Option MapValue := none
  calleeData : MapValue := .undefined
  arguments : List MapValue := []
  interval : Int := -1

/-- The global object of a property-map engine. -/
def MapEngine.globalObject (e : MapEngine) : MapValue := .object e.global.1 e.global.2

/-- A new object with the given properties, none of them flagged: its number is one no
object was given so far, and not that of the global object. -/
def MapEngine.create (e : MapEngine) (wraps : Option QObjectRef)
    (members : List (String × MapValue)) : MapValue × MapEngine :=
  let id := max e.next (e.global.1 + 1)
  let v := MapValue.object id wraps
  (v, { e with
    next := id + 1
    slots := fun o => if o = v then fun n => (members.lookup n).map fun x => (x, 0)
      else e.slots o
    names := fun o => if o = v then members.map Prod.fst else e.names o })

/-- Setting a property of an object of a property-map engine; an invalid value removes
the property. -/
def MapEngine.setProperty (e : MapEngine) (o : MapValue) (n : String) (x : MapValue)
    (f : PropertyFlags) : MapEngine :=
  if o.isObject then
    { e with
      slots := fun o' =>
        if o' = o then fun n' =>
          if n' = n then (if x = .invalid then none else some (x, f)) else e.slots o n'
        else e.slots o'
      names := fun o' =>
        if o' = o then (if n ∈ e.names o then e.names o else e.names o ++ [n])
        else e.names o' }
  else e

/-- The properties an iterator of a property-map engine runs through: none for a value that
is not an object. -/
def MapEngine.properties (e : MapEngine) (o : MapValue) : List (PropertyEntry MapValue) :=
  if o.isObject then (e.names o).filterMap fun n => (e.slots o n).map fun p => ⟨n, p.1, p.2⟩
  else []

/-- The value of a property in a property-map engine; the invalid value when there is no
such property, or when the value asked is not an object. -/
def MapEngine.property (e : MapEngine) (o : MapValue) (n : QString) : MapValue :=
  if o.isObject then
    match e.slots o (String.mk (QString.chars n)) with
    | some p => p.1
    | none => .invalid
  else .invalid

/-- The members a wrapper of the host API object shows, as far as the examples need them. -/
def hostMembers : List (String × MapValue) :=
  [("print", .native "sr.engine.print"), ("exit", .native "sr.engine.exit")]

/-- A host whose engine is a property map. It reads like `demoHost`; every script
evaluates to undefined and changes nothing. -/
def mapHost : Host (List String) MapEngine MapValue where
  readSentence := demoHost.readSentence
  readAll := demoHost.readAll
  evaluate := fun w e _ _ _ => { result := .undefined, engine := e, world := w }
  hasUncaughtException := fun _ => false
  isUndefined := fun v => v == .undefined
  newEngine := {}
  processEventsInterval := fun e => e.interval
  setProcessEventsInterval := fun e i => { e with interval := i }
  globalObject := MapEngine.globalObject
  setGlobalObject := fun e v =>
    match v with
    | .object id wraps => { e with global := (id, wraps) }
    | _ => e
  newQObject := fun e r _ =>
    match r with
    | .scriptableEngine => e.create (some r) hostMembers
    | .shell => e.create (some r) []
  newFunction := fun e _ => e.create none []
  newObject := fun e => e.create none []
  setData := fun e _ _ => e
  setProperty := MapEngine.setProperty
  properties := MapEngine.properties
  currentContext := fun e =>
    { thisObject := e.thisObject.getD e.globalObject, calleeData := e.calleeData,
      arguments := e.arguments }
  property := MapEngine.property
  isObject := MapValue.isObject
  undefinedValue := fun _ => .undefined
  toQObject := fun v =>
    match v with
    | .object _ wraps => wraps
    | _ => none
  isLetter := Char.isAlpha
  isNumber := Char.isDigit

/-- The engine `e` after the properties with the given names were set on the object `o`,
each to the number of its position. -/
def MapEngine.withNumbers (e : MapEngine) (o : MapValue) (names : List String) :
    MapEngine :=
  (names.enum.foldl
    (fun e p => mapHost.setProperty e o p.2 (.number p.1) 0) e)

/-- An engine whose global object has a property `a`, an object with a property `b`, an
object with the properties `foo`, `bar` and `baz`. -/
def abEngine : MapEngine :=
  let a := mapHost.newObject mapHost.newEngine
  let b := mapHost.newObject a.2
  let e := mapHost.setProperty b.2 (mapHost.globalObject b.2) "a" a.1 0
  let e := mapHost.setProperty e a.1 "b" b.1 0
  e.withNumbers b.1 ["foo", "bar", "baz"]

/-- A shell of the property-map host around the given engine, otherwise as constructed. -/
def mapShell (engine : MapEngine) : Shell (List String) MapEngine MapValue :=
  { d := { engine := engine }, world := [] }

/-- An engine whose global object has a property `sr`, the number 5, and a property `x`, the
number 6. -/
def srEngine : MapEngine :=
  let e := mapHost.setProperty mapHost.newEngine (mapHost.globalObject mapHost.newEngine)
    "sr" (.number 5) 0
  mapHost.setProperty e (mapHost.globalObject e) "x" (.number 6) 0

/-- An engine whose global object has the property `top`. -/
def topEngine : MapEngine :=
  MapEngine.withNumbers mapHost.newEngine (mapHost.globalObject mapHost.newEngine) ["top"]

/-! ## Vocabulary for the statements on completion -/

/-- The names of the properties of the value that `findCompletions` completes on, as the
iterator runs through them. -/
def findCompletions.propertyNames (h : Host σ E V) (engine : E) (context : QScriptContext V)
    (path : QStringList) : QStringList :=
  (h.properties engine (findCompletions.resolve h engine context path)).map
    fun it => some it.name

/-- The list `c` is the longest common prefix of the lists in `M`: it is a prefix of each
of them, and every list that is a prefix of each of them is a prefix of `c`. -/
def IsLongestCommonPrefix (c : List Char) (M : List (List Char)) : Prop :=
  (∀ m ∈ M, c <+: m) ∧ ∀ q : List Char, (∀ m ∈ M, q <+: m) → q <+: c

/-- The items of a path that are looked up as property names, in the words of the spec: the
items of the path in order, after dropping the first one when it is `this`. -/
def walkedSegments (path : QStringList) : QStringList :=
  match path with
  | [] => []
  | first :: rest => if QString.chars first = "this".data then rest else first :: rest

/-- The value reached from the value `c` by looking up the items of a list in order as
property names, each on the value the lookup before it gave. -/
def walk (h : Host σ E V) (engine : E) (c : V) (segments : QStringList) : V :=
  segments.foldl (fun v item => h.property engine v item) c

/-- What a script engine does with a value that is not an object, the invalid and the
undefined value among them: the lookup of a property gives a value that is not an object
either, and an iterator finds no property. -/
structure LookupLaws (h : Host σ E V) : Prop where
  /-- A property of a value that is not an object is not an object. -/
  property_of_not_object : ∀ e v n, h.isObject v = false →
    h.isObject (h.property e v n) = false
  /-- A value that is not an object has no properties. -/
  properties_of_not_object : ∀ e v, h.isObject v = false → h.properties e v = []

/-! ## The registry of connections of `ScriptableSql`

The methods of `scriptablesql.cpp` that register a connection. `D` stands for
`QSqlDatabase` and `ω` for the state of the world behind its static functions. -/

/-- Modelled from the spec: the class `ScriptableDatabase` is declared in
`scriptabledatabase.h`, which is not among the sources; an object of it is taken to be what
its constructor is given: the database `db()`, `isReadOnly()` and `autoThrow()`. -/
structure ScriptableDatabase (D : Type) where
  db : D
  isReadOnly : Bool
  autoThrow : Bool
  deriving DecidableEq, Repr

/-- The call `map.value(key)` on a `QMap` with keys of type `QString`, kept as the list of
its entries: the value of the first entry whose key equals `key`, or `none`, for the null
pointer, when there is none. -/
def QMap.value {α : Type} (map : List (QString × α)) (key : QString) : Option α :=
  (map.find? fun entry => QString.equals entry.1 key).map Prod.snd

/-- The call `map.take(key)`: the value it returns, and the map without the entries of that
key. -/
def QMap.take {α : Type} (map : List (QString × α)) (key : QString) :
    Option α × List (QString × α) :=
  (QMap.value map key, map.filter fun entry => !QString.equals entry.1 key)

/-- The call `map.insert(key, value)`: an entry of that key is replaced. -/
def QMap.insert {α : Type} (map : List (QString × α)) (key : QString) (value : α) :
    List (QString × α) :=
  (map.filter fun entry => !QString.equals entry.1 key) ++ [(key, value)]

/-- The members of `ScriptableSql` (the constructor sets `m_autoThrow`, lines 30-33). -/
structure ScriptableSql (D : Type) where
  m_autoThrow : Bool := true
  m_connections : List (QString × ScriptableDatabase D) := []

/-- The collaborators of `ScriptableSql`: the static functions of `QSqlDatabase` that
`addDatabase` and `cloneDatabase` call, and the destructor of `ScriptableDatabase`. -/
structure SqlHost (ω D : Type) where
  /-- The call `QSqlDatabase::contains(connectionName)`. -/
  contains : ω → QString → Bool
  /-- The call `QSqlDatabase::addDatabase(type, connectionName)`. -/
  addDatabase : ω → QString → QString → D × ω
  /-- The call `QSqlDatabase::cloneDatabase(other, connectionName)`. -/
  cloneDatabase : ω → D → QString → D × ω
  /-- The statement `delete old`. -/
  deleteDatabase : ω → ScriptableDatabase D → ω

/-- What a call of `addDatabase` or `cloneDatabase` leaves and returns: the object, the
world, the pointer returned (`none` is 0) and the message given to
`context()->throwError`, when it is called. -/
structure SqlOutcome (ω D : Type) where
  sql : ScriptableSql D
  world : ω
  result : Option (ScriptableDatabase D)
  thrown : Option String

variable {ω D : Type}

/-- The message `tr("The connection '%1' already exists and can not be replaced")
.arg(connectionName)`, untranslated. -/
def ScriptableSql.existsMessage (connectionName : QString) : String :=
  "The connection '" ++ String.mk (QString.chars connectionName) ++
    "' already exists and can not be replaced"

/-- The two places where `addDatabase` and `cloneDatabase` give up (lines 90-93 and 95-98,
114-117 and 119-122): the error is thrown when `m_autoThrow` is set, and 0 is returned. -/
def ScriptableSql.refuse (sql : ScriptableSql D) (w : ω) (connectionName : QString) :
    SqlOutcome ω D :=
  { sql := sql, world := w, result := none
    thrown :=
      if sql.m_autoThrow then some (ScriptableSql.existsMessage connectionName) else none }

/-- The method `ScriptableSql::addDatabase` (lines 83-105). -/
def ScriptableSql.addDatabase (h : SqlHost ω D) (sql : ScriptableSql D) (w : ω)
    (type connectionName : QString) : SqlOutcome ω D :=
  let taken := QMap.take sql.m_connections connectionName
  let old := taken.1
  let sql := { sql with m_connections := taken.2 }
  let go (w : ω) : SqlOutcome ω D :=
    let db := h.addDatabase w type connectionName
    let result : ScriptableDatabase D :=
      { db := db.1, isReadOnly := false, autoThrow := sql.m_autoThrow }
    { sql := { sql with m_connections := QMap.insert sql.m_connections connectionName result }
      world := db.2, result := some result, thrown := none }
  match old with
  | some old =>
    if !old.isReadOnly then go (h.deleteDatabase w old)
    else sql.refuse w connectionName
  | none =>
    if h.contains w connectionName then sql.refuse w connectionName
    else go w

/-- The method `ScriptableSql::cloneDatabase` (lines 107-130). -/
def ScriptableSql.cloneDatabase (h : SqlHost ω D) (sql : ScriptableSql D) (w : ω)
    (other : ScriptableDatabase D) (connectionName : QString) : SqlOutcome ω D :=
  let taken := QMap.take sql.m_connections connectionName
  let old := taken.1
  let sql := { sql with m_connections := taken.2 }
  let go (w : ω) : SqlOutcome ω D :=
    let db1 := other.db
    let db2 := h.cloneDatabase w db1 connectionName
    let result : ScriptableDatabase D :=
      { db := db2.1, isReadOnly := false, autoThrow := other.autoThrow }
    { sql := { sql with m_connections := QMap.insert sql.m_connections connectionName result }
      world := db2.2, result := some result, thrown := none }
  match old with
  | some old =>
    if !old.isReadOnly then go (h.deleteDatabase w old)
    else sql.refuse w connectionName
  | none =>
    if h.contains w connectionName then sql.refuse w connectionName
    else go w

/-- A world of `QSqlDatabase` that is the list of the names of its connections; a database
is known by its name. -/
def namesSqlHost : SqlHost (List String) String where
  contains := fun w name => w.contains (String.mk (QString.chars name))
  addDatabase := fun w _ name =>
    (String.mk (QString.chars name), String.mk (QString.chars name) :: w)
  cloneDatabase := fun w _ name =>
    (String.mk (QString.chars name), String.mk (QString.chars name) :: w)
  deleteDatabase := fun w _ => w

/-! ## The print source of `MainWindow::run` -/

/-- The text `QString::fromLatin1("<!-- label -->\n%1\n").arg(text)` of lines 321-336, for
a label that holds no place marker. -/
def MainWindow.run.part (label : String) (text : QString) : String :=
  "<!-- " ++ label ++ " -->\n" ++ String.mk (QString.chars text) ++ "\n"

/-- The text `printSource` that `MainWindow::run` assembles (lines 310-337) from the texts
of the report and the outcome of the run. -/
def MainWindow.run.printSource (isRunResultValid : Bool)
    (errorMessage header headerFirst headerLast content footer footerFirst
      footerLast : QString) : String :=
  let printSource := ""
  let printSource :=
    if !isRunResultValid then printSource ++ MainWindow.run.part "error" errorMessage
    else printSource
  let printSource :=
    if !QString.isNull headerFirst then
      printSource ++ MainWindow.run.part "headerFirst" headerFirst
    else printSource
  let printSource := printSource ++ MainWindow.run.part "header" header
  let printSource :=
    if !QString.isNull headerLast then
      printSource ++ MainWindow.run.part "headerLast" headerLast
    else printSource
  let printSource := printSource ++ MainWindow.run.part "content" content
  let printSource :=
    if !QString.isNull footerFirst then
      printSource ++ MainWindow.run.part "footerFirst" footerFirst
    else printSource
  let printSource := printSource ++ MainWindow.run.part "footer" footer
  let printSource :=
    if !QString.isNull headerLast then
      printSource ++ MainWindow.run.part "footerLast" footerLast
    else printSource
  printSource

/-! ## The loop combinator -/

theorem doWhile_succ {α : Type} (body : α → α) (cond : α → Bool) (fuel : Nat) (a : α) :
    doWhile body cond (fuel + 1) a =
      if cond (body a) then doWhile body cond fuel (body a) else some (body a) := rfl

/-- A loop whose condition holds after each of the first `n` iterations and fails after
iteration `n + 1` returns the state after `n + 1` iterations, given that much fuel. -/
theorem doWhile_stop {α : Type} (body : α → α) (cond : α → Bool) :
    ∀ (n : Nat) (a : α) (fuel : Nat), n + 1 ≤ fuel →
      (∀ j, 0 < j → j ≤ n → cond (body^[j] a) = true) →
      cond (body^[n + 1] a) = false →
      doWhile body cond fuel a = some (body^[n + 1] a) := by
  intro n
  induction n with
  | zero =>
    intro a fuel hfuel _ hstop
    obtain ⟨fuel, rfl⟩ : ∃ f, fuel = f + 1 := ⟨fuel - 1, by omega⟩
    simp only [Function.iterate_succ, Function.iterate_zero, Function.comp_apply, id] at hstop
    simp [doWhile_succ, hstop]
  | succ n ih =>
    intro a fuel hfuel hcont hstop
    obtain ⟨fuel, rfl⟩ : ∃ f, fuel = f + 1 := ⟨fuel - 1, by omega⟩
    have h1 : cond (body a) = true := by
      have := hcont 1 (by omega) (by omega)
      simpa using this
    rw [doWhile_succ, if_pos h1, Function.iterate_succ_apply]
    apply ih (body a) fuel (by omega)
    · intro j hj hjn
      have := hcont (j + 1) (by omega) (by omega)
      rwa [Function.iterate_succ_apply] at this
    · rwa [Function.iterate_succ_apply] at hstop

/-- A loop that returns has run some `n + 1` iterations, with little enough fuel spent:
its condition held after each of the first `n` and failed after the last. -/
theorem doWhile_some {α : Type} (body : α → α) (cond : α → Bool) :
    ∀ (fuel : Nat) (a r : α), doWhile body cond fuel a = some r →
      ∃ n, n < fuel ∧ r = body^[n + 1] a ∧ cond r = false ∧
        ∀ j, 0 < j → j ≤ n → cond (body^[j] a) = true := by
  intro fuel
  induction fuel with
  | zero => intro a r hr; simp [doWhile] at hr
  | succ fuel ih =>
    intro a r hr
    rw [doWhile_succ] at hr
    by_cases hc : cond (body a) = true
    · rw [if_pos hc] at hr
      obtain ⟨n, hn, hrn, hstop, hcont⟩ := ih (body a) r hr
      refine ⟨n + 1, by omega, ?_, hstop, ?_⟩
      · rw [hrn, Function.iterate_succ_apply (n := n + 1)]
      · intro j hj hjn
        obtain ⟨j, rfl⟩ : ∃ i, j = i + 1 := ⟨j - 1, by omega⟩
        rw [Function.iterate_succ_apply]
        by_cases hj0 : j = 0
        · subst hj0; simpa using hc
        · exact hcont j (by omega) (by omega)
    · rw [if_neg hc] at hr
      have hr' : r = body a := by simpa using hr.symm
      refine ⟨0, by omega, by simpa using hr', ?_, ?_⟩
      · rw [hr']; simpa using hc
      · intro j hj hjn; omega

/-- Two loops whose bodies and conditions correspond under a map `f` of their states
return corresponding states, with the same fuel. -/
theorem doWhile_map {α β : Type} (f : α → β) (body : α → α) (body' : β → β)
    (cond : α → Bool) (cond' : β → Bool) (hbody : ∀ a, body' (f a) = f (body a))
    (hcond : ∀ a, cond' (f a) = cond a) :
    ∀ (fuel : Nat) (a : α),
      doWhile body' cond' fuel (f a) = (doWhile body cond fuel a).map f := by
  intro fuel
  induction fuel with
  | zero => intro a; rfl
  | succ fuel ih =>
    intro a
    rw [doWhile_succ, doWhile_succ, hbody, hcond]
    by_cases hc : cond (body a) = true
    · rw [if_pos hc, if_pos hc, ih]
    · rw [if_neg hc, if_neg hc]; rfl

/-! ## Logs and counting -/

@[simp] theorem Shell.emit_log (s : Shell σ E V) (e : Event V) :
    (s.emit e).log = s.log ++ [⟨s.d, e⟩] := rfl

@[simp] theorem Shell.emit_d (s : Shell σ E V) (e : Event V) : (s.emit e).d = s.d := rfl

@[simp] theorem Shell.emit_world (s : Shell σ E V) (e : Event V) :
    (s.emit e).world = s.world := rfl

@[simp] theorem count_nil (p : Event V → Bool) : count p ([] : List (Call E V)) = 0 := rfl

@[simp] theorem count_append (p : Event V → Bool) (l₁ l₂ : List (Call E V)) :
    count p (l₁ ++ l₂) = count p l₁ + count p l₂ := by
  simp [count]

@[simp] theorem count_cons (p : Event V → Bool) (c : Call E V) (l : List (Call E V)) :
    count p (c :: l) = count p l + if p c.event then 1 else 0 := by
  simp [count, List.countP_cons]

@[simp] theorem finishedCodes_nil : finishedCodes ([] : List (Call E V)) = [] := rfl

@[simp] theorem finishedCodes_append (l₁ l₂ : List (Call E V)) :
    finishedCodes (l₁ ++ l₂) = finishedCodes l₁ ++ finishedCodes l₂ := by
  simp [finishedCodes]

@[simp] theorem exitCodes_nil : exitCodes ([] : List (Call E V)) = [] := rfl

@[simp] theorem exitCodes_append (l₁ l₂ : List (Call E V)) :
    exitCodes (l₁ ++ l₂) = exitCodes l₁ ++ exitCodes l₂ := by
  simp [exitCodes]

theorem finishedCodes_cons (c : Call E V) (l : List (Call E V)) :
    finishedCodes (c :: l) =
      (match c.event with
        | .finished code => [code]
        | _ => []) ++ finishedCodes l := by
  cases c with
  | mk st ev => cases ev <;> simp [finishedCodes, List.filterMap_cons]

theorem exitCodes_cons (c : Call E V) (l : List (Call E V)) :
    exitCodes (c :: l) =
      (match c.event with
        | .exit code => [code]
        | _ => []) ++ exitCodes l := by
  cases c with
  | mk st ev => cases ev <;> simp [exitCodes, List.filterMap_cons]

/-- The calls of `Shell::exit` only log `exit` and `finished` events. -/
theorem count_exitLog (p : Event V → Bool) (hexit : ∀ c, p (.exit c) = false)
    (hfinished : ∀ c, p (.finished c) = false) :
    ∀ (cs : List Int) (d : ShellPrivate E), count p (exitLog d cs : List (Call E V)) = 0 := by
  intro cs
  induction cs with
  | nil => intro d; rfl
  | cons c cs ih => intro d; simp [exitLog, ih, hexit, hfinished]

theorem finishedCodes_exitLog :
    ∀ (cs : List Int) (d : ShellPrivate E),
      finishedCodes (exitLog d cs : List (Call E V)) = cs := by
  intro cs
  induction cs with
  | nil => intro d; rfl
  | cons c cs ih => intro d; simp [exitLog, ih, finishedCodes_cons]

theorem exitCodes_exitLog :
    ∀ (cs : List Int) (d : ShellPrivate E),
      exitCodes (exitLog d cs : List (Call E V)) = cs := by
  intro cs
  induction cs with
  | nil => intro d; rfl
  | cons c cs ih => intro d; simp [exitLog, ih, exitCodes_cons]

/-- The effect of a sequence of calls of `Shell::exit`. -/
theorem foldl_exit :
    ∀ (cs : List Int) (s : Shell σ E V),
      cs.foldl Shell.exit s =
        { d := { s.d with exit := s.d.exit || !cs.isEmpty,
                          exitCode := cs.getLast?.getD s.d.exitCode },
          world := s.world,
          log := s.log ++ exitLog s.d cs } := by
  intro cs
  induction cs with
  | nil => intro s; simp [exitLog]
  | cons c cs ih =>
    intro s
    rw [List.foldl_cons, ih]
    cases cs with
    | nil => simp [Shell.exit, Shell.emit, exitLog]
    | cons c' cs =>
      have hlast : ∀ x : Int, (c' :: cs).getLast?.getD x = (c' :: cs).getLast (by simp) := by
        intro x; simp [List.getLast?_eq_getLast]
      simp [Shell.exit, Shell.emit, exitLog, List.getLast?_cons_cons, hlast]

/-- The effect of the evaluation statement on the shell. -/
theorem Shell.engineEvaluate_fst (h : Host σ E V) (s : Shell σ E V) (program : QString)
    (line : Int) :
    (s.engineEvaluate h program line).1 =
      { d := { s.d with
                engine := (h.evaluate s.world s.d.engine program s.d.fileName line).engine,
                exit := s.d.exit ||
                  !(h.evaluate s.world s.d.engine program s.d.fileName line).exitCalls.isEmpty,
                exitCode :=
                  (h.evaluate s.world s.d.engine program s.d.fileName
                    line).exitCalls.getLast?.getD s.d.exitCode },
        world := (h.evaluate s.world s.d.engine program s.d.fileName line).world,
        log := s.log ++ ⟨s.d, .evaluate program s.d.fileName line⟩ ::
          exitLog
            { s.d with
              engine := (h.evaluate s.world s.d.engine program s.d.fileName line).engine }
            (h.evaluate s.world s.d.engine program s.d.fileName line).exitCalls } := by
  simp [Shell.engineEvaluate, foldl_exit, Shell.emit]

@[simp] theorem Shell.engineEvaluate_snd (h : Host σ E V) (s : Shell σ E V)
    (program : QString) (line : Int) :
    (s.engineEvaluate h program line).2 =
      (h.evaluate s.world s.d.engine program s.d.fileName line).result := rfl

/-- The run prologue leaves the world alone and logs at most the call of `initEngine`. -/
theorem Shell.beginRun_log (h : Host σ E V) (s : Shell σ E V) :
    (s.beginRun h).log =
      s.log ++ if s.d.isInitialized then []
        else [⟨{ s.d with isInitialized := true }, .initEngine⟩] := by
  unfold Shell.beginRun Shell.initIfNeeded
  by_cases hi : s.d.isInitialized = true <;> simp [hi, Shell.emit]

@[simp] theorem Shell.beginRun_world (h : Host σ E V) (s : Shell σ E V) :
    (s.beginRun h).world = s.world := by
  unfold Shell.beginRun Shell.initIfNeeded
  by_cases hi : s.d.isInitialized = true <;> simp [hi, Shell.emit]

@[simp] theorem Shell.beginRun_exit (h : Host σ E V) (s : Shell σ E V) :
    (s.beginRun h).d.exit = false := rfl

@[simp] theorem Shell.beginRun_exitCode (h : Host σ E V) (s : Shell σ E V) :
    (s.beginRun h).d.exitCode = 0 := rfl

@[simp] theorem Shell.beginRun_lineNumber (h : Host σ E V) (s : Shell σ E V) :
    (s.beginRun h).d.lineNumber = s.d.lineNumber := by
  unfold Shell.beginRun Shell.initIfNeeded
  by_cases hi : s.d.isInitialized = true <;> simp [hi, Shell.emit, initEngine]

@[simp] theorem Shell.beginRun_fileName (h : Host σ E V) (s : Shell σ E V) :
    (s.beginRun h).d.fileName = s.d.fileName := by
  unfold Shell.beginRun Shell.initIfNeeded
  by_cases hi : s.d.isInitialized = true <;> simp [hi, Shell.emit, initEngine]

@[simp] theorem Shell.beginRun_isInitialized (h : Host σ E V) (s : Shell σ E V) :
    (s.beginRun h).d.isInitialized = true := by
  unfold Shell.beginRun Shell.initIfNeeded
  by_cases hi : s.d.isInitialized = true <;> simp [hi, Shell.emit, initEngine]

/-! ## The straight-line run operations -/

/-- The shape of the log of `runBatch`. -/
theorem Shell.runBatch_log (h : Host σ E V) (s : Shell σ E V) :
    ∃ ev : Evaluation σ E V,
      ev = h.evaluate (h.readAll s.world s.d.lineNumber).2.2 (s.beginRun h).d.engine
        (h.readAll s.world s.d.lineNumber).1 s.d.fileName s.d.lineNumber ∧
      (s.runBatch h).d.engine = ev.engine ∧
      (s.runBatch h).d.exit = !ev.exitCalls.isEmpty ∧
      (s.runBatch h).d.exitCode = ev.exitCalls.getLast?.getD 0 ∧
      (s.runBatch h).log = (s.beginRun h).log ++
        ⟨(s.beginRun h).d, .readAll (h.readAll s.world s.d.lineNumber).1
          (h.readAll s.world s.d.lineNumber).2.1⟩ ::
        ⟨{ (s.beginRun h).d with lineNumber := (h.readAll s.world s.d.lineNumber).2.1 },
          .evaluate (h.readAll s.world s.d.lineNumber).1 s.d.fileName s.d.lineNumber⟩ ::
        (exitLog { (s.beginRun h).d with
                    lineNumber := (h.readAll s.world s.d.lineNumber).2.1,
                    engine := ev.engine } ev.exitCalls ++
          (if h.hasUncaughtException ev.engine then
            [⟨{ (s.beginRun h).d with
                lineNumber := (h.readAll s.world s.d.lineNumber).2.1,
                engine := ev.engine,
                exit := !ev.exitCalls.isEmpty,
                exitCode := ev.exitCalls.getLast?.getD 0 },
              .printUncaughtException ev.result⟩]
          else []) ++
          (if ev.exitCalls.isEmpty then
            [⟨{ (s.beginRun h).d with
                lineNumber := (h.readAll s.world s.d.lineNumber).2.1,
                engine := ev.engine,
                exit := !ev.exitCalls.isEmpty,
                exitCode := ev.exitCalls.getLast?.getD 0 },
              .finished 0⟩]
          else [])) := by
  refine ⟨_, rfl, ?_⟩
  unfold Shell.runBatch
  simp only [Shell.engineEvaluate_fst, Shell.engineEvaluate_snd, Shell.readAll, Shell.emit_d,
    Shell.emit_log, Shell.emit_world, Shell.beginRun_world, Shell.beginRun_lineNumber,
    Shell.beginRun_fileName, Shell.beginRun_exit, Shell.beginRun_exitCode]
  by_cases hx : h.hasUncaughtException
      (h.evaluate (h.readAll s.world s.d.lineNumber).2.2 (s.beginRun h).d.engine
        (h.readAll s.world s.d.lineNumber).1 s.d.fileName s.d.lineNumber).engine = true <;>
  by_cases he :
      (h.evaluate (h.readAll s.world s.d.lineNumber).2.2 (s.beginRun h).d.engine
        (h.readAll s.world s.d.lineNumber).1 s.d.fileName s.d.lineNumber).exitCalls = [] <;>
  simp [hx, he, Shell.emit]

/-- The shape of the log of `runOneSentence`. -/
theorem Shell.runOneSentence_log (h : Host σ E V) (s : Shell σ E V) :
    ∃ ev : Evaluation σ E V,
      ev = h.evaluate (h.readSentence s.world s.d.lineNumber).2.2 (s.beginRun h).d.engine
        (h.readSentence s.world s.d.lineNumber).1 s.d.fileName s.d.lineNumber ∧
      (s.runOneSentence h).d.engine = ev.engine ∧
      (s.runOneSentence h).d.exit = !ev.exitCalls.isEmpty ∧
      (s.runOneSentence h).d.exitCode = ev.exitCalls.getLast?.getD 0 ∧
      (s.runOneSentence h).log = (s.beginRun h).log ++
        ⟨(s.beginRun h).d, .readSentence (h.readSentence s.world s.d.lineNumber).1
          (h.readSentence s.world s.d.lineNumber).2.1⟩ ::
        ⟨{ (s.beginRun h).d with lineNumber := (h.readSentence s.world s.d.lineNumber).2.1 },
          .evaluate (h.readSentence s.world s.d.lineNumber).1 s.d.fileName s.d.lineNumber⟩ ::
        (exitLog { (s.beginRun h).d with
                    lineNumber := (h.readSentence s.world s.d.lineNumber).2.1,
                    engine := ev.engine } ev.exitCalls ++
          (if h.hasUncaughtException ev.engine then
            [⟨{ (s.beginRun h).d with
                lineNumber := (h.readSentence s.world s.d.lineNumber).2.1,
                engine := ev.engine,
                exit := !ev.exitCalls.isEmpty,
                exitCode := ev.exitCalls.getLast?.getD 0 },
              .printUncaughtException ev.result⟩]
          else [])) := by
  refine ⟨_, rfl, ?_⟩
  unfold Shell.runOneSentence
  simp only [Shell.engineEvaluate_fst, Shell.engineEvaluate_snd, Shell.readSentence,
    Shell.emit_d, Shell.emit_log, Shell.emit_world, Shell.beginRun_world,
    Shell.beginRun_lineNumber, Shell.beginRun_fileName, Shell.beginRun_exit,
    Shell.beginRun_exitCode]
  by_cases hx : h.hasUncaughtException
      (h.evaluate (h.readSentence s.world s.d.lineNumber).2.2 (s.beginRun h).d.engine
        (h.readSentence s.world s.d.lineNumber).1 s.d.fileName s.d.lineNumber).engine = true <;>
  simp [hx, Shell.emit]

/-- The shape of the log of `runOneSentenceInteractive`. -/
theorem Shell.runOneSentenceInteractive_log (h : Host σ E V) (s : Shell σ E V) :
    ∃ ev : Evaluation σ E V,
      ev = h.evaluate (h.readSentence s.world s.d.lineNumber).2.2 (s.beginRun h).d.engine
        (h.readSentence s.world s.d.lineNumber).1 s.d.fileName s.d.lineNumber ∧
      (s.runOneSentenceInteractive h).d.engine = ev.engine ∧
      (s.runOneSentenceInteractive h).d.exit = !ev.exitCalls.isEmpty ∧
      (s.runOneSentenceInteractive h).d.exitCode = ev.exitCalls.getLast?.getD 0 ∧
      (s.runOneSentenceInteractive h).log = (s.beginRun h).log ++
        ⟨(s.beginRun h).d, .readSentence (h.readSentence s.world s.d.lineNumber).1
          (h.readSentence s.world s.d.lineNumber).2.1⟩ ::
        ⟨{ (s.beginRun h).d with lineNumber := (h.readSentence s.world s.d.lineNumber).2.1 },
          .evaluate (h.readSentence s.world s.d.lineNumber).1 s.d.fileName s.d.lineNumber⟩ ::
        (exitLog { (s.beginRun h).d with
                    lineNumber := (h.readSentence s.world s.d.lineNumber).2.1,
                    engine := ev.engine } ev.exitCalls ++
          (if h.hasUncaughtException ev.engine then
            [⟨{ (s.beginRun h).d with
                lineNumber := (h.readSentence s.world s.d.lineNumber).2.1,
                engine := ev.engine,
                exit := !ev.exitCalls.isEmpty,
                exitCode := ev.exitCalls.getLast?.getD 0 },
              .printUncaughtException ev.result⟩]
          else if h.isUndefined ev.result then []
          else
            [⟨{ (s.beginRun h).d with
                lineNumber := (h.readSentence s.world s.d.lineNumber).2.1,
                engine := ev.engine,
                exit := !ev.exitCalls.isEmpty,
                exitCode := ev.exitCalls.getLast?.getD 0 },
              .printResult ev.result⟩])) := by
  refine ⟨_, rfl, ?_⟩
  unfold Shell.runOneSentenceInteractive
  simp only [Shell.engineEvaluate_fst, Shell.engineEvaluate_snd, Shell.readSentence,
    Shell.emit_d, Shell.emit_log, Shell.emit_world, Shell.beginRun_world,
    Shell.beginRun_lineNumber, Shell.beginRun_fileName, Shell.beginRun_exit,
    Shell.beginRun_exitCode]
  by_cases hx : h.hasUncaughtException
      (h.evaluate (h.readSentence s.world s.d.lineNumber).2.2 (s.beginRun h).d.engine
        (h.readSentence s.world s.d.lineNumber).1 s.d.fileName s.d.lineNumber).engine = true <;>
  by_cases hu : h.isUndefined
      (h.evaluate (h.readSentence s.world s.d.lineNumber).2.2 (s.beginRun h).d.engine
        (h.readSentence s.world s.d.lineNumber).1 s.d.fileName s.d.lineNumber).result = true <;>
  simp [hx, hu, Shell.emit]

/-- The run prologue logs no call but, possibly, that of `initEngine`. -/
theorem Shell.count_beginRun_log (h : Host σ E V) (d : ShellPrivate E) (w : σ)
    (p : Event V → Bool) (hp : p .initEngine = false) :
    count p (Shell.beginRun h { d := d, world := w }).log = 0 := by
  rw [Shell.beginRun_log]
  by_cases hi : d.isInitialized = true <;> simp [hi, hp]

theorem Shell.finishedCodes_beginRun_log (h : Host σ E V) (d : ShellPrivate E) (w : σ) :
    finishedCodes (Shell.beginRun h { d := d, world := w }).log = [] := by
  rw [Shell.beginRun_log]
  by_cases hi : d.isInitialized = true <;> simp [hi, finishedCodes_cons]

theorem Shell.exitCodes_beginRun_log (h : Host σ E V) (d : ShellPrivate E) (w : σ) :
    exitCodes (Shell.beginRun h { d := d, world := w }).log = [] := by
  rw [Shell.beginRun_log]
  by_cases hi : d.isInitialized = true <;> simp [hi, exitCodes_cons]

/-- C6: `runBatch` reads once, with `readAll`, and evaluates once, the text it read, at the
line the shell was at before the read. It calls `printUncaughtException` once when the
engine has an uncaught exception after that evaluation and not at all otherwise, and it
never calls `printResult`. When `Shell::exit` was not called during the evaluation it
emits `finished(0)` as its last action and no other `finished`; when it was called, the
only `finished` signals are those of `Shell::exit`. -/
theorem runBatch_reads_and_evaluates_once (h : Host σ E V) (d : ShellPrivate E) (w : σ) :
    let r := Shell.runBatch h { d := d, world := w }
    count Event.isReadAll r.log = 1 ∧
    count Event.isReadSentence r.log = 0 ∧
    count Event.isEvaluate r.log = 1 ∧
    (∃ pre rd ev post, r.log = pre ++ rd :: ev :: post ∧
      rd.event = .readAll (h.readAll w d.lineNumber).1 (h.readAll w d.lineNumber).2.1 ∧
      ev.event = .evaluate (h.readAll w d.lineNumber).1 d.fileName d.lineNumber) ∧
    count Event.isPrintUncaughtException r.log =
      (if h.hasUncaughtException r.d.engine then 1 else 0) ∧
    count Event.isPrintResult r.log = 0 ∧
    finishedCodes r.log = (if exitCodes r.log = [] then [0] else exitCodes r.log) ∧
    (exitCodes r.log = [] → ∃ c, r.log.getLast? = some c ∧ c.event = .finished 0) := by
  intro r
  obtain ⟨ev, -, heng, -, -, hlog⟩ := Shell.runBatch_log h { d := d, world := w }
  have hlog' : r.log = _ := hlog
  have heng' : r.d.engine = ev.engine := heng
  have hfin : finishedCodes ((Shell.beginRun h { d := d, world := w }).log) = [] := by
    rw [Shell.beginRun_log]; by_cases hi : d.isInitialized = true <;> simp [hi, finishedCodes_cons]
  have hex : exitCodes ((Shell.beginRun h { d := d, world := w }).log) = [] := by
    rw [Shell.beginRun_log]; by_cases hi : d.isInitialized = true <;> simp [hi, exitCodes_cons]
  have hcnt : ∀ p : Event V → Bool, p .initEngine = false →
      count p ((Shell.beginRun h { d := d, world := w }).log) = 0 := by
    intro p hp
    rw [Shell.beginRun_log]; by_cases hi : d.isInitialized = true <;> simp [hi, hp]
  have hexl : ∀ p : Event V → Bool, (∀ c, p (.exit c) = false) →
      (∀ c, p (.finished c) = false) → ∀ d' : ShellPrivate E,
      count p (exitLog d' ev.exitCalls : List (Call E V)) = 0 :=
    fun p h1 h2 d' => count_exitLog p h1 h2 ev.exitCalls d'
  refine ⟨?_, ?_, ?_, ?_, ?_, ?_, ?_, ?_⟩
  · rw [hlog']
    by_cases hx : h.hasUncaughtException ev.engine = true <;>
    by_cases he : ev.exitCalls = [] <;>
    simp [hx, he, hcnt, hexl, Event.isReadAll, exitLog]
  · rw [hlog']
    by_cases hx : h.hasUncaughtException ev.engine = true <;>
    by_cases he : ev.exitCalls = [] <;>
    simp [hx, he, hcnt, hexl, Event.isReadSentence, exitLog]
  · rw [hlog']
    by_cases hx : h.hasUncaughtException ev.engine = true <;>
    by_cases he : ev.exitCalls = [] <;>
    simp [hx, he, hcnt, hexl, Event.isEvaluate, exitLog]
  · exact ⟨_, _, _, _, hlog', rfl, rfl⟩
  · rw [hlog', heng']
    by_cases hx : h.hasUncaughtException ev.engine = true <;>
    by_cases he : ev.exitCalls = [] <;>
    simp [hx, he, hcnt, hexl, Event.isPrintUncaughtException, exitLog]
  · rw [hlog']
    by_cases hx : h.hasUncaughtException ev.engine = true <;>
    by_cases he : ev.exitCalls = [] <;>
    simp [hx, he, hcnt, hexl, Event.isPrintResult, exitLog]
  · rw [hlog']
    by_cases hx : h.hasUncaughtException ev.engine = true <;>
    by_cases he : ev.exitCalls = [] <;>
    simp [hx, he, hfin, hex, finishedCodes_cons, exitCodes_cons, finishedCodes_exitLog,
      exitCodes_exitLog, exitLog]
  · intro hnone
    have he : ev.exitCalls = [] := by
      rw [hlog'] at hnone
      have := hnone
      simp only [exitCodes_append, exitCodes_cons, exitCodes_exitLog, hex, List.nil_append,
        List.append_eq_nil] at this
      exact this.1.1
    rw [hlog']
    by_cases hx : h.hasUncaughtException ev.engine = true <;>
    simp [he, hx, exitLog, List.getLast?_append, List.getLast?_cons_cons]

/-- C7: `runOneSentence` and `runOneSentenceInteractive` each read once, with
`readSentence`, and evaluate once, the sentence read, at the line the shell was at before
the read; each calls `printUncaughtException` once when the engine has an uncaught
exception after the evaluation and not at all otherwise. `runOneSentence` never calls
`printResult`; `runOneSentenceInteractive` calls it once when there is no uncaught
exception and the value returned by the evaluation is not undefined, and not at all
otherwise. -/
theorem runOneSentence_reads_and_evaluates_once (h : Host σ E V) (d : ShellPrivate E)
    (w : σ) :
    let r := Shell.runOneSentence h { d := d, world := w }
    let ri := Shell.runOneSentenceInteractive h { d := d, world := w }
    let result := (h.evaluate (h.readSentence w d.lineNumber).2.2
      (Shell.beginRun h { d := d, world := w }).d.engine (h.readSentence w d.lineNumber).1
      d.fileName d.lineNumber).result
    (count Event.isReadSentence r.log = 1 ∧
      count Event.isReadAll r.log = 0 ∧
      count Event.isEvaluate r.log = 1 ∧
      (∃ pre rd ev post, r.log = pre ++ rd :: ev :: post ∧
        rd.event = .readSentence (h.readSentence w d.lineNumber).1
          (h.readSentence w d.lineNumber).2.1 ∧
        ev.event = .evaluate (h.readSentence w d.lineNumber).1 d.fileName d.lineNumber) ∧
      count Event.isPrintUncaughtException r.log =
        (if h.hasUncaughtException r.d.engine then 1 else 0) ∧
      count Event.isPrintResult r.log = 0) ∧
    (count Event.isReadSentence ri.log = 1 ∧
      count Event.isReadAll ri.log = 0 ∧
      count Event.isEvaluate ri.log = 1 ∧
      (∃ pre rd ev post, ri.log = pre ++ rd :: ev :: post ∧
        rd.event = .readSentence (h.readSentence w d.lineNumber).1
          (h.readSentence w d.lineNumber).2.1 ∧
        ev.event = .evaluate (h.readSentence w d.lineNumber).1 d.fileName d.lineNumber) ∧
      count Event.isPrintUncaughtException ri.log =
        (if h.hasUncaughtException ri.d.engine then 1 else 0) ∧
      count Event.isPrintResult ri.log =
        (if h.hasUncaughtException ri.d.engine = false ∧ h.isUndefined result = false then 1
          else 0)) := by
  intro r ri result
  have hcnt := Shell.count_beginRun_log h d w
  constructor
  · obtain ⟨ev, hev, heng, -, -, hlog⟩ := Shell.runOneSentence_log h { d := d, world := w }
    have hlog' : r.log = _ := hlog
    have heng' : r.d.engine = ev.engine := heng
    have hexl : ∀ p : Event V → Bool, (∀ c, p (.exit c) = false) →
        (∀ c, p (.finished c) = false) → ∀ d' : ShellPrivate E,
        count p (exitLog d' ev.exitCalls : List (Call E V)) = 0 :=
      fun p h1 h2 d' => count_exitLog p h1 h2 ev.exitCalls d'
    refine ⟨?_, ?_, ?_, ⟨_, _, _, _, hlog', rfl, rfl⟩, ?_, ?_⟩
    · rw [hlog']
      by_cases hx : h.hasUncaughtException ev.engine = true <;>
      simp [hx, hcnt, hexl, Event.isReadSentence]
    · rw [hlog']
      by_cases hx : h.hasUncaughtException ev.engine = true <;>
      simp [hx, hcnt, hexl, Event.isReadAll]
    · rw [hlog']
      by_cases hx : h.hasUncaughtException ev.engine = true <;>
      simp [hx, hcnt, hexl, Event.isEvaluate]
    · rw [hlog', heng']
      by_cases hx : h.hasUncaughtException ev.engine = true <;>
      simp [hx, hcnt, hexl, Event.isPrintUncaughtException]
    · rw [hlog']
      by_cases hx : h.hasUncaughtException ev.engine = true <;>
      simp [hx, hcnt, hexl, Event.isPrintResult]
  · obtain ⟨ev, hev, heng, -, -, hlog⟩ :=
      Shell.runOneSentenceInteractive_log h { d := d, world := w }
    have hlog' : ri.log = _ := hlog
    have heng' : ri.d.engine = ev.engine := heng
    have hres : result = ev.result := by rw [hev]
    have hexl : ∀ p : Event V → Bool, (∀ c, p (.exit c) = false) →
        (∀ c, p (.finished c) = false) → ∀ d' : ShellPrivate E,
        count p (exitLog d' ev.exitCalls : List (Call E V)) = 0 :=
      fun p h1 h2 d' => count_exitLog p h1 h2 ev.exitCalls d'
    refine ⟨?_, ?_, ?_, ⟨_, _, _, _, hlog', rfl, rfl⟩, ?_, ?_⟩
    · rw [hlog']
      by_cases hx : h.hasUncaughtException ev.engine = true <;>
      by_cases hu : h.isUndefined ev.result = true <;>
      simp [hx, hu, hcnt, hexl, Event.isReadSentence]
    · rw [hlog']
      by_cases hx : h.hasUncaughtException ev.engine = true <;>
      by_cases hu : h.isUndefined ev.result = true <;>
      simp [hx, hu, hcnt, hexl, Event.isReadAll]
    · rw [hlog']
      by_cases hx : h.hasUncaughtException ev.engine = true <;>
      by_cases hu : h.isUndefined ev.result = true <;>
      simp [hx, hu, hcnt, hexl, Event.isEvaluate]
    · rw [hlog', heng']
      by_cases hx : h.hasUncaughtException ev.engine = true <;>
      by_cases hu : h.isUndefined ev.result = true <;>
      simp [hx, hu, hcnt, hexl, Event.isPrintUncaughtException]
    · rw [hlog', heng', hres]
      by_cases hx : h.hasUncaughtException ev.engine = true <;>
      by_cases hu : h.isUndefined ev.result = true <;>
      simp [hx, hu, hcnt, hexl, Event.isPrintResult]

/-! ## The loops -/

theorem Shell.runInteractive_body_isLoopBody (h : Host σ E V) :
    LoopBody h (Shell.runInteractive.body h) := by
  intro l
  refine ⟨rfl, ?_, ?_, ?_, ?_⟩
  · simp [Shell.runInteractive.body, Shell.engineEvaluate_fst, Shell.readSentence, Loop.nextRead]
  · simp only [Shell.runInteractive.body]
    split_ifs <;>
    simp [Shell.engineEvaluate_fst, Shell.readSentence, Loop.nextRead, Loop.afterEvaluation,
      Loop.nextEvaluation]
  · simp only [Shell.runInteractive.body]
    split_ifs <;>
    simp [Shell.engineEvaluate_fst, Shell.readSentence, Loop.nextRead, Loop.nextEvaluation]
  · by_cases hx : h.hasUncaughtException (l.nextEvaluation h).engine = true
    · refine ⟨[⟨l.afterEvaluation h,
        .printUncaughtException (l.nextEvaluation h).result⟩], ?_, fun _ => rfl, ?_⟩
      · simp only [Loop.nextEvaluation, Loop.nextRead] at hx
        simp [Shell.runInteractive.body, Shell.engineEvaluate_fst, Shell.readSentence,
          Loop.nextRead, Loop.nextEvaluation, Loop.afterEvaluation, Loop.readEvaluateLog,
          Loop.afterRead, hx]
      · intro hx'; rw [hx'] at hx; exact absurd hx (by simp)
    · by_cases hu : h.isUndefined (l.nextEvaluation h).result = true
      · refine ⟨[], ?_, fun hx' => absurd hx' hx, fun _ _ hc => by simp at hc⟩
        simp only [Loop.nextEvaluation, Loop.nextRead] at hx hu
        simp [Shell.runInteractive.body, Shell.engineEvaluate_fst, Shell.readSentence,
          Loop.nextRead, Loop.nextEvaluation, Loop.readEvaluateLog,
          Loop.afterRead, hx, hu]
      · refine ⟨[⟨l.afterEvaluation h, .printResult (l.nextEvaluation h).result⟩], ?_,
          fun hx' => absurd hx' hx, fun _ c hc => ?_⟩
        · simp only [Loop.nextEvaluation, Loop.nextRead] at hx hu
          simp [Shell.runInteractive.body, Shell.engineEvaluate_fst, Shell.readSentence,
            Loop.nextRead, Loop.nextEvaluation, Loop.afterEvaluation, Loop.readEvaluateLog,
            Loop.afterRead, hx, hu]
        · simp only [List.mem_singleton] at hc
          rw [hc]; rfl

theorem Shell.runQuiet_body_isLoopBody (h : Host σ E V) :
    LoopBody h (Shell.runQuiet.body h) := by
  intro l
  refine ⟨rfl, ?_, ?_, ?_, ?_⟩
  · simp [Shell.runQuiet.body, Shell.engineEvaluate_fst, Shell.readSentence, Loop.nextRead]
  · simp only [Shell.runQuiet.body]
    split_ifs <;>
    simp [Shell.engineEvaluate_fst, Shell.readSentence, Loop.nextRead, Loop.afterEvaluation,
      Loop.nextEvaluation]
  · simp only [Shell.runQuiet.body]
    split_ifs <;>
    simp [Shell.engineEvaluate_fst, Shell.readSentence, Loop.nextRead, Loop.nextEvaluation]
  · by_cases hx : h.hasUncaughtException (l.nextEvaluation h).engine = true
    · refine ⟨[⟨l.afterEvaluation h,
        .printUncaughtException (l.nextEvaluation h).result⟩], ?_, fun _ => rfl, ?_⟩
      · simp only [Loop.nextEvaluation, Loop.nextRead] at hx
        simp [Shell.runQuiet.body, Shell.engineEvaluate_fst, Shell.readSentence,
          Loop.nextRead, Loop.nextEvaluation, Loop.afterEvaluation, Loop.readEvaluateLog,
          Loop.afterRead, hx]
      · intro hx'; rw [hx'] at hx; exact absurd hx (by simp)
    · refine ⟨[], ?_, fun hx' => absurd hx' hx, fun _ _ hc => by simp at hc⟩
      simp only [Loop.nextEvaluation, Loop.nextRead] at hx
      simp [Shell.runQuiet.body, Shell.engineEvaluate_fst, Shell.readSentence,
        Loop.nextRead, Loop.nextEvaluation, Loop.readEvaluateLog,
        Loop.afterRead, hx]

/-- What the prints of an iteration contribute to a count that ignores prints. -/
theorem count_prints_eq_zero (p : Event V → Bool)
    (hpu : ∀ v, p (.printUncaughtException v) = false)
    (hpr : ∀ v, p (.printResult v) = false) (x : Bool) (c₀ : Call E V)
    (hc₀ : c₀.event.isPrintUncaughtException = true) (prints : List (Call E V))
    (h1 : x = true → prints = [c₀])
    (h2 : x = false → ∀ c ∈ prints, c.event.isPrintResult = true) :
    count p prints = 0 := by
  cases x with
  | true =>
    rw [h1 rfl]
    cases c₀ with
    | mk st ev => cases ev <;> simp_all [Event.isPrintUncaughtException]
  | false =>
    have hall := h2 rfl
    simp only [count, List.countP_eq_zero]
    intro c hc
    have := hall c hc
    cases c with
    | mk st ev => cases ev <;> simp_all [Event.isPrintResult]

theorem finishedCodes_prints (x : Bool) (c₀ : Call E V)
    (hc₀ : c₀.event.isPrintUncaughtException = true) (prints : List (Call E V))
    (h1 : x = true → prints = [c₀])
    (h2 : x = false → ∀ c ∈ prints, c.event.isPrintResult = true) :
    finishedCodes prints = [] ∧ exitCodes prints = [] := by
  cases x with
  | true =>
    rw [h1 rfl]
    cases c₀ with
    | mk st ev =>
      cases ev <;> simp_all [Event.isPrintUncaughtException, finishedCodes_cons, exitCodes_cons]
  | false =>
    have hall := h2 rfl
    constructor
    · simp only [finishedCodes, List.filterMap_eq_nil_iff]
      intro c hc
      have := hall c hc
      cases c with
      | mk st ev => cases ev <;> simp_all [Event.isPrintResult]
    · simp only [exitCodes, List.filterMap_eq_nil_iff]
      intro c hc
      have := hall c hc
      cases c with
      | mk st ev => cases ev <;> simp_all [Event.isPrintResult]

/-- One iteration adds to a count that ignores exits, signals and prints what its read and
its evaluation contribute. -/
theorem LoopBody.count_log {h : Host σ E V} {body : Loop σ E V → Loop σ E V}
    (hb : LoopBody h body) (p : Event V → Bool) (hexit : ∀ c, p (.exit c) = false)
    (hfin : ∀ c, p (.finished c) = false)
    (hpu : ∀ v, p (.printUncaughtException v) = false)
    (hpr : ∀ v, p (.printResult v) = false) (l : Loop σ E V) :
    count p (body l).shell.log = count p l.shell.log +
      ((if p (.readSentence (l.nextRead h).1 (l.nextRead h).2.1) then 1 else 0) +
        (if p (.evaluate (l.nextRead h).1 l.shell.d.fileName l.previousLine) then 1
          else 0)) := by
  obtain ⟨-, -, -, -, prints, hlog, h1, h2⟩ := hb l
  have hprints := count_prints_eq_zero p hpu hpr
    (h.hasUncaughtException (l.nextEvaluation h).engine)
    ⟨l.afterEvaluation h, .printUncaughtException (l.nextEvaluation h).result⟩ rfl prints h1 h2
  rw [hlog]
  simp only [count_append, Loop.readEvaluateLog, count_cons, hprints,
    count_exitLog p hexit hfin]
  omega

/-- One iteration adds the exit codes of its evaluation to the codes of the `finished`
signals and to the arguments of the calls of `Shell::exit`. -/
theorem LoopBody.codes_log {h : Host σ E V} {body : Loop σ E V → Loop σ E V}
    (hb : LoopBody h body) (l : Loop σ E V) :
    finishedCodes (body l).shell.log =
        finishedCodes l.shell.log ++ (l.nextEvaluation h).exitCalls ∧
      exitCodes (body l).shell.log =
        exitCodes l.shell.log ++ (l.nextEvaluation h).exitCalls := by
  obtain ⟨-, -, -, -, prints, hlog, h1, h2⟩ := hb l
  have hprints := finishedCodes_prints
    (h.hasUncaughtException (l.nextEvaluation h).engine)
    ⟨l.afterEvaluation h, .printUncaughtException (l.nextEvaluation h).result⟩ rfl prints h1 h2
  rw [hlog]
  simp [Loop.readEvaluateLog, finishedCodes_cons, exitCodes_cons, finishedCodes_exitLog,
    exitCodes_exitLog, hprints.1, hprints.2]


theorem ExitAgrees.after_beginRun (h : Host σ E V) (d : ShellPrivate E) (w : σ) :
    ExitAgrees (Shell.beginRun h { d := d, world := w }) := by
  refine ⟨?_, ?_, ?_⟩ <;>
  simp [Shell.finishedCodes_beginRun_log, Shell.exitCodes_beginRun_log]

theorem LoopBody.exitAgrees {h : Host σ E V} {body : Loop σ E V → Loop σ E V}
    (hb : LoopBody h body) (l : Loop σ E V) (hl : ExitAgrees l.shell) :
    ExitAgrees (body l).shell := by
  obtain ⟨hf, he, hc⟩ := hl
  obtain ⟨hf', he'⟩ := hb.codes_log l
  obtain ⟨-, -, hd, -, -⟩ := hb l
  refine ⟨by rw [hf', he', hf], ?_, ?_⟩
  · rw [hd, he']
    simp only [Loop.afterEvaluation, he]
    cases exitCodes l.shell.log <;> cases (l.nextEvaluation h).exitCalls <;> simp
  · rw [hd, he']
    simp only [Loop.afterEvaluation, hc]
    cases hcalls : (l.nextEvaluation h).exitCalls with
    | nil => simp
    | cons c cs =>
      have hlast : (c :: cs).getLast? = some ((c :: cs).getLast (by simp)) :=
        List.getLast?_eq_getLast _ _
      simp [List.getLast?_append, hlast]

theorem LoopBody.iterate_exitAgrees {h : Host σ E V} {body : Loop σ E V → Loop σ E V}
    (hb : LoopBody h body) (l : Loop σ E V) (hl : ExitAgrees l.shell) :
    ∀ n, ExitAgrees (body^[n] l).shell := by
  intro n
  induction n with
  | zero => simpa using hl
  | succ n ih =>
    rw [Function.iterate_succ_apply']
    exact hb.exitAgrees _ ih

/-- After `n` iterations the log holds `n` more reads and `n` more evaluations. -/
theorem LoopBody.iterate_count {h : Host σ E V} {body : Loop σ E V → Loop σ E V}
    (hb : LoopBody h body) (l : Loop σ E V) :
    ∀ n, count Event.isReadSentence (body^[n] l).shell.log =
          count Event.isReadSentence l.shell.log + n ∧
        count Event.isRead (body^[n] l).shell.log = count Event.isRead l.shell.log + n ∧
        count Event.isEvaluate (body^[n] l).shell.log =
          count Event.isEvaluate l.shell.log + n := by
  intro n
  induction n with
  | zero => simp
  | succ n ih =>
    rw [Function.iterate_succ_apply']
    obtain ⟨h1, h2, h3⟩ := ih
    refine ⟨?_, ?_, ?_⟩
    · rw [hb.count_log Event.isReadSentence (fun _ => rfl) (fun _ => rfl) (fun _ => rfl)
        (fun _ => rfl), h1]
      simp [Event.isReadSentence]; omega
    · rw [hb.count_log Event.isRead (fun _ => rfl) (fun _ => rfl) (fun _ => rfl)
        (fun _ => rfl), h2]
      simp [Event.isRead, Event.isReadSentence, Event.isReadAll]; omega
    · rw [hb.count_log Event.isEvaluate (fun _ => rfl) (fun _ => rfl) (fun _ => rfl)
        (fun _ => rfl), h3]
      simp [Event.isEvaluate]; omega

/-- The log only grows: after at least one iteration it is the log at the start, then the
first read, made in the private state at the start, then the evaluation of what was read,
then more. -/
theorem LoopBody.iterate_log {h : Host σ E V} {body : Loop σ E V → Loop σ E V}
    (hb : LoopBody h body) (l : Loop σ E V) :
    ∀ n, ∃ rest, (body^[n + 1] l).shell.log = l.shell.log ++
      ⟨l.shell.d, .readSentence (l.nextRead h).1 (l.nextRead h).2.1⟩ ::
      ⟨l.afterRead h, .evaluate (l.nextRead h).1 l.shell.d.fileName l.previousLine⟩ ::
      rest := by
  intro n
  induction n with
  | zero =>
    obtain ⟨-, -, -, -, prints, hlog, -, -⟩ := hb l
    refine ⟨exitLog { l.afterRead h with engine := (l.nextEvaluation h).engine }
        (l.nextEvaluation h).exitCalls ++ prints, ?_⟩
    rw [Function.iterate_one, hlog]
    simp [Loop.readEvaluateLog]
  | succ n ih =>
    obtain ⟨rest, hrest⟩ := ih
    obtain ⟨-, -, -, -, prints, hlog, -, -⟩ := hb (body^[n + 1] l)
    refine ⟨rest ++ ((body^[n + 1] l).readEvaluateLog h ++ prints), ?_⟩
    rw [Function.iterate_succ_apply', hlog, hrest]
    simp

/-- A run of `runInteractive` that returns has left its loop after some `n + 1`
iterations. -/
theorem Shell.runInteractive_some (h : Host σ E V) (fuel : Nat) (s r : Shell σ E V)
    (hr : Shell.runInteractive h fuel s = some r) :
    ∃ n, n < fuel ∧ r = (Shell.runInteractive.iter h s (n + 1)).leave ∧
      (Shell.runInteractive.iter h s (n + 1)).cond = false ∧
      ∀ j, 0 < j → j ≤ n → (Shell.runInteractive.iter h s j).cond = true := by
  unfold Shell.runInteractive at hr
  rw [Option.map_eq_some'] at hr
  obtain ⟨l, hl, hlr⟩ := hr
  obtain ⟨n, hn, hln, hstop, hcont⟩ := doWhile_some _ _ _ _ _ hl
  exact ⟨n, hn, by rw [← hlr, hln]; rfl, by rw [hln] at hstop; exact hstop, hcont⟩

/-- A run of `runQuiet` that returns has left its loop after some `n + 1` iterations. -/
theorem Shell.runQuiet_some (h : Host σ E V) (fuel : Nat) (s r : Shell σ E V)
    (hr : Shell.runQuiet h fuel s = some r) :
    ∃ n, n < fuel ∧ r = (Shell.runQuiet.iter h s (n + 1)).leave ∧
      (Shell.runQuiet.iter h s (n + 1)).cond = false ∧
      ∀ j, 0 < j → j ≤ n → (Shell.runQuiet.iter h s j).cond = true := by
  unfold Shell.runQuiet at hr
  rw [Option.map_eq_some'] at hr
  obtain ⟨l, hl, hlr⟩ := hr
  obtain ⟨n, hn, hln, hstop, hcont⟩ := doWhile_some _ _ _ _ _ hl
  exact ⟨n, hn, by rw [← hlr, hln]; rfl, by rw [hln] at hstop; exact hstop, hcont⟩

/-- When the loop is left, the `finished` signals are `finished(0)` alone if
`Shell::exit` was never called, and those of the calls of `Shell::exit` otherwise; the
exit state agrees with the log. -/
theorem Loop.leave_exit (l : Loop σ E V) (hl : ExitAgrees l.shell) :
    finishedCodes l.leave.log =
        (if exitCodes l.leave.log = [] then [0] else exitCodes l.leave.log) ∧
      exitCodes l.leave.log = exitCodes l.shell.log ∧
      l.leave.d.exit = !(exitCodes l.leave.log).isEmpty ∧
      l.leave.d.exitCode = (exitCodes l.leave.log).getLast?.getD 0 := by
  obtain ⟨hf, he, hc⟩ := hl
  unfold Loop.leave
  by_cases hx : l.shell.d.exit = true
  · have hne : exitCodes l.shell.log ≠ [] := by
      intro hnil; rw [he, hnil] at hx; simp at hx
    simp [hx, hne, hf, he.symm ▸ hx, hc]
  · have hnil : exitCodes l.shell.log = [] := by
      rw [he] at hx
      cases hcodes : exitCodes l.shell.log with
      | nil => rfl
      | cons c cs => rw [hcodes] at hx; simp at hx
    simp [hx, hnil, hf, exitCodes_cons, finishedCodes_cons, hc]

/-- The `finished` signals and the calls of `Shell::exit` in the log of `runBatch`, and
its exit state. -/
theorem Shell.runBatch_codes (h : Host σ E V) (d : ShellPrivate E) (w : σ) :
    finishedCodes (Shell.runBatch h { d := d, world := w }).log =
        (if exitCodes (Shell.runBatch h { d := d, world := w }).log = [] then [0]
          else exitCodes (Shell.runBatch h { d := d, world := w }).log) ∧
      (Shell.runBatch h { d := d, world := w }).d.exit =
        !(exitCodes (Shell.runBatch h { d := d, world := w }).log).isEmpty ∧
      (Shell.runBatch h { d := d, world := w }).d.exitCode =
        (exitCodes (Shell.runBatch h { d := d, world := w }).log).getLast?.getD 0 := by
  obtain ⟨ev, -, -, hexit, hcode, hlog⟩ := Shell.runBatch_log h { d := d, world := w }
  have hfin := Shell.finishedCodes_beginRun_log h d w
  have hex := Shell.exitCodes_beginRun_log h d w
  have hcodes : exitCodes (Shell.runBatch h { d := d, world := w }).log = ev.exitCalls := by
    rw [hlog]
    by_cases hx : h.hasUncaughtException ev.engine = true <;>
    by_cases he : ev.exitCalls = [] <;>
    simp [hx, he, hex, exitCodes_cons, exitCodes_exitLog, exitLog]
  refine ⟨?_, by rw [hcodes, hexit], by rw [hcodes, hcode]⟩
  rw [hcodes, hlog]
  by_cases hx : h.hasUncaughtException ev.engine = true <;>
  by_cases he : ev.exitCalls = [] <;>
  simp [hx, he, hfin, finishedCodes_cons, finishedCodes_exitLog, exitLog]

/-- The `finished` signals and the calls of `Shell::exit` in the log of `runOneSentence`,
and its exit state. -/
theorem Shell.runOneSentence_codes (h : Host σ E V) (d : ShellPrivate E) (w : σ) :
    finishedCodes (Shell.runOneSentence h { d := d, world := w }).log =
        exitCodes (Shell.runOneSentence h { d := d, world := w }).log ∧
      (Shell.runOneSentence h { d := d, world := w }).d.exit =
        !(exitCodes (Shell.runOneSentence h { d := d, world := w }).log).isEmpty ∧
      (Shell.runOneSentence h { d := d, world := w }).d.exitCode =
        (exitCodes (Shell.runOneSentence h { d := d, world := w }).log).getLast?.getD 0 := by
  obtain ⟨ev, -, -, hexit, hcode, hlog⟩ := Shell.runOneSentence_log h { d := d, world := w }
  have hfin := Shell.finishedCodes_beginRun_log h d w
  have hex := Shell.exitCodes_beginRun_log h d w
  have hcodes : exitCodes (Shell.runOneSentence h { d := d, world := w }).log =
      ev.exitCalls := by
    rw [hlog]
    by_cases hx : h.hasUncaughtException ev.engine = true <;>
    simp [hx, hex, exitCodes_cons, exitCodes_exitLog]
  refine ⟨?_, by rw [hcodes, hexit], by rw [hcodes, hcode]⟩
  rw [hcodes, hlog]
  by_cases hx : h.hasUncaughtException ev.engine = true <;>
  simp [hx, hfin, finishedCodes_cons, finishedCodes_exitLog]

/-- The `finished` signals and the calls of `Shell::exit` in the log of
`runOneSentenceInteractive`, and its exit state. -/
theorem Shell.runOneSentenceInteractive_codes (h : Host σ E V) (d : ShellPrivate E)
    (w : σ) :
    finishedCodes (Shell.runOneSentenceInteractive h { d := d, world := w }).log =
        exitCodes (Shell.runOneSentenceInteractive h { d := d, world := w }).log ∧
      (Shell.runOneSentenceInteractive h { d := d, world := w }).d.exit =
        !(exitCodes (Shell.runOneSentenceInteractive h { d := d, world := w }).log).isEmpty ∧
      (Shell.runOneSentenceInteractive h { d := d, world := w }).d.exitCode =
        (exitCodes
          (Shell.runOneSentenceInteractive h { d := d, world := w }).log).getLast?.getD 0 := by
  obtain ⟨ev, -, -, hexit, hcode, hlog⟩ :=
    Shell.runOneSentenceInteractive_log h { d := d, world := w }
  have hfin := Shell.finishedCodes_beginRun_log h d w
  have hex := Shell.exitCodes_beginRun_log h d w
  have hcodes : exitCodes (Shell.runOneSentenceInteractive h { d := d, world := w }).log =
      ev.exitCalls := by
    rw [hlog]
    by_cases hx : h.hasUncaughtException ev.engine = true <;>
    by_cases hu : h.isUndefined ev.result = true <;>
    simp [hx, hu, hex, exitCodes_cons, exitCodes_exitLog]
  refine ⟨?_, by rw [hcodes, hexit], by rw [hcodes, hcode]⟩
  rw [hcodes, hlog]
  by_cases hx : h.hasUncaughtException ev.engine = true <;>
  by_cases hu : h.isUndefined ev.result = true <;>
  simp [hx, hu, hfin, finishedCodes_cons, finishedCodes_exitLog]

/-- The `finished` signals and the exit state of a run of one of the two loops. -/
theorem LoopBody.leave_iterate {h : Host σ E V} {body : Loop σ E V → Loop σ E V}
    (hb : LoopBody h body) (d : ShellPrivate E) (w : σ) (n : Nat) :
    finishedCodes (body^[n] (Shell.beginRun h { d := d, world := w }).enterLoop).leave.log =
        (if exitCodes
            (body^[n] (Shell.beginRun h { d := d, world := w }).enterLoop).leave.log = []
          then [0]
          else exitCodes
            (body^[n] (Shell.beginRun h { d := d, world := w }).enterLoop).leave.log) ∧
      (body^[n] (Shell.beginRun h { d := d, world := w }).enterLoop).leave.d.exit =
        !(exitCodes
          (body^[n] (Shell.beginRun h { d := d, world := w }).enterLoop).leave.log).isEmpty ∧
      (body^[n] (Shell.beginRun h { d := d, world := w }).enterLoop).leave.d.exitCode =
        (exitCodes
          (body^[n]
            (Shell.beginRun h { d := d, world := w }).enterLoop).leave.log).getLast?.getD 0 := by
  have := Loop.leave_exit _
    (hb.iterate_exitAgrees (Shell.beginRun h { d := d, world := w }).enterLoop
      (ExitAgrees.after_beginRun h d w) n)
  exact ⟨this.1, this.2.2.1, this.2.2.2⟩

/-! ## Clearing of the exit state and the `finished` signal -/

/-- The prologue of a run is over before the first read. -/
theorem ClearedAtFirstRead.of_log (h : Host σ E V) (d : ShellPrivate E) (w : σ)
    {log rest : List (Call E V)} {e : Event V}
    (hlog : log = (Shell.beginRun h { d := d, world := w }).log ++
      ⟨(Shell.beginRun h { d := d, world := w }).d, e⟩ :: rest) (he : e.isRead = true) :
    ClearedAtFirstRead log :=
  ⟨_, _, _, hlog, Shell.count_beginRun_log h d w Event.isRead rfl, he, rfl, rfl⟩

theorem LoopBody.startsCleared {h : Host σ E V} {body : Loop σ E V → Loop σ E V}
    (hb : LoopBody h body) (d : ShellPrivate E) (w : σ) (n : Nat) :
    StartsCleared
      (body^[n + 1] (Shell.beginRun h { d := d, world := w }).enterLoop).leave := by
  constructor
  · obtain ⟨rest, hrest⟩ :=
      hb.iterate_log (Shell.beginRun h { d := d, world := w }).enterLoop n
    generalize body^[n + 1] (Shell.beginRun h { d := d, world := w }).enterLoop = L at hrest ⊢
    by_cases hx : L.shell.d.exit = true
    · have hleave : L.leave = L.shell := by simp [Loop.leave, hx]
      rw [hleave]
      exact ClearedAtFirstRead.of_log h d w hrest rfl
    · have hleave : L.leave.log = L.shell.log ++ [⟨L.shell.d, .finished 0⟩] := by
        simp [Loop.leave, hx]
      rw [hleave, hrest, List.append_assoc, List.cons_append]
      exact ClearedAtFirstRead.of_log h d w rfl rfl
  · intro hnone
    obtain ⟨-, hexit, hcode⟩ := hb.leave_iterate d w (n + 1)
    rw [hnone] at hexit hcode
    exact ⟨by simpa [Shell.isExitCalled] using hexit, by simpa [Shell.exitCode] using hcode⟩

/-- C4: in each of the five run operations, from every prior private state (one left by
an earlier `exit(c)` included), the first read of the run is made with `d->exit` false and
`d->exitCode` zero; and a run in which `Shell::exit` is never called ends with
`isExitCalled()` false and `exitCode()` zero. For the two loops this is said of every run
that returns; and, whether a run returns or not, the first read in the log after any
number of iterations is made with `d->exit` false and `d->exitCode` zero. -/
theorem run_clears_exit_state (h : Host σ E V) (d : ShellPrivate E) (w : σ) :
    (∀ fuel r, Shell.runInteractive h fuel { d := d, world := w } = some r →
      StartsCleared r) ∧
    (∀ fuel r, Shell.runQuiet h fuel { d := d, world := w } = some r → StartsCleared r) ∧
    StartsCleared (Shell.runBatch h { d := d, world := w }) ∧
    StartsCleared (Shell.runOneSentence h { d := d, world := w }) ∧
    StartsCleared (Shell.runOneSentenceInteractive h { d := d, world := w }) ∧
    (∀ n, ClearedAtFirstRead
      (Shell.runInteractive.iter h { d := d, world := w } (n + 1)).shell.log) ∧
    (∀ n, ClearedAtFirstRead
      (Shell.runQuiet.iter h { d := d, world := w } (n + 1)).shell.log) := by
  refine ⟨?_, ?_, ⟨?_, ?_⟩, ⟨?_, ?_⟩, ⟨?_, ?_⟩, ?_, ?_⟩
  · intro fuel r hr
    obtain ⟨n, -, hrn, -, -⟩ := Shell.runInteractive_some h fuel _ r hr
    rw [hrn]
    exact (Shell.runInteractive_body_isLoopBody h).startsCleared d w n
  · intro fuel r hr
    obtain ⟨n, -, hrn, -, -⟩ := Shell.runQuiet_some h fuel _ r hr
    rw [hrn]
    exact (Shell.runQuiet_body_isLoopBody h).startsCleared d w n
  · obtain ⟨ev, -, -, -, -, hlog⟩ := Shell.runBatch_log h { d := d, world := w }
    exact ClearedAtFirstRead.of_log h d w hlog rfl
  · intro hnone
    obtain ⟨-, hexit, hcode⟩ := Shell.runBatch_codes h d w
    rw [hnone] at hexit hcode
    exact ⟨by simpa [Shell.isExitCalled] using hexit, by simpa [Shell.exitCode] using hcode⟩
  · obtain ⟨ev, -, -, -, -, hlog⟩ := Shell.runOneSentence_log h { d := d, world := w }
    exact ClearedAtFirstRead.of_log h d w hlog rfl
  · intro hnone
    obtain ⟨-, hexit, hcode⟩ := Shell.runOneSentence_codes h d w
    rw [hnone] at hexit hcode
    exact ⟨by simpa [Shell.isExitCalled] using hexit, by simpa [Shell.exitCode] using hcode⟩
  · obtain ⟨ev, -, -, -, -, hlog⟩ :=
      Shell.runOneSentenceInteractive_log h { d := d, world := w }
    exact ClearedAtFirstRead.of_log h d w hlog rfl
  · intro hnone
    obtain ⟨-, hexit, hcode⟩ := Shell.runOneSentenceInteractive_codes h d w
    rw [hnone] at hexit hcode
    exact ⟨by simpa [Shell.isExitCalled] using hexit, by simpa [Shell.exitCode] using hcode⟩
  · intro n
    obtain ⟨rest, hrest⟩ := (Shell.runInteractive_body_isLoopBody h).iterate_log
      (Shell.beginRun h { d := d, world := w }).enterLoop n
    exact ClearedAtFirstRead.of_log h d w hrest rfl
  · intro n
    obtain ⟨rest, hrest⟩ := (Shell.runQuiet_body_isLoopBody h).iterate_log
      (Shell.beginRun h { d := d, world := w }).enterLoop n
    exact ClearedAtFirstRead.of_log h d w hrest rfl

/-- C8, as stated, fails: `runOneSentence` on the sentence `6*7`, in which `Shell::exit` is
not called, emits no `finished` signal at all, not exactly one. -/
theorem finished_exactly_once_counterexample :
    exitCodes (Shell.runOneSentence demoHost (demoShell ["6*7"])).log = [] ∧
    finishedCodes (Shell.runOneSentence demoHost (demoShell ["6*7"])).log = [] ∧
    ¬ count Event.isFinished (Shell.runOneSentence demoHost (demoShell ["6*7"])).log = 1 := by
  decide

/-- C8, amended: in `runInteractive`, `runQuiet` (for every run that returns) and
`runBatch` the `finished` signals of a run are `finished(0)` alone when `Shell::exit` was
not called during the run, and otherwise one `finished(c)` for each call `exit(c)`, in
order: exactly one signal when `Shell::exit` is called at most once. `runOneSentence` and
`runOneSentenceInteractive` emit `finished` only through `Shell::exit`. -/
theorem finished_signals_of_a_run (h : Host σ E V) (d : ShellPrivate E) (w : σ) :
    (∀ fuel r, Shell.runInteractive h fuel { d := d, world := w } = some r →
      finishedCodes r.log = if exitCodes r.log = [] then [0] else exitCodes r.log) ∧
    (∀ fuel r, Shell.runQuiet h fuel { d := d, world := w } = some r →
      finishedCodes r.log = if exitCodes r.log = [] then [0] else exitCodes r.log) ∧
    finishedCodes (Shell.runBatch h { d := d, world := w }).log =
      (if exitCodes (Shell.runBatch h { d := d, world := w }).log = [] then [0]
        else exitCodes (Shell.runBatch h { d := d, world := w }).log) ∧
    finishedCodes (Shell.runOneSentence h { d := d, world := w }).log =
      exitCodes (Shell.runOneSentence h { d := d, world := w }).log ∧
    finishedCodes (Shell.runOneSentenceInteractive h { d := d, world := w }).log =
      exitCodes (Shell.runOneSentenceInteractive h { d := d, world := w }).log := by
  refine ⟨?_, ?_, (Shell.runBatch_codes h d w).1, (Shell.runOneSentence_codes h d w).1,
    (Shell.runOneSentenceInteractive_codes h d w).1⟩
  · intro fuel r hr
    obtain ⟨n, -, hrn, -, -⟩ := Shell.runInteractive_some h fuel _ r hr
    rw [hrn]
    exact ((Shell.runInteractive_body_isLoopBody h).leave_iterate d w (n + 1)).1
  · intro fuel r hr
    obtain ⟨n, -, hrn, -, -⟩ := Shell.runQuiet_some h fuel _ r hr
    rw [hrn]
    exact ((Shell.runQuiet_body_isLoopBody h).leave_iterate d w (n + 1)).1

/-- C8, amended, on concrete runs: a run of `runInteractive` that reads `exit(7)` emits
`finished(7)` alone, and one that only reads `6*7` emits `finished(0)` alone. -/
theorem finished_signals_of_a_run_witness :
    (∃ r, Shell.runInteractive demoHost 2 (demoShell ["exit(7)", "6*7"]) = some r ∧
      finishedCodes r.log = if exitCodes r.log = [] then [0] else exitCodes r.log) ∧
    (∃ r, Shell.runQuiet demoHost 2 (demoShell ["6*7"]) = some r ∧
      finishedCodes r.log = if exitCodes r.log = [] then [0] else exitCodes r.log) :=
  ⟨⟨_, rfl, (finished_signals_of_a_run demoHost { engine := demoHost.newEngine }
      ["exit(7)", "6*7"]).1 2 _ rfl⟩,
    ⟨_, rfl, (finished_signals_of_a_run demoHost { engine := demoHost.newEngine }
      ["6*7"]).2.1 2 _ rfl⟩⟩

/-- C4 on a concrete run: `runInteractive` started in a state left by `exit(7)`, in front
of the input `6*7`. -/
theorem run_clears_exit_state_witness :
    ∃ r, Shell.runInteractive demoHost 2
        { d := { engine := demoHost.newEngine, exit := true, exitCode := 7 },
          world := ["6*7"] } = some r ∧
      StartsCleared r :=
  ⟨_, rfl, (run_clears_exit_state demoHost
    { engine := demoHost.newEngine, exit := true, exitCode := 7 } ["6*7"]).1 2 _ rfl⟩

/-! ## `runQuiet` against `runInteractive` -/

@[simp] theorem Shell.withoutPrintResult_d (s : Shell σ E V) :
    s.withoutPrintResult.d = s.d := rfl

@[simp] theorem Shell.withoutPrintResult_world (s : Shell σ E V) :
    s.withoutPrintResult.world = s.world := rfl

theorem Shell.withoutPrintResult_emit (s : Shell σ E V) (e : Event V) :
    (s.emit e).withoutPrintResult =
      if e.isPrintResult then s.withoutPrintResult else s.withoutPrintResult.emit e := by
  by_cases he : e.isPrintResult = true <;>
  simp [Shell.withoutPrintResult, Shell.emit, List.filter_append, he]

theorem Shell.withoutPrintResult_exit (s : Shell σ E V) (c : Int) :
    (s.exit c).withoutPrintResult = s.withoutPrintResult.exit c := by
  simp [Shell.withoutPrintResult, Shell.exit, Shell.emit, List.filter_append,
    Event.isPrintResult]

theorem Shell.withoutPrintResult_foldl_exit (cs : List Int) :
    ∀ s : Shell σ E V,
      (cs.foldl Shell.exit s).withoutPrintResult =
        cs.foldl Shell.exit s.withoutPrintResult := by
  induction cs with
  | nil => intro s; rfl
  | cons c cs ih => intro s; rw [List.foldl_cons, ih, Shell.withoutPrintResult_exit]; rfl

theorem Shell.withoutPrintResult_readSentence (h : Host σ E V) (s : Shell σ E V) :
    s.withoutPrintResult.readSentence h =
      ((s.readSentence h).1.withoutPrintResult, (s.readSentence h).2) := by
  simp [Shell.withoutPrintResult, Shell.readSentence, Shell.emit, List.filter_append,
    Event.isPrintResult]

theorem filter_exitLog (p : Event V → Bool) (hexit : ∀ c, p (.exit c) = false)
    (hfin : ∀ c, p (.finished c) = false) (cs : List Int) :
    ∀ d : ShellPrivate E,
      (exitLog d cs : List (Call E V)).filter (fun c => !p c.event) = exitLog d cs := by
  induction cs with
  | nil => intro d; rfl
  | cons c cs ih => intro d; simp [exitLog, ih, hexit, hfin]

theorem Shell.withoutPrintResult_engineEvaluate (h : Host σ E V) (s : Shell σ E V)
    (program : QString) (line : Int) :
    s.withoutPrintResult.engineEvaluate h program line =
      ((s.engineEvaluate h program line).1.withoutPrintResult,
        (s.engineEvaluate h program line).2) := by
  apply Prod.ext
  · rw [Shell.engineEvaluate_fst, Shell.engineEvaluate_fst]
    have hev : (Event.evaluate program s.d.fileName line : Event V).isPrintResult = false :=
      rfl
    simp [Shell.withoutPrintResult, List.filter_append,
      filter_exitLog Event.isPrintResult (fun _ => rfl) (fun _ => rfl), hev]
  · rfl

/-- The body of the loop of `runQuiet` does what the body of the loop of `runInteractive`
does, less the calls of `printResult`. -/
theorem Shell.runQuiet.body_withoutPrintResult (h : Host σ E V) (l : Loop σ E V) :
    Shell.runQuiet.body h l.withoutPrintResult =
      (Shell.runInteractive.body h l).withoutPrintResult := by
  simp only [Shell.runQuiet.body, Shell.runInteractive.body, Loop.withoutPrintResult,
    Shell.withoutPrintResult_readSentence, Shell.withoutPrintResult_engineEvaluate,
    Shell.withoutPrintResult_d]
  by_cases hx : h.hasUncaughtException
      ((l.shell.readSentence h).1.engineEvaluate h (l.shell.readSentence h).2
        l.previousLine).1.d.engine = true
  · simp [hx, Shell.withoutPrintResult_emit, Event.isPrintResult]
  · by_cases hu : h.isUndefined ((l.shell.readSentence h).1.engineEvaluate h
        (l.shell.readSentence h).2 l.previousLine).2 = true
    · simp only [Shell.engineEvaluate_snd] at hu
      simp [hx, hu]
    · simp only [Shell.engineEvaluate_snd] at hu
      simp [hx, hu, Shell.withoutPrintResult_emit, Event.isPrintResult]

theorem Loop.leave_withoutPrintResult (l : Loop σ E V) :
    l.withoutPrintResult.leave = l.leave.withoutPrintResult := by
  by_cases hx : l.shell.d.exit = true <;>
  simp [Loop.leave, Loop.withoutPrintResult, hx, Shell.withoutPrintResult_emit,
    Event.isPrintResult]

theorem Shell.beginRun_withoutPrintResult (h : Host σ E V) (d : ShellPrivate E) (w : σ) :
    (Shell.beginRun h { d := d, world := w }).enterLoop.withoutPrintResult =
      (Shell.beginRun h { d := d, world := w }).enterLoop := by
  unfold Loop.withoutPrintResult Shell.enterLoop Shell.beginRun Shell.initIfNeeded
  by_cases hi : d.isInitialized = true <;>
  simp [hi, Shell.withoutPrintResult, Shell.emit, Event.isPrintResult]

theorem count_isPrintResult_withoutPrintResult (s : Shell σ E V) :
    count Event.isPrintResult s.withoutPrintResult.log = 0 := by
  simp [count, Shell.withoutPrintResult, List.countP_eq_zero]

/-- C5: from every private state and world and with every host, `runQuiet` returns
exactly when `runInteractive` does (with the same fuel), in the same private state and
world, and its log is the log of `runInteractive` with the calls of `printResult` left
out: the same reads, evaluations (same text, file name and start line), calls of
`printUncaughtException` and `finished` signals, in the same order and made in the same
private states. `runQuiet` itself makes no call of `printResult`. -/
theorem runQuiet_is_runInteractive_without_printResult (h : Host σ E V)
    (d : ShellPrivate E) (w : σ) (fuel : Nat) :
    Shell.runQuiet h fuel { d := d, world := w } =
        (Shell.runInteractive h fuel { d := d, world := w }).map
          Shell.withoutPrintResult ∧
      ∀ r, Shell.runQuiet h fuel { d := d, world := w } = some r →
        count Event.isPrintResult r.log = 0 := by
  have key : Shell.runQuiet h fuel { d := d, world := w } =
      (Shell.runInteractive h fuel { d := d, world := w }).map Shell.withoutPrintResult := by
    unfold Shell.runQuiet Shell.runInteractive
    rw [← Shell.beginRun_withoutPrintResult h d w,
      doWhile_map Loop.withoutPrintResult (Shell.runInteractive.body h)
        (Shell.runQuiet.body h) Loop.cond Loop.cond
        (Shell.runQuiet.body_withoutPrintResult h)
        (fun l => by simp [Loop.cond, Loop.withoutPrintResult]),
      Shell.beginRun_withoutPrintResult h d w, Option.map_map, Option.map_map]
    congr 1
    funext l
    exact Loop.leave_withoutPrintResult l
  refine ⟨key, ?_⟩
  intro r hr
  rw [key, Option.map_eq_some'] at hr
  obtain ⟨r', -, hr'⟩ := hr
  rw [← hr']
  exact count_isPrintResult_withoutPrintResult r'

/-! ## Line bookkeeping -/

theorem Adjacent.of_neutral (x y : Call E V) (hx : x.event.isRead = false)
    (hy : y.event.isEvaluate = false) : Adjacent x y := by
  intro hxy
  rcases hxy with hxy | hxy
  · rw [hx] at hxy; exact absurd hxy (by simp)
  · rw [hy] at hxy; exact absurd hxy (by simp)

theorem chain'_adjacent_of_neutral :
    ∀ l : List (Call E V),
      (∀ c ∈ l, c.event.isRead = false ∧ c.event.isEvaluate = false) →
      List.Chain' Adjacent l := by
  intro l
  induction l with
  | nil => intro _; exact List.chain'_nil
  | cons a l ih =>
    intro hl
    rw [List.chain'_cons']
    refine ⟨?_, ih fun c hc => hl c (List.mem_cons_of_mem _ hc)⟩
    intro y hy
    have hyl : y ∈ l := List.mem_of_mem_head? hy
    exact Adjacent.of_neutral a y (hl a (List.mem_cons_self _ _)).1
      (hl y (List.mem_cons_of_mem _ hyl)).2

theorem Booked.nil : Booked ([] : List (Call E V)) :=
  ⟨by simp, by simp, List.chain'_nil⟩

/-- Appending calls that are neither reads nor evaluations keeps the bookkeeping. -/
theorem Booked.append_neutral {l t : List (Call E V)} (hl : Booked l)
    (ht : ∀ c ∈ t, c.event.isRead = false ∧ c.event.isEvaluate = false) :
    Booked (l ++ t) := by
  obtain ⟨hhead, hlast, hchain⟩ := hl
  refine ⟨?_, ?_, ?_⟩
  · intro c hc
    rw [List.head?_append] at hc
    cases hlh : l.head? with
    | none =>
      rw [hlh] at hc
      exact (ht c (List.mem_of_mem_head? (by simpa using hc))).2
    | some a =>
      rw [hlh] at hc
      have : c = a := by simpa using hc.symm
      exact hhead c (by rw [hlh, this]; rfl)
  · intro c hc
    rw [List.getLast?_append] at hc
    cases htl : t.getLast? with
    | none =>
      rw [htl] at hc
      exact hlast c (by simpa using hc)
    | some a =>
      rw [htl] at hc
      have hca : c = a := by simpa using hc.symm
      have : a ∈ t := List.mem_of_getLast?_eq_some htl
      rw [hca]
      exact (ht a this).1
  · rw [List.chain'_append]
    refine ⟨hchain, chain'_adjacent_of_neutral t ht, ?_⟩
    intro x hx y hy
    exact Adjacent.of_neutral x y (hlast x hx) (ht y (List.mem_of_mem_head? hy)).2

/-- Appending a read and the evaluation that goes with it keeps the bookkeeping. -/
theorem Booked.append_read_evaluate {l : List (Call E V)} (hl : Booked l)
    (rd ev : Call E V) (hrd : rd.event.isRead = true) (hev : ev.event.isEvaluate = true)
    (hadj : Adjacent rd ev) : Booked (l ++ [rd, ev]) := by
  obtain ⟨hhead, hlast, hchain⟩ := hl
  have hrd' : rd.event.isEvaluate = false := by
    cases rd with
    | mk st e => cases e <;> simp_all [Event.isRead, Event.isEvaluate, Event.isReadSentence,
        Event.isReadAll]
  have hev' : ev.event.isRead = false := by
    cases ev with
    | mk st e => cases e <;> simp_all [Event.isRead, Event.isEvaluate, Event.isReadSentence,
        Event.isReadAll]
  refine ⟨?_, ?_, ?_⟩
  · intro c hc
    rw [List.head?_append] at hc
    cases hlh : l.head? with
    | none =>
      rw [hlh] at hc
      have : c = rd := by simpa using hc.symm
      rw [this]; exact hrd'
    | some a =>
      rw [hlh] at hc
      have : c = a := by simpa using hc.symm
      exact hhead c (by rw [hlh, this]; rfl)
  · intro c hc
    have : c = ev := by simpa using hc.symm
    rw [this]; exact hev'
  · rw [List.chain'_append]
    refine ⟨hchain, List.chain'_pair.2 hadj, ?_⟩
    intro x hx y hy
    have : y = rd := by simpa using hy.symm
    rw [this]
    exact Adjacent.of_neutral x rd (hlast x hx) hrd'

/-- The invariant gives the bookkeeping as stated on the log. -/
theorem Booked.lineBookkeeping {log : List (Call E V)} (hl : Booked log) :
    LineBookkeeping log := by
  obtain ⟨hhead, hlast, hchain⟩ := hl
  constructor
  · intro pre ev post program fileName line hlog hev
    have hevE : ev.event.isEvaluate = true := by rw [hev]; rfl
    rcases List.eq_nil_or_concat pre with hpre | ⟨pre', rd, hpre⟩
    · subst hpre
      have := hhead ev (by rw [hlog]; rfl)
      rw [hevE] at this; exact absurd this (by simp)
    · rw [List.concat_eq_append] at hpre
      subst hpre
      rw [hlog, List.append_assoc, List.chain'_append] at hchain
      have hadj : Adjacent rd ev := (List.chain'_cons.1 hchain.2.1).1
      obtain ⟨text, final, fileName', hrd, hev', hline⟩ := hadj (Or.inr hevE)
      rw [hev] at hev'
      injection hev' with h1 h2 h3
      subst h1
      exact ⟨pre', rd, final, rfl, hrd, h3, hline⟩
  · intro pre rd post text final hlog hrd
    have hrdR : rd.event.isRead = true := by
      rcases hrd with hrd | hrd <;> rw [hrd] <;> rfl
    cases post with
    | nil =>
      have := hlast rd (by rw [hlog]; simp)
      rw [hrdR] at this; exact absurd this (by simp)
    | cons ev post' =>
      rw [hlog, List.chain'_append] at hchain
      have hadj : Adjacent rd ev := (List.chain'_cons.1 hchain.2.1).1
      obtain ⟨text', final', fileName, hrd', hev, hline⟩ := hadj (Or.inl hrdR)
      have : text' = text ∧ final' = final := by
        rcases hrd with hrd | hrd <;> rcases hrd' with hrd' | hrd' <;>
          rw [hrd] at hrd' <;> simp at hrd' <;> exact ⟨hrd'.1.symm, hrd'.2.symm⟩
      obtain ⟨h1, h2⟩ := this
      subst h1 h2
      exact ⟨ev, post', fileName, rfl, hev, hline⟩

theorem exitLog_neutral (cs : List Int) :
    ∀ (d : ShellPrivate E) (c : Call E V), c ∈ (exitLog d cs : List (Call E V)) →
      c.event.isRead = false ∧ c.event.isEvaluate = false := by
  induction cs with
  | nil => intro d c hc; simp [exitLog] at hc
  | cons c' cs ih =>
    intro d c hc
    simp only [exitLog, List.mem_cons] at hc
    rcases hc with hc | hc | hc
    · rw [hc]; exact ⟨rfl, rfl⟩
    · rw [hc]; exact ⟨rfl, rfl⟩
    · exact ih _ c hc

theorem prints_neutral (x : Bool) (c₀ : Call E V)
    (hc₀ : c₀.event.isPrintUncaughtException = true) (prints : List (Call E V))
    (h1 : x = true → prints = [c₀])
    (h2 : x = false → ∀ c ∈ prints, c.event.isPrintResult = true) :
    ∀ c ∈ prints, c.event.isRead = false ∧ c.event.isEvaluate = false := by
  intro c hc
  cases x with
  | true =>
    rw [h1 rfl] at hc
    have : c = c₀ := by simpa using hc
    rw [this]
    cases c₀ with
    | mk st ev => cases ev <;> simp_all [Event.isPrintUncaughtException, Event.isRead,
        Event.isEvaluate, Event.isReadSentence, Event.isReadAll]
  | false =>
    have := h2 rfl c hc
    cases c with
    | mk st ev => cases ev <;> simp_all [Event.isPrintResult, Event.isRead,
        Event.isEvaluate, Event.isReadSentence, Event.isReadAll]

theorem Booked.log_beginRun (h : Host σ E V) (d : ShellPrivate E) (w : σ) :
    Booked (Shell.beginRun h { d := d, world := w }).log := by
  rw [Shell.beginRun_log]
  apply Booked.append_neutral Booked.nil
  intro c hc
  by_cases hi : d.isInitialized = true
  · simp [hi] at hc
  · simp only [hi, Bool.false_eq_true, if_false, List.mem_singleton] at hc
    rw [hc]; exact ⟨rfl, rfl⟩

/-- One iteration keeps the bookkeeping, given that `previousLine` is the current line
number when the iteration starts; it is so again when the iteration ends. -/
theorem LoopBody.booked {h : Host σ E V} {body : Loop σ E V → Loop σ E V}
    (hb : LoopBody h body) (l : Loop σ E V)
    (hl : Booked l.shell.log ∧ l.previousLine = l.shell.d.lineNumber) :
    Booked (body l).shell.log ∧ (body l).previousLine = (body l).shell.d.lineNumber := by
  obtain ⟨-, hprev, hd, -, prints, hlog, h1, h2⟩ := hb l
  refine ⟨?_, by rw [hprev, hd]; rfl⟩
  have hneutral := prints_neutral
    (h.hasUncaughtException (l.nextEvaluation h).engine)
    ⟨l.afterEvaluation h, .printUncaughtException (l.nextEvaluation h).result⟩ rfl prints h1 h2
  have hsplit : (body l).shell.log =
      (l.shell.log ++
        [⟨l.shell.d, .readSentence (l.nextRead h).1 (l.nextRead h).2.1⟩,
          ⟨l.afterRead h, .evaluate (l.nextRead h).1 l.shell.d.fileName l.previousLine⟩]) ++
      (exitLog { l.afterRead h with engine := (l.nextEvaluation h).engine }
        (l.nextEvaluation h).exitCalls ++ prints) := by
    rw [hlog]; simp [Loop.readEvaluateLog]
  rw [hsplit]
  apply Booked.append_neutral
  · apply Booked.append_read_evaluate hl.1
      ⟨l.shell.d, .readSentence (l.nextRead h).1 (l.nextRead h).2.1⟩
      ⟨l.afterRead h, .evaluate (l.nextRead h).1 l.shell.d.fileName l.previousLine⟩ rfl rfl
    intro _
    exact ⟨(l.nextRead h).1, (l.nextRead h).2.1, l.shell.d.fileName, Or.inl rfl,
      by rw [hl.2], rfl⟩
  · intro c hc
    rcases List.mem_append.1 hc with hc | hc
    · exact exitLog_neutral _ _ c hc
    · exact hneutral c hc

theorem LoopBody.iterate_booked {h : Host σ E V} {body : Loop σ E V → Loop σ E V}
    (hb : LoopBody h body) (d : ShellPrivate E) (w : σ) (n : Nat) :
    Booked (body^[n] (Shell.beginRun h { d := d, world := w }).enterLoop).shell.log ∧
      (body^[n] (Shell.beginRun h { d := d, world := w }).enterLoop).previousLine =
        (body^[n] (Shell.beginRun h { d := d, world := w }).enterLoop).shell.d.lineNumber := by
  induction n with
  | zero => exact ⟨Booked.log_beginRun h d w, rfl⟩
  | succ n ih =>
    rw [Function.iterate_succ_apply']
    exact hb.booked _ ih

theorem Loop.leave_booked (l : Loop σ E V) (hl : Booked l.shell.log) :
    Booked l.leave.log := by
  by_cases hx : l.shell.d.exit = true
  · simpa [Loop.leave, hx] using hl
  · have : l.leave.log = l.shell.log ++ [⟨l.shell.d, .finished 0⟩] := by
      simp [Loop.leave, hx]
    rw [this]
    apply Booked.append_neutral hl
    intro c hc
    have : c = ⟨l.shell.d, .finished 0⟩ := by simpa using hc
    rw [this]; exact ⟨rfl, rfl⟩

/-- The bookkeeping of a straight-line run: the log of the prologue, then a read made in
the state the prologue left, then the evaluation of what was read, then calls that are
neither reads nor evaluations. -/
theorem Booked.of_run (h : Host σ E V) (d : ShellPrivate E) (w : σ)
    {log tail : List (Call E V)} {rd ev : Call E V}
    (hlog : log = (Shell.beginRun h { d := d, world := w }).log ++ rd :: ev :: tail)
    (hrd : rd.event.isRead = true) (hev : ev.event.isEvaluate = true)
    (hadj : Adjacent rd ev)
    (htail : ∀ c ∈ tail, c.event.isRead = false ∧ c.event.isEvaluate = false) :
    Booked log := by
  have : log = ((Shell.beginRun h { d := d, world := w }).log ++ [rd, ev]) ++ tail := by
    rw [hlog]; simp
  rw [this]
  exact Booked.append_neutral
    (Booked.append_read_evaluate (Booked.log_beginRun h d w) rd ev hrd hev hadj) htail

/-- C3: in every run operation each call of the engine's `evaluate` comes right after a
read, evaluates the text that read returned, and receives as start line the value
`d->lineNumber` had when that read was called; and every read is followed at once by the
evaluation of its text, at whose call `d->lineNumber` is the line number the read wrote
back. (In the embedding an evaluation reaches the private state only through
`Shell::exit`, which leaves `d->lineNumber` alone.) For the two loops this is said of
every run that returns and, whether a run returns or not, of the log after any number of
iterations. -/
theorem evaluate_starts_at_line_before_read (h : Host σ E V) (d : ShellPrivate E)
    (w : σ) :
    (∀ fuel r, Shell.runInteractive h fuel { d := d, world := w } = some r →
      LineBookkeeping r.log) ∧
    (∀ fuel r, Shell.runQuiet h fuel { d := d, world := w } = some r →
      LineBookkeeping r.log) ∧
    LineBookkeeping (Shell.runBatch h { d := d, world := w }).log ∧
    LineBookkeeping (Shell.runOneSentence h { d := d, world := w }).log ∧
    LineBookkeeping (Shell.runOneSentenceInteractive h { d := d, world := w }).log ∧
    (∀ n, LineBookkeeping (Shell.runInteractive.iter h { d := d, world := w } n).shell.log) ∧
    (∀ n, LineBookkeeping (Shell.runQuiet.iter h { d := d, world := w } n).shell.log) := by
  refine ⟨?_, ?_, ?_, ?_, ?_,
    fun n => ((Shell.runInteractive_body_isLoopBody h).iterate_booked d w n).1.lineBookkeeping,
    fun n => ((Shell.runQuiet_body_isLoopBody h).iterate_booked d w n).1.lineBookkeeping⟩
  · intro fuel r hr
    obtain ⟨n, -, hrn, -, -⟩ := Shell.runInteractive_some h fuel _ r hr
    rw [hrn]
    exact (Loop.leave_booked _
      ((Shell.runInteractive_body_isLoopBody h).iterate_booked d w (n + 1)).1).lineBookkeeping
  · intro fuel r hr
    obtain ⟨n, -, hrn, -, -⟩ := Shell.runQuiet_some h fuel _ r hr
    rw [hrn]
    exact (Loop.leave_booked _
      ((Shell.runQuiet_body_isLoopBody h).iterate_booked d w (n + 1)).1).lineBookkeeping
  · obtain ⟨ev, -, -, -, -, hlog⟩ := Shell.runBatch_log h { d := d, world := w }
    refine (Booked.of_run h d w hlog rfl rfl ?_ ?_).lineBookkeeping
    · intro _
      exact ⟨(h.readAll w d.lineNumber).1, (h.readAll w d.lineNumber).2.1, d.fileName,
        Or.inr rfl, by rw [Shell.beginRun_lineNumber], rfl⟩
    · intro c hc
      rcases List.mem_append.1 hc with hc | hc
      · rcases List.mem_append.1 hc with hc | hc
        · exact exitLog_neutral _ _ c hc
        · by_cases hx : h.hasUncaughtException ev.engine = true
          · simp only [hx, if_true, List.mem_singleton] at hc
            rw [hc]; exact ⟨rfl, rfl⟩
          · simp [hx] at hc
      · by_cases he : ev.exitCalls.isEmpty = true
        · simp only [he, if_true, List.mem_singleton] at hc
          rw [hc]; exact ⟨rfl, rfl⟩
        · simp [he] at hc
  · obtain ⟨ev, -, -, -, -, hlog⟩ := Shell.runOneSentence_log h { d := d, world := w }
    refine (Booked.of_run h d w hlog rfl rfl ?_ ?_).lineBookkeeping
    · intro _
      exact ⟨(h.readSentence w d.lineNumber).1, (h.readSentence w d.lineNumber).2.1,
        d.fileName, Or.inl rfl, by rw [Shell.beginRun_lineNumber], rfl⟩
    · intro c hc
      rcases List.mem_append.1 hc with hc | hc
      · exact exitLog_neutral _ _ c hc
      · by_cases hx : h.hasUncaughtException ev.engine = true
        · simp only [hx, if_true, List.mem_singleton] at hc
          rw [hc]; exact ⟨rfl, rfl⟩
        · simp [hx] at hc
  · obtain ⟨ev, -, -, -, -, hlog⟩ :=
      Shell.runOneSentenceInteractive_log h { d := d, world := w }
    refine (Booked.of_run h d w hlog rfl rfl ?_ ?_).lineBookkeeping
    · intro _
      exact ⟨(h.readSentence w d.lineNumber).1, (h.readSentence w d.lineNumber).2.1,
        d.fileName, Or.inl rfl, by rw [Shell.beginRun_lineNumber], rfl⟩
    · intro c hc
      rcases List.mem_append.1 hc with hc | hc
      · exact exitLog_neutral _ _ c hc
      · by_cases hx : h.hasUncaughtException ev.engine = true
        · simp only [hx, if_true, List.mem_singleton] at hc
          rw [hc]; exact ⟨rfl, rfl⟩
        · by_cases hu : h.isUndefined ev.result = true
          · simp [hx, hu] at hc
          · simp only [hx, hu, Bool.false_eq_true, if_false, List.mem_singleton] at hc
            rw [hc]; exact ⟨rfl, rfl⟩

/-- C3 on a concrete run: `runInteractive` in front of the sentences `6*7` and `throw 1`. -/
theorem evaluate_starts_at_line_before_read_witness :
    ∃ r, Shell.runInteractive demoHost 3 (demoShell ["6*7", "throw 1"]) = some r ∧
      LineBookkeeping r.log :=
  ⟨_, rfl, (evaluate_starts_at_line_before_read demoHost { engine := demoHost.newEngine }
    ["6*7", "throw 1"]).1 3 _ rfl⟩

/-! ## Exit stops the loops -/

/-- As long as the sentences read are not null and their evaluations do not call
`Shell::exit`, the loop condition holds after each iteration. -/
theorem LoopBody.reach {h : Host σ E V} {body : Loop σ E V → Loop σ E V}
    (hb : LoopBody h body) (l : Loop σ E V) (h0 : ExitAgrees l.shell)
    (h0' : exitCodes l.shell.log = []) (k : Nat)
    (hreach : ∀ j < k, ((body^[j] l).nextRead h).1 ≠ none ∧
      ((body^[j] l).nextEvaluation h).exitCalls = []) :
    ∀ j ≤ k, exitCodes (body^[j] l).shell.log = [] ∧
      (0 < j → (body^[j] l).cond = true) := by
  intro j
  induction j with
  | zero => intro _; exact ⟨h0', fun hj => absurd hj (by omega)⟩
  | succ j ih =>
    intro hj
    obtain ⟨hcodes, -⟩ := ih (by omega)
    obtain ⟨hsent, hcalls⟩ := hreach j (by omega)
    have hcodes' : exitCodes (body^[j + 1] l).shell.log = [] := by
      rw [Function.iterate_succ_apply', (hb.codes_log _).2, hcodes, hcalls]; rfl
    refine ⟨hcodes', fun _ => ?_⟩
    have hagree := (hb.iterate_exitAgrees l h0 (j + 1)).2.1
    rw [hcodes'] at hagree
    have hs : (body^[j + 1] l).sentence = ((body^[j] l).nextRead h).1 := by
      rw [Function.iterate_succ_apply']; exact (hb _).1
    unfold Loop.cond
    rw [hs, hagree]
    cases hsome : ((body^[j] l).nextRead h).1 with
    | none => exact absurd hsome hsent
    | some _ => rfl

theorem count_isExit_eq_length (log : List (Call E V)) :
    count Event.isExit log = (exitCodes log).length := by
  induction log with
  | nil => rfl
  | cons c log ih =>
    cases c with
    | mk st ev => cases ev <;> simp [exitCodes_cons, ih, Event.isExit]

/-- The iteration in which the script calls `exit(c)`, once, after iterations that went on
without such a call, is the last one. -/
theorem LoopBody.stops_at_exit {h : Host σ E V} {body : Loop σ E V → Loop σ E V}
    (hb : LoopBody h body) (l : Loop σ E V) (h0 : ExitAgrees l.shell)
    (h0' : exitCodes l.shell.log = []) (hread0 : count Event.isRead l.shell.log = 0)
    (heval0 : count Event.isEvaluate l.shell.log = 0) (k : Nat) (c : Int)
    (hreach : ∀ j < k, ((body^[j] l).nextRead h).1 ≠ none ∧
      ((body^[j] l).nextEvaluation h).exitCalls = [])
    (hexit : ((body^[k] l).nextEvaluation h).exitCalls = [c]) :
    (body^[k + 1] l).cond = false ∧
      (∀ j, 0 < j → j ≤ k → (body^[j] l).cond = true) ∧
      StopsAtExit (k + 1) c (body^[k + 1] l).leave := by
  have hr := hb.reach l h0 h0' k hreach
  have hcnt := hb.iterate_count l
  have hcodesk := (hr k (le_refl _)).1
  have hcodes : exitCodes (body^[k + 1] l).shell.log = [c] := by
    rw [Function.iterate_succ_apply', (hb.codes_log _).2, hcodesk, hexit]; rfl
  have hagree := hb.iterate_exitAgrees l h0 (k + 1)
  have hexitTrue : (body^[k + 1] l).shell.d.exit = true := by
    rw [hagree.2.1, hcodes]; rfl
  have hleave : (body^[k + 1] l).leave = (body^[k + 1] l).shell := by
    simp only [Loop.leave, hexitTrue, Bool.not_true, Bool.false_eq_true, if_false]
  refine ⟨by simp only [Loop.cond, hexitTrue, Bool.not_true, Bool.and_false],
    fun j hj hjk => (hr j hjk).2 hj, ?_⟩
  rw [hleave]
  refine ⟨?_, ?_, hexitTrue, ?_, ?_, ?_⟩
  · rw [(hcnt (k + 1)).2.1]; omega
  · rw [(hcnt (k + 1)).2.2]; omega
  · show (body^[k + 1] l).shell.d.exitCode = c
    rw [hagree.2.2, hcodes]; rfl
  · rw [hagree.1, hcodes]
  · obtain ⟨-, -, -, -, prints, hlog, h1, h2⟩ := hb (body^[k] l)
    have hprints0 : ∀ p : Event V → Bool,
        (∀ v, p (.printUncaughtException v) = false) → (∀ v, p (.printResult v) = false) →
        count p prints = 0 := fun p hpu hpr =>
      count_prints_eq_zero p hpu hpr
        (h.hasUncaughtException ((body^[k] l).nextEvaluation h).engine)
        ⟨(body^[k] l).afterEvaluation h,
          .printUncaughtException ((body^[k] l).nextEvaluation h).result⟩ rfl prints h1 h2
    have hevalk := (hcnt k).2.2
    have hk0 : count Event.isExit (body^[k] l).shell.log = 0 := by
      rw [count_isExit_eq_length, hcodesk]; rfl
    rw [Function.iterate_succ_apply']
    generalize body^[k] l = L at hlog hprints0 hexit hevalk hk0
    have hlog' : (body L).shell.log =
        (L.shell.log ++
          [⟨L.shell.d, .readSentence (L.nextRead h).1 (L.nextRead h).2.1⟩,
            ⟨L.afterRead h,
              .evaluate (L.nextRead h).1 L.shell.d.fileName L.previousLine⟩]) ++
        ⟨{ L.afterRead h with engine := (L.nextEvaluation h).engine }, .exit c⟩ ::
        (⟨{ L.afterRead h with
            engine := (L.nextEvaluation h).engine, exit := true, exitCode := c },
          .finished c⟩ :: prints) := by
      rw [hlog]
      simp [Loop.readEvaluateLog, hexit, exitLog]
    refine ⟨_, _, _, hlog', rfl,
      ⟨L.shell.log ++ [⟨L.shell.d, .readSentence (L.nextRead h).1 (L.nextRead h).2.1⟩],
        ⟨L.afterRead h, .evaluate (L.nextRead h).1 L.shell.d.fileName L.previousLine⟩,
        by simp, rfl⟩, ?_, ?_, ?_, ?_⟩
    · simp [hevalk, heval0, Event.isEvaluate]
    · simp [hprints0 Event.isRead (fun _ => rfl) (fun _ => rfl), Event.isRead,
        Event.isReadSentence, Event.isReadAll]
    · simp [hprints0 Event.isEvaluate (fun _ => rfl) (fun _ => rfl), Event.isEvaluate]
    · simp [hprints0 Event.isExit (fun _ => rfl) (fun _ => rfl), Event.isExit, hk0]

/-- C2: take a run of `runInteractive` or of `runQuiet` in which the first `n` sentences
read are not null and their evaluations do not call `Shell::exit`, and in which the
evaluation of sentence `n + 1` calls `exit(c)` and does not call `Shell::exit` again. With
fuel for `n + 1` iterations the run returns; it has made exactly `n + 1` reads and `n + 1`
evaluations, none of them after the call of `exit(c)`; `finished(c)` is its only signal;
and it ends with `isExitCalled()` true and `exitCode()` equal to `c`. -/
theorem exit_stops_the_loop (h : Host σ E V) (d : ShellPrivate E) (w : σ) (n : Nat)
    (c : Int) (fuel : Nat) (hfuel : n + 1 ≤ fuel) :
    ((∀ j < n,
        ((Shell.runInteractive.iter h { d := d, world := w } j).nextRead h).1 ≠ none ∧
        ((Shell.runInteractive.iter h { d := d, world := w } j).nextEvaluation h).exitCalls
          = []) →
      ((Shell.runInteractive.iter h { d := d, world := w } n).nextEvaluation h).exitCalls
        = [c] →
      ∃ r, Shell.runInteractive h fuel { d := d, world := w } = some r ∧
        StopsAtExit (n + 1) c r) ∧
    ((∀ j < n,
        ((Shell.runQuiet.iter h { d := d, world := w } j).nextRead h).1 ≠ none ∧
        ((Shell.runQuiet.iter h { d := d, world := w } j).nextEvaluation h).exitCalls
          = []) →
      ((Shell.runQuiet.iter h { d := d, world := w } n).nextEvaluation h).exitCalls = [c] →
      ∃ r, Shell.runQuiet h fuel { d := d, world := w } = some r ∧
        StopsAtExit (n + 1) c r) := by
  have h0 := ExitAgrees.after_beginRun h d w
  have h0' := Shell.exitCodes_beginRun_log h d w
  have hread0 := Shell.count_beginRun_log h d w Event.isRead rfl
  have heval0 := Shell.count_beginRun_log h d w Event.isEvaluate rfl
  constructor
  · intro hreach hexit
    obtain ⟨hstop, hcont, hres⟩ :=
      (Shell.runInteractive_body_isLoopBody h).stops_at_exit
        (Shell.beginRun h { d := d, world := w }).enterLoop h0 h0' hread0 heval0 n c hreach
        hexit
    refine ⟨_, ?_, hres⟩
    unfold Shell.runInteractive
    rw [doWhile_stop _ _ n _ fuel hfuel hcont hstop]
    rfl
  · intro hreach hexit
    obtain ⟨hstop, hcont, hres⟩ :=
      (Shell.runQuiet_body_isLoopBody h).stops_at_exit
        (Shell.beginRun h { d := d, world := w }).enterLoop h0 h0' hread0 heval0 n c hreach
        hexit
    refine ⟨_, ?_, hres⟩
    unfold Shell.runQuiet
    rw [doWhile_stop _ _ n _ fuel hfuel hcont hstop]
    rfl

/-- C2 on concrete runs: in front of the sentences `6*7`, `exit(7)` and `6*7`, the second
evaluation calls `exit(7)`; both loops stop after two reads and two evaluations. -/
theorem exit_stops_the_loop_witness :
    (∃ r, Shell.runInteractive demoHost 5 (demoShell ["6*7", "exit(7)", "6*7"]) = some r ∧
      StopsAtExit 2 7 r) ∧
    (∃ r, Shell.runQuiet demoHost 5 (demoShell ["6*7", "exit(7)", "6*7"]) = some r ∧
      StopsAtExit 2 7 r) :=
  ⟨(exit_stops_the_loop demoHost { engine := demoHost.newEngine }
      ["6*7", "exit(7)", "6*7"] 1 7 5 (by decide)).1 (by decide) (by decide),
    (exit_stops_the_loop demoHost { engine := demoHost.newEngine }
      ["6*7", "exit(7)", "6*7"] 1 7 5 (by decide)).2 (by decide) (by decide)⟩

/-! ## Results printed by `runInteractive` -/

/-- One iteration of the loop of `runInteractive` calls `printResult` once when its
evaluation leaves no uncaught exception and returns a value that is not undefined, and not
at all otherwise. -/
theorem Shell.runInteractive.body_count_isPrintResult (h : Host σ E V) (l : Loop σ E V) :
    count Event.isPrintResult (Shell.runInteractive.body h l).shell.log =
      count Event.isPrintResult l.shell.log +
        (if h.hasUncaughtException (l.nextEvaluation h).engine = false ∧
            h.isUndefined (l.nextEvaluation h).result = false then 1 else 0) := by
  have hexl : ∀ d' : ShellPrivate E,
      count Event.isPrintResult
        (exitLog d' (l.nextEvaluation h).exitCalls : List (Call E V)) = 0 :=
    fun d' => count_exitLog Event.isPrintResult (fun _ => rfl) (fun _ => rfl) _ d'
  simp only [Loop.nextEvaluation, Loop.nextRead] at hexl ⊢
  by_cases hx : h.hasUncaughtException
      (h.evaluate (h.readSentence l.shell.world l.shell.d.lineNumber).2.2 l.shell.d.engine
        (h.readSentence l.shell.world l.shell.d.lineNumber).1 l.shell.d.fileName
        l.previousLine).engine = true <;>
  by_cases hu : h.isUndefined
      (h.evaluate (h.readSentence l.shell.world l.shell.d.lineNumber).2.2 l.shell.d.engine
        (h.readSentence l.shell.world l.shell.d.lineNumber).1 l.shell.d.fileName
        l.previousLine).result = true <;>
  simp [Shell.runInteractive.body, Shell.engineEvaluate_fst, Shell.readSentence, hx, hu,
    hexl, Event.isPrintResult]

theorem Loop.leave_count_isPrintResult (l : Loop σ E V) :
    count Event.isPrintResult l.leave.log = count Event.isPrintResult l.shell.log := by
  by_cases hx : l.shell.d.exit = true <;> simp [Loop.leave, hx, Event.isPrintResult]

/-- The loop of `runInteractive`, entered in a state `l₀` whose source yields a sentence
and then the null string, whose evaluation returns undefined without uncaught exception. -/
theorem Shell.runInteractive.loop_prints_once (h : Host σ E V) (l₀ : Loop σ E V)
    (e : String) (fuel : Nat) (hfuel : 2 ≤ fuel)
    (hyield : (l₀.nextRead h).1 = some e)
    (hend : ((Shell.runInteractive.body h l₀).nextRead h).1 = none)
    (hsentinel :
      h.isUndefined ((Shell.runInteractive.body h l₀).nextEvaluation h).result = true ∧
      h.hasUncaughtException ((Shell.runInteractive.body h l₀).nextEvaluation h).engine
        = false) :
    ∃ l, doWhile (Shell.runInteractive.body h) Loop.cond fuel l₀ = some l ∧
      count Event.isPrintResult l.leave.log =
        count Event.isPrintResult l₀.shell.log +
          if h.hasUncaughtException (l₀.nextEvaluation h).engine = false ∧
              h.isUndefined (l₀.nextEvaluation h).result = false
          then 1 else 0 := by
  have hb := Shell.runInteractive_body_isLoopBody h
  have hs1 : (Shell.runInteractive.body h l₀).sentence = some e := by
    rw [(hb l₀).1, hyield]
  have hc1 := Shell.runInteractive.body_count_isPrintResult h l₀
  by_cases hx : (Shell.runInteractive.body h l₀).shell.d.exit = true
  · have hstop : Loop.cond ((Shell.runInteractive.body h)^[0 + 1] l₀) = false := by
      simp only [zero_add, Function.iterate_one, Loop.cond, hx, Bool.not_true, Bool.and_false]
    refine ⟨_, doWhile_stop _ _ 0 l₀ fuel (by omega) (fun j hj hj0 => absurd hj (by omega))
      hstop, ?_⟩
    rw [Loop.leave_count_isPrintResult]
    simp only [zero_add, Function.iterate_one]
    rw [hc1]
  · have hcont : ∀ j, 0 < j → j ≤ 1 →
        Loop.cond ((Shell.runInteractive.body h)^[j] l₀) = true := by
      intro j hj hj1
      obtain rfl : j = 1 := by omega
      simp only [Function.iterate_one, Loop.cond, hs1, hx]
      rfl
    have hs2 : (Shell.runInteractive.body h (Shell.runInteractive.body h l₀)).sentence =
        none := by
      rw [(hb _).1, hend]
    have hstop : Loop.cond ((Shell.runInteractive.body h)^[1 + 1] l₀) = false := by
      simp only [Function.iterate_succ, Function.iterate_zero, Function.comp_apply, id,
        Loop.cond, hs2]
      rfl
    refine ⟨_, doWhile_stop _ _ 1 l₀ fuel (by omega) hcont hstop, ?_⟩
    rw [Loop.leave_count_isPrintResult]
    simp only [Function.iterate_succ, Function.iterate_zero, Function.comp_apply, id]
    rw [Shell.runInteractive.body_count_isPrintResult, hc1]
    simp [hsentinel.1, hsentinel.2]

/-- C1: let the sentence source of a run of `runInteractive` yield a sentence `e` at the
first read and signal the end of the input (the null string) at the second, and let the
evaluation of the null string return undefined and leave no uncaught exception. With fuel
for two iterations the run returns, and it has called `printResult` exactly once when the
evaluation of `e` left no uncaught exception and returned a value that is not undefined,
and not at all otherwise (so not at all when it returned undefined). -/
theorem runInteractive_prints_result_once (h : Host σ E V) (d : ShellPrivate E) (w : σ)
    (e : String) (fuel : Nat) (hfuel : 2 ≤ fuel)
    (hyield :
      ((Shell.runInteractive.iter h { d := d, world := w } 0).nextRead h).1 = some e)
    (hend : ((Shell.runInteractive.iter h { d := d, world := w } 1).nextRead h).1 = none)
    (hsentinel :
      h.isUndefined
          ((Shell.runInteractive.iter h { d := d, world := w } 1).nextEvaluation h).result
        = true ∧
      h.hasUncaughtException
          ((Shell.runInteractive.iter h { d := d, world := w } 1).nextEvaluation h).engine
        = false) :
    ∃ r, Shell.runInteractive h fuel { d := d, world := w } = some r ∧
      count Event.isPrintResult r.log =
        if h.hasUncaughtException
              ((Shell.runInteractive.iter h { d := d, world := w } 0).nextEvaluation
                h).engine = false ∧
            h.isUndefined
              ((Shell.runInteractive.iter h { d := d, world := w } 0).nextEvaluation
                h).result = false
        then 1 else 0 := by
  have hstart : count Event.isPrintResult
      (Shell.beginRun h { d := d, world := w }).enterLoop.shell.log = 0 :=
    Shell.count_beginRun_log h d w Event.isPrintResult rfl
  obtain ⟨l, hl, hcount⟩ := Shell.runInteractive.loop_prints_once h
    (Shell.beginRun h { d := d, world := w }).enterLoop e fuel hfuel hyield hend hsentinel
  refine ⟨l.leave, ?_, ?_⟩
  · unfold Shell.runInteractive
    rw [hl]; rfl
  · rw [hcount, hstart, Nat.zero_add]
    rfl

/-- C1 on a concrete run: the source yields `6*7` and then no more input; the evaluation of
`6*7` returns 42, and `printResult` is called once. -/
theorem runInteractive_prints_result_once_witness :
    ∃ r, Shell.runInteractive demoHost 2 (demoShell ["6*7"]) = some r ∧
      count Event.isPrintResult r.log = 1 :=
  runInteractive_prints_result_once demoHost { engine := demoHost.newEngine } ["6*7"]
    "6*7" 2 (by decide) (by decide) (by decide) (by decide)

/-! ## Uncaught exceptions do not end the loops -/

/-- A loop does not return while its condition holds. -/
theorem doWhile_none {α : Type} (body : α → α) (cond : α → Bool) (a : α) (fuel : Nat)
    (hcont : ∀ j, 0 < j → j ≤ fuel → cond (body^[j] a) = true) :
    doWhile body cond fuel a = none := by
  cases hres : doWhile body cond fuel a with
  | none => rfl
  | some r =>
    obtain ⟨m, hm, hr, hstop, -⟩ := doWhile_some body cond fuel a r hres
    have := hcont (m + 1) (by omega) (by omega)
    rw [← hr, hstop] at this
    exact absurd this (by simp)

/-- An iteration that leaves an uncaught exception, of a sentence that is not null and
whose evaluation does not call `Shell::exit`, ends with the report of the exception, and
the loop goes on. -/
theorem LoopBody.goes_on {h : Host σ E V} {body : Loop σ E V → Loop σ E V}
    (hb : LoopBody h body) (l : Loop σ E V) (h0 : ExitAgrees l.shell)
    (h0' : exitCodes l.shell.log = []) (n : Nat)
    (hreach : ∀ j < n, ((body^[j] l).nextRead h).1 ≠ none ∧
      ((body^[j] l).nextEvaluation h).exitCalls = [])
    (hexc : h.hasUncaughtException ((body^[n] l).nextEvaluation h).engine = true)
    (hmore : ((body^[n] l).nextRead h).1 ≠ none)
    (hnoexit : ((body^[n] l).nextEvaluation h).exitCalls = []) :
    ReportedAndGoesOn h (body^[n] l) (body^[n + 1] l) (n + 1)
      (fun fuel => (doWhile body Loop.cond fuel l).map Loop.leave) := by
  have hreach' : ∀ j < n + 1, ((body^[j] l).nextRead h).1 ≠ none ∧
      ((body^[j] l).nextEvaluation h).exitCalls = [] := by
    intro j hj
    by_cases hjn : j < n
    · exact hreach j hjn
    · obtain rfl : j = n := by omega
      exact ⟨hmore, hnoexit⟩
  have hr := hb.reach l h0 h0' (n + 1) hreach'
  refine ⟨?_, ?_, ?_⟩
  · obtain ⟨-, -, -, -, prints, hlog, h1, -⟩ := hb (body^[n] l)
    refine ⟨(body^[n] l).shell.log ++ (body^[n] l).readEvaluateLog h, ?_⟩
    rw [Function.iterate_succ_apply', hlog, h1 hexc, List.append_assoc]
  · intro fuel hfuel
    show (doWhile body Loop.cond fuel l).map Loop.leave = none
    rw [doWhile_none body Loop.cond l fuel fun j hj hjf => (hr j (by omega)).2 hj]
    rfl
  · intro fuel r hrun
    have hrun' : (doWhile body Loop.cond fuel l).map Loop.leave = some r := hrun
    rw [Option.map_eq_some'] at hrun'
    obtain ⟨l', hl', hlr⟩ := hrun'
    obtain ⟨m, -, hlm, hstop, -⟩ := doWhile_some body Loop.cond fuel l l' hl'
    have hmn : n + 1 < m + 1 := by
      by_contra hle
      have := (hr (m + 1) (by omega)).2 (by omega)
      rw [← hlm, hstop] at this
      exact absurd this (by simp)
    obtain ⟨a, ha⟩ : ∃ a, m + 1 = (a + 1) + (n + 1) := ⟨m - n - 1, by omega⟩
    obtain ⟨rest, hrest⟩ := hb.iterate_log (body^[n + 1] l) a
    rw [← Function.iterate_add_apply, ← ha, ← hlm] at hrest
    rw [← hlr]
    by_cases hx : l'.shell.d.exit = true
    · refine ⟨rest, ?_⟩
      have : l'.leave = l'.shell := by
        simp only [Loop.leave, hx, Bool.not_true, Bool.false_eq_true, if_false]
      rw [this, hrest]; rfl
    · refine ⟨rest ++ [⟨l'.shell.d, .finished 0⟩], ?_⟩
      have : l'.leave.log = l'.shell.log ++ [⟨l'.shell.d, .finished 0⟩] := by
        simp [Loop.leave, hx]
      rw [this, hrest]
      simp [Loop.nextReadCall, Loop.nextEvaluateCall]

/-- C9: take a run of `runInteractive` or of `runQuiet` in which the first `n` sentences
read are not null and their evaluations do not call `Shell::exit`, and in which the
evaluation of sentence `n + 1`, itself not null, leaves an uncaught exception and does not
call `Shell::exit`. Then iteration `n + 1` ends with the call of
`printUncaughtException`, of the value the evaluation returned; the run does not return
within `n + 1` iterations; and the log of every run that returns goes on with the read of
the next sentence and the evaluation of what was read. -/
theorem uncaught_exception_does_not_end_the_loop (h : Host σ E V) (d : ShellPrivate E)
    (w : σ) (n : Nat) :
    ((∀ j < n,
        ((Shell.runInteractive.iter h { d := d, world := w } j).nextRead h).1 ≠ none ∧
        ((Shell.runInteractive.iter h { d := d, world := w } j).nextEvaluation h).exitCalls
          = []) →
      h.hasUncaughtException
        ((Shell.runInteractive.iter h { d := d, world := w } n).nextEvaluation h).engine
          = true →
      ((Shell.runInteractive.iter h { d := d, world := w } n).nextRead h).1 ≠ none →
      ((Shell.runInteractive.iter h { d := d, world := w } n).nextEvaluation h).exitCalls
        = [] →
      ReportedAndGoesOn h (Shell.runInteractive.iter h { d := d, world := w } n)
        (Shell.runInteractive.iter h { d := d, world := w } (n + 1)) (n + 1)
        (fun fuel => Shell.runInteractive h fuel { d := d, world := w })) ∧
    ((∀ j < n,
        ((Shell.runQuiet.iter h { d := d, world := w } j).nextRead h).1 ≠ none ∧
        ((Shell.runQuiet.iter h { d := d, world := w } j).nextEvaluation h).exitCalls
          = []) →
      h.hasUncaughtException
        ((Shell.runQuiet.iter h { d := d, world := w } n).nextEvaluation h).engine = true →
      ((Shell.runQuiet.iter h { d := d, world := w } n).nextRead h).1 ≠ none →
      ((Shell.runQuiet.iter h { d := d, world := w } n).nextEvaluation h).exitCalls = [] →
      ReportedAndGoesOn h (Shell.runQuiet.iter h { d := d, world := w } n)
        (Shell.runQuiet.iter h { d := d, world := w } (n + 1)) (n + 1)
        (fun fuel => Shell.runQuiet h fuel { d := d, world := w })) := by
  have h0 := ExitAgrees.after_beginRun h d w
  have h0' := Shell.exitCodes_beginRun_log h d w
  exact ⟨fun hreach hexc hmore hnoexit =>
      (Shell.runInteractive_body_isLoopBody h).goes_on
        (Shell.beginRun h { d := d, world := w }).enterLoop h0 h0' n hreach hexc hmore hnoexit,
    fun hreach hexc hmore hnoexit =>
      (Shell.runQuiet_body_isLoopBody h).goes_on
        (Shell.beginRun h { d := d, world := w }).enterLoop h0 h0' n hreach hexc hmore
        hnoexit⟩

/-- C9 on concrete runs: in front of the sentences `6*7`, `throw 1` and `6*7`, the second
evaluation leaves an uncaught exception; both loops report it and go on. -/
theorem uncaught_exception_does_not_end_the_loop_witness :
    ReportedAndGoesOn demoHost
        (Shell.runInteractive.iter demoHost (demoShell ["6*7", "throw 1", "6*7"]) 1)
        (Shell.runInteractive.iter demoHost (demoShell ["6*7", "throw 1", "6*7"]) 2) 2
        (fun fuel => Shell.runInteractive demoHost fuel
          (demoShell ["6*7", "throw 1", "6*7"])) ∧
      ReportedAndGoesOn demoHost
        (Shell.runQuiet.iter demoHost (demoShell ["6*7", "throw 1", "6*7"]) 1)
        (Shell.runQuiet.iter demoHost (demoShell ["6*7", "throw 1", "6*7"]) 2) 2
        (fun fuel => Shell.runQuiet demoHost fuel (demoShell ["6*7", "throw 1", "6*7"])) :=
  ⟨(uncaught_exception_does_not_end_the_loop demoHost { engine := demoHost.newEngine }
      ["6*7", "throw 1", "6*7"] 1).1 (by decide) (by decide) (by decide) (by decide),
    (uncaught_exception_does_not_end_the_loop demoHost { engine := demoHost.newEngine }
      ["6*7", "throw 1", "6*7"] 1).2 (by decide) (by decide) (by decide) (by decide)⟩

/-! ## `initEngine` is invoked once -/

theorem Shell.initIfNeeded_log (h : Host σ E V) (s : Shell σ E V) :
    (s.initIfNeeded h).log =
      s.log ++ if s.d.isInitialized then []
        else [⟨{ s.d with isInitialized := true }, .initEngine⟩] := by
  unfold Shell.initIfNeeded
  by_cases hi : s.d.isInitialized = true <;> simp [hi, Shell.emit]

theorem Shell.initIfNeeded_isInitialized (h : Host σ E V) (s : Shell σ E V) :
    (s.initIfNeeded h).d.isInitialized = true := by
  unfold Shell.initIfNeeded
  by_cases hi : s.d.isInitialized = true <;> simp [hi, Shell.emit, initEngine]

/-- The guard invokes `initEngine` once when the flag is not set, and not at all when it
is. -/
theorem Shell.initIfNeeded_count (h : Host σ E V) (s : Shell σ E V) :
    count Event.isInitEngine (s.initIfNeeded h).log =
      count Event.isInitEngine s.log + if s.d.isInitialized then 0 else 1 := by
  rw [Shell.initIfNeeded_log]
  by_cases hi : s.d.isInitialized = true <;> simp [hi, Event.isInitEngine]

theorem Shell.beginRun_count (h : Host σ E V) (s : Shell σ E V) :
    count Event.isInitEngine (s.beginRun h).log =
      count Event.isInitEngine s.log + if s.d.isInitialized then 0 else 1 :=
  Shell.initIfNeeded_count h s

/-- The iterations of a loop do not invoke `initEngine` and leave the flag alone. -/
theorem LoopBody.iterate_initEngine {h : Host σ E V} {body : Loop σ E V → Loop σ E V}
    (hb : LoopBody h body) (l : Loop σ E V) :
    ∀ n, count Event.isInitEngine (body^[n] l).shell.log =
          count Event.isInitEngine l.shell.log ∧
        (body^[n] l).shell.d.isInitialized = l.shell.d.isInitialized := by
  intro n
  induction n with
  | zero => exact ⟨rfl, rfl⟩
  | succ n ih =>
    rw [Function.iterate_succ_apply']
    refine ⟨?_, ?_⟩
    · rw [hb.count_log Event.isInitEngine (fun _ => rfl) (fun _ => rfl) (fun _ => rfl)
        (fun _ => rfl), ih.1]
      simp [Event.isInitEngine]
    · rw [(hb _).2.2.1]
      exact ih.2

theorem Loop.leave_initEngine (l : Loop σ E V) :
    count Event.isInitEngine l.leave.log = count Event.isInitEngine l.shell.log ∧
      l.leave.d.isInitialized = l.shell.d.isInitialized := by
  by_cases hx : l.shell.d.exit = true <;> simp [Loop.leave, hx, Event.isInitEngine]

/-- A run of one of the loops that returns has invoked `initEngine` once when the flag
was not set, and not at all when it was; it leaves the flag set. -/
theorem LoopBody.run_initEngine {h : Host σ E V} {body : Loop σ E V → Loop σ E V}
    (hb : LoopBody h body) (s : Shell σ E V) (n : Nat) :
    count Event.isInitEngine (body^[n] (s.beginRun h).enterLoop).leave.log =
        count Event.isInitEngine s.log + (if s.d.isInitialized then 0 else 1) ∧
      (body^[n] (s.beginRun h).enterLoop).leave.d.isInitialized = true := by
  obtain ⟨h1, h2⟩ := Loop.leave_initEngine (body^[n] (s.beginRun h).enterLoop)
  obtain ⟨h3, h4⟩ := hb.iterate_initEngine (s.beginRun h).enterLoop n
  refine ⟨?_, ?_⟩
  · rw [h1, h3]; exact Shell.beginRun_count h s
  · rw [h2, h4]; exact Shell.beginRun_isInitialized h s

/-- A straight-line run whose log is that of the prologue followed by a read, an
evaluation, calls of `Shell::exit`, a print or none and a signal or none invokes
`initEngine` as its prologue does. -/
theorem count_isInitEngine_run (h : Host σ E V) (s : Shell σ E V)
    {rd ev : Call E V} {d' : ShellPrivate E} {cs : List Int} {tail log : List (Call E V)}
    (hlog : log = (s.beginRun h).log ++ rd :: ev :: (exitLog d' cs ++ tail))
    (hrd : rd.event.isInitEngine = false) (hev : ev.event.isInitEngine = false)
    (htail : ∀ c ∈ tail, c.event.isInitEngine = false) :
    count Event.isInitEngine log =
      count Event.isInitEngine s.log + if s.d.isInitialized then 0 else 1 := by
  have htail0 : count Event.isInitEngine tail = 0 := by
    simp only [count, List.countP_eq_zero]
    intro c hc
    simp [htail c hc]
  rw [hlog]
  simp only [count_append, count_cons, hrd, hev, htail0,
    count_exitLog Event.isInitEngine (fun _ => rfl) (fun _ => rfl), Shell.beginRun_count]
  simp

theorem Shell.runBatch_initEngine (h : Host σ E V) (s : Shell σ E V) :
    count Event.isInitEngine (s.runBatch h).log =
        count Event.isInitEngine s.log + (if s.d.isInitialized then 0 else 1) ∧
      (s.runBatch h).d.isInitialized = true := by
  constructor
  · obtain ⟨ev, -, -, -, -, hlog⟩ := Shell.runBatch_log h s
    rw [List.append_assoc] at hlog
    refine count_isInitEngine_run h s hlog rfl rfl ?_
    intro c hc
    rcases List.mem_append.1 hc with hc | hc
    · by_cases hx : h.hasUncaughtException ev.engine = true
      · simp only [hx, if_true, List.mem_singleton] at hc
        rw [hc]; rfl
      · simp [hx] at hc
    · by_cases he : ev.exitCalls.isEmpty = true
      · simp only [he, if_true, List.mem_singleton] at hc
        rw [hc]; rfl
      · simp [he] at hc
  · have hi := Shell.beginRun_isInitialized h s
    unfold Shell.runBatch
    simp only [Shell.engineEvaluate_fst, Shell.readAll, Shell.emit_d]
    split_ifs <;> simp [hi]

theorem Shell.runOneSentence_initEngine (h : Host σ E V) (s : Shell σ E V) :
    count Event.isInitEngine (s.runOneSentence h).log =
        count Event.isInitEngine s.log + (if s.d.isInitialized then 0 else 1) ∧
      (s.runOneSentence h).d.isInitialized = true := by
  constructor
  · obtain ⟨ev, -, -, -, -, hlog⟩ := Shell.runOneSentence_log h s
    refine count_isInitEngine_run h s hlog rfl rfl ?_
    intro c hc
    by_cases hx : h.hasUncaughtException ev.engine = true
    · simp only [hx, if_true, List.mem_singleton] at hc
      rw [hc]; rfl
    · simp [hx] at hc
  · have hi := Shell.beginRun_isInitialized h s
    unfold Shell.runOneSentence
    simp only [Shell.engineEvaluate_fst, Shell.readSentence, Shell.emit_d]
    split_ifs <;> simp [hi]

theorem Shell.runOneSentenceInteractive_initEngine (h : Host σ E V) (s : Shell σ E V) :
    count Event.isInitEngine (s.runOneSentenceInteractive h).log =
        count Event.isInitEngine s.log + (if s.d.isInitialized then 0 else 1) ∧
      (s.runOneSentenceInteractive h).d.isInitialized = true := by
  constructor
  · obtain ⟨ev, -, -, -, -, hlog⟩ := Shell.runOneSentenceInteractive_log h s
    refine count_isInitEngine_run h s hlog rfl rfl ?_
    intro c hc
    by_cases hx : h.hasUncaughtException ev.engine = true
    · simp only [hx, if_true, List.mem_singleton] at hc
      rw [hc]; rfl
    · by_cases hu : h.isUndefined ev.result = true
      · simp [hx, hu] at hc
      · simp only [hx, hu, Bool.false_eq_true, if_false, List.mem_singleton] at hc
        rw [hc]; rfl
  · have hi := Shell.beginRun_isInitialized h s
    unfold Shell.runOneSentenceInteractive
    simp only [Shell.engineEvaluate_fst, Shell.readSentence, Shell.emit_d]
    split_ifs <;> simp [hi]

/-- A call other than `reset()` invokes `initEngine` once when the flag is not set and not
at all when it is, and leaves the flag set. -/
theorem Shell.call_initEngine (h : Host σ E V)
    (completions : E → QString → Int → QString → QStringList × Int × QString)
    (fuel : Nat) (op : Op) (s r : Shell σ E V) (hop : op.isReset = false)
    (hr : Shell.call h completions fuel op s = some r) :
    count Event.isInitEngine r.log =
        count Event.isInitEngine s.log + (if s.d.isInitialized then 0 else 1) ∧
      r.d.isInitialized = true := by
  cases op with
  | runInteractive =>
    obtain ⟨n, -, hrn, -, -⟩ := Shell.runInteractive_some h fuel s r hr
    rw [hrn]
    exact (Shell.runInteractive_body_isLoopBody h).run_initEngine s (n + 1)
  | runQuiet =>
    obtain ⟨n, -, hrn, -, -⟩ := Shell.runQuiet_some h fuel s r hr
    rw [hrn]
    exact (Shell.runQuiet_body_isLoopBody h).run_initEngine s (n + 1)
  | runBatch =>
    obtain rfl : Shell.runBatch h s = r := by simpa [Shell.call] using hr
    exact Shell.runBatch_initEngine h s
  | runOneSentence =>
    obtain rfl : Shell.runOneSentence h s = r := by simpa [Shell.call] using hr
    exact Shell.runOneSentence_initEngine h s
  | runOneSentenceInteractive =>
    obtain rfl : Shell.runOneSentenceInteractive h s = r := by simpa [Shell.call] using hr
    exact Shell.runOneSentenceInteractive_initEngine h s
  | engine =>
    obtain rfl : s.initIfNeeded h = r := by simpa [Shell.call, Shell.engine] using hr
    exact ⟨Shell.initIfNeeded_count h s, Shell.initIfNeeded_isInitialized h s⟩
  | completeScriptExpression expression completitionStartAt commonName =>
    obtain rfl : s.initIfNeeded h = r := by
      simpa [Shell.call, Shell.completeScriptExpression] using hr
    exact ⟨Shell.initIfNeeded_count h s, Shell.initIfNeeded_isInitialized h s⟩
  | reset => exact absurd hop (by simp [Op.isReset])

/-- Calls other than `reset()` on a shell whose flag is set do not invoke `initEngine`. -/
theorem Shell.callAll_initEngine (h : Host σ E V)
    (completions : E → QString → Int → QString → QStringList × Int × QString)
    (fuel : Nat) (ops : List Op) :
    ∀ (s r : Shell σ E V), (∀ o ∈ ops, o.isReset = false) → s.d.isInitialized = true →
      Shell.callAll h completions fuel ops s = some r →
      count Event.isInitEngine r.log = count Event.isInitEngine s.log := by
  induction ops with
  | nil =>
    intro s r _ _ hr
    obtain rfl : s = r := by simpa [Shell.callAll] using hr
    rfl
  | cons op ops ih =>
    intro s r hops hs hr
    simp only [Shell.callAll, Option.bind_eq_some] at hr
    obtain ⟨r₁, hr₁, hr⟩ := hr
    obtain ⟨hc, hi⟩ := Shell.call_initEngine h completions fuel op s r₁
      (hops op (List.mem_cons_self _ _)) hr₁
    rw [ih r₁ r (fun o ho => hops o (List.mem_cons_of_mem _ ho)) hi hr, hc, hs]
    simp

/-- C10: a freshly constructed shell has the flag `isInitialized` unset, and so has a shell
after `reset()`, which itself invokes nothing. In a sequence of calls of the five run
operations, `engine()` and `completeScriptExpression` (no `reset()` among them) on a shell
whose flag is unset, the first call invokes `initEngine` exactly once and the calls after
it never do: so it is invoked exactly once by a sequence on a fresh shell, and exactly
once again by the calls that follow a `reset()`. Each loop is given the fuel `fuel`, and
the counts are those of the sequences that return. -/
theorem initEngine_invoked_once (h : Host σ E V)
    (completions : E → QString → Int → QString → QStringList × Int × QString)
    (fuel : Nat) :
    (∀ w : σ, (Shell.construct h w).d.isInitialized = false ∧
      (Shell.construct h w).log = []) ∧
    (∀ s : Shell σ E V, (s.reset h).d.isInitialized = false ∧ (s.reset h).log = s.log) ∧
    (∀ (s r₁ r : Shell σ E V) (op : Op) (ops : List Op),
      s.d.isInitialized = false → op.isReset = false → (∀ o ∈ ops, o.isReset = false) →
      Shell.call h completions fuel op s = some r₁ →
      Shell.callAll h completions fuel ops r₁ = some r →
      count Event.isInitEngine r₁.log = count Event.isInitEngine s.log + 1 ∧
        count Event.isInitEngine r.log = count Event.isInitEngine s.log + 1) := by
  refine ⟨fun w => ⟨rfl, rfl⟩, fun s => ⟨rfl, rfl⟩, ?_⟩
  intro s r₁ r op ops hs hop hops hr₁ hr
  obtain ⟨hc, hi⟩ := Shell.call_initEngine h completions fuel op s r₁ hop hr₁
  rw [hs] at hc
  have hc' : count Event.isInitEngine r₁.log = count Event.isInitEngine s.log + 1 := by
    simpa using hc
  exact ⟨hc', by rw [Shell.callAll_initEngine h completions fuel ops r₁ r hops hi hr, hc']⟩

/-- C10 on a concrete sequence: `engine()`, `runInteractive`, `completeScriptExpression`
and `runBatch` on a fresh shell invoke `initEngine` once, in the first call; after a
`reset()`, `runQuiet` and `engine()` invoke it once again. -/
theorem initEngine_invoked_once_witness :
    (∃ r₁ r, Shell.call demoHost demoCompletions 3 .engine
          (Shell.construct demoHost ["6*7"]) = some r₁ ∧
        Shell.callAll demoHost demoCompletions 3
          [.runInteractive, .completeScriptExpression none 0 none, .runBatch] r₁ = some r ∧
        count Event.isInitEngine r₁.log = 1 ∧ count Event.isInitEngine r.log = 1) ∧
    (∃ r₁ r, Shell.call demoHost demoCompletions 3 .runQuiet
          (Shell.reset demoHost (Shell.runBatch demoHost (demoShell ["6*7"]))) = some r₁ ∧
        Shell.callAll demoHost demoCompletions 3 [.engine] r₁ = some r ∧
        count Event.isInitEngine r₁.log = 2 ∧ count Event.isInitEngine r.log = 2) :=
  ⟨⟨_, _, rfl, rfl,
      (initEngine_invoked_once demoHost demoCompletions 3).2.2
        (Shell.construct demoHost ["6*7"]) _ _ .engine
        [.runInteractive, .completeScriptExpression none 0 none, .runBatch] rfl rfl
        (by decide) rfl rfl⟩,
    ⟨_, _, rfl, rfl,
      (initEngine_invoked_once demoHost demoCompletions 3).2.2
        (Shell.reset demoHost (Shell.runBatch demoHost (demoShell ["6*7"]))) _ _ .runQuiet
        [.engine] rfl rfl (by decide) rfl rfl⟩⟩

/-! ## Script arguments -/

/-- C15: after `setArguments(a)` the script arguments `a` are stored in the host API object,
but the getter `arguments()` returns the empty list, whatever `a` is: its test of
`d->scriptableEngine` is inverted. -/
theorem arguments_after_setArguments (s : Shell σ E V) (a : List String) :
    (s.setArguments a).arguments = some [] ∧
      (s.setArguments a).d.scriptableEngine = some { arguments := a } := by
  cases hs : s.d.scriptableEngine <;>
    simp [Shell.setArguments, Shell.arguments, ScriptableShellEngine.setArguments, hs]

/-! ## The `print` function -/

theorem Shell.foldl_emit_log (f : Nat → Event V) (l : List Nat) (s : Shell σ E V) :
    (l.foldl (fun shell i => shell.emit (f i)) s).log = s.log ++ l.map (fun i => ⟨s.d, f i⟩) ∧
    (l.foldl (fun shell i => shell.emit (f i)) s).d = s.d ∧
    (l.foldl (fun shell i => shell.emit (f i)) s).world = s.world := by
  induction l generalizing s with
  | nil => simp
  | cons i l ih =>
    have := ih (s.emit (f i))
    simp only [List.foldl_cons, List.map_cons]
    refine ⟨?_, ?_, ?_⟩
    · rw [this.1]; simp [Shell.emit]
    · rw [this.2.1]; simp [Shell.emit]
    · rw [this.2.2]; simp [Shell.emit]

theorem print_calls_eq (d : ShellPrivate E) (u : V) (args : List V) (hn : 0 < args.length) :
    (List.range (args.length - 1)).map
        (fun i => (⟨d, .printOut (args.getD i u) false⟩ : Call E V)) ++
      [⟨d, .printOut (args.getD (args.length - 1) u) true⟩] =
    args.enum.map fun p => ⟨d, .printOut p.2 (decide (p.1 + 1 = args.length))⟩ := by
  apply List.ext_getElem
  · simp; omega
  · intro i h1 h2
    simp at h1 h2
    by_cases hi : i < args.length - 1
    · rw [List.getElem_append_left (by simpa using hi)]
      simp [List.getD_eq_getElem?_getD, List.getElem?_eq_getElem h2]
      omega
    · rw [List.getElem_append_right (by simpa using hi)]
      have : i = args.length - 1 := by omega
      simp [List.getD_eq_getElem?_getD, List.getElem?_eq_getElem h2, this]
      have h3 : args.length - 1 < args.length := by omega
      simp [List.getElem?_eq_getElem h3]
      omega

/-- C14: a call of the function `print` whose callee data wraps the shell, as `initEngine`
sets it under the isolate policy, with the arguments `context.arguments`, calls `printOut`
once for each argument, in the order of the arguments, with `last` true for the final
argument only; without arguments it calls nothing. It returns the undefined value and
leaves the private state and the world as they are. -/
theorem print_forwards_each_argument (h : Host σ E V) (s : Shell σ E V)
    (context : QScriptContext V) (engine : E)
    (hdata : h.toQObject context.calleeData = some .shell) :
    ∃ s', print h s context engine = some (s', h.undefinedValue engine) ∧
      s'.d = s.d ∧ s'.world = s.world ∧
      s'.log = s.log ++ context.arguments.enum.map fun p =>
        ⟨s.d, .printOut p.2 (decide (p.1 + 1 = context.arguments.length))⟩ := by
  have F := Shell.foldl_emit_log
    (fun i => Event.printOut (context.argument h engine i) false)
    (List.range (context.arguments.length - 1)) s
  unfold print
  simp only [hdata]
  by_cases hn : context.arguments.length > 0
  · simp only [hn, if_true]
    refine ⟨_, rfl, ?_, ?_, ?_⟩
    · rw [Shell.emit_d, F.2.1]
    · rw [Shell.emit_world, F.2.2]
    · rw [Shell.emit_log, F.1, F.2.1, List.append_assoc]
      exact congrArg _ (print_calls_eq s.d (h.undefinedValue engine) context.arguments hn)
  · have h0 : context.arguments = [] := by
      cases hc : context.arguments with
      | nil => rfl
      | cons a l => simp [hc] at hn
    simp [h0]

/-- C14 on a concrete call: `print` with the arguments 1 and 2, on a callee whose data wraps
the shell, calls `printOut(1, false)` and then `printOut(2, true)`. -/
theorem print_forwards_each_argument_witness :
    mapHost.toQObject (MapValue.object 5 (some .shell)) = some .shell ∧
    ∃ s', print mapHost (mapShell {})
        { thisObject := .undefined, calleeData := .object 5 (some .shell),
          arguments := [.number 1, .number 2] } {} = some (s', .undefined) ∧
      s'.d = (mapShell {}).d ∧ s'.world = [] ∧
      s'.log = [⟨(mapShell {}).d, .printOut (.number 1) false⟩,
        ⟨(mapShell {}).d, .printOut (.number 2) true⟩] :=
  ⟨rfl, print_forwards_each_argument mapHost (mapShell {})
    { thisObject := .undefined, calleeData := .object 5 (some .shell),
      arguments := [.number 1, .number 2] } {} rfl⟩

/-! ## The property-map host keeps the engine laws -/

theorem MapEngine.create_fst_ne_globalObject (e : MapEngine) (w : Option QObjectRef)
    (m : List (String × MapValue)) : (e.create w m).1 ≠ e.globalObject := by
  simp only [MapEngine.create, MapEngine.globalObject, ne_eq, MapValue.object.injEq, not_and]
  intro h1
  omega

theorem MapEngine.create_globalObject (e : MapEngine) (w : Option QObjectRef)
    (m : List (String × MapValue)) : (e.create w m).2.globalObject = e.globalObject := rfl

theorem MapEngine.create_property (e : MapEngine) (w : Option QObjectRef)
    (m : List (String × MapValue)) (o : MapValue) (n : QString) (ho : o ≠ (e.create w m).1) :
    (e.create w m).2.property o n = e.property o n := by
  simp only [MapEngine.create] at ho
  simp [MapEngine.create, MapEngine.property, ho]

theorem MapEngine.create_properties (e : MapEngine) (w : Option QObjectRef)
    (m : List (String × MapValue)) (o : MapValue) (ho : o ≠ (e.create w m).1) :
    (e.create w m).2.properties o = e.properties o := by
  simp only [MapEngine.create] at ho
  simp [MapEngine.create, MapEngine.properties, ho]

theorem MapEngine.create_isObject (e : MapEngine) (w : Option QObjectRef)
    (m : List (String × MapValue)) : (e.create w m).1.isObject = true := rfl

theorem MapEngine.mem_properties (e : MapEngine) (o : MapValue)
    (it : PropertyEntry MapValue) :
    it ∈ e.properties o ↔
      o.isObject = true ∧
        ∃ n, n ∈ e.names o ∧ ∃ p, e.slots o n = some p ∧ ⟨n, p.1, p.2⟩ = it := by
  unfold MapEngine.properties
  by_cases ho : o.isObject = true
  · simp only [ho, if_true, List.mem_filterMap, Option.map_eq_some', true_and]
  · simp [ho]

/-- The property-map host keeps the engine laws. -/
theorem mapHost_lawful : EngineLaws mapHost where
  isObject_globalObject := fun _ => rfl
  isObject_newQObject := fun e r _ => by cases r <;> rfl
  isObject_newFunction := fun _ _ => rfl
  isObject_newObject := fun _ => rfl
  newQObject_ne_globalObject := fun e r _ => by
    cases r <;> exact MapEngine.create_fst_ne_globalObject e _ _
  newFunction_ne_globalObject := fun e _ => MapEngine.create_fst_ne_globalObject e _ _
  newObject_ne_globalObject := fun e => MapEngine.create_fst_ne_globalObject e _ _
  globalObject_setGlobalObject := fun e v hv => by
    cases v <;> simp_all [mapHost, MapValue.isObject, MapEngine.globalObject]
  globalObject_newQObject := fun e r _ => by cases r <;> rfl
  globalObject_newFunction := fun _ _ => rfl
  globalObject_newObject := fun _ => rfl
  globalObject_setData := fun _ _ _ => rfl
  globalObject_setProperty := fun e o n x f => by
    simp only [mapHost, MapEngine.setProperty]
    by_cases ho : o.isObject = true <;> simp [ho, MapEngine.globalObject]
  globalObject_setProcessEventsInterval := fun _ _ => rfl
  property_setProperty_same := fun e o n x f ho => by
    have ho' : o.isObject = true := ho
    simp only [mapHost, MapEngine.setProperty, MapEngine.property, ho', if_true, QString.chars]
    by_cases hx : x = .invalid <;> simp [hx]
  property_setProperty_other := fun e o n x f o' n' hne => by
    simp only [mapHost, MapEngine.setProperty, MapEngine.property]
    by_cases ho : o.isObject = true
    · simp only [ho, if_true]
      by_cases hoo : o' = o
      · subst hoo
        have : String.mk (QString.chars n') ≠ n := fun hh =>
          hne.elim (fun h1 => h1 rfl) (fun h2 => h2 (by rw [← hh]))
        simp [this]
      · simp [hoo]
    · simp [ho]
  property_newQObject := fun e r _ o n ho => by
    cases r <;> exact MapEngine.create_property e _ _ o n ho
  property_newObject := fun e o n ho => MapEngine.create_property e _ _ o n ho
  property_setGlobalObject := fun e v o n => by
    cases v <;> rfl
  properties_value := fun e o it hit => by
    obtain ⟨ho, n, _, p, hp, rfl⟩ := (MapEngine.mem_properties e o it).1 hit
    simp [mapHost, MapEngine.property, QString.chars, hp, ho]
  mem_properties_setProperty_same := fun e o n x ho hx => by
    have ho' : o.isObject = true := ho
    have hx' : x ≠ .invalid := by
      intro hh; subst hh; exact absurd hx (by decide)
    apply (MapEngine.mem_properties _ o _).2
    simp only [mapHost, MapEngine.setProperty, ho', if_true, true_and]
    refine ⟨n, ?_, (x, Undeletable), by simp [hx'], rfl⟩
    by_cases hn : n ∈ e.names o <;> simp [hn]
  mem_properties_setProperty_other := fun e o n x f o' it hit hne => by
    obtain ⟨ho', m, hm, p, hp, rfl⟩ := (MapEngine.mem_properties e o' it).1 hit
    apply (MapEngine.mem_properties _ o' _).2
    refine ⟨ho', ?_⟩
    simp only [mapHost, MapEngine.setProperty]
    by_cases ho : o.isObject = true
    · simp only [ho, if_true]
      by_cases hoo : o' = o
      · subst hoo
        have hmn : m ≠ n := hne.elim (fun h1 => absurd rfl h1) id
        refine ⟨m, ?_, p, by simp [hmn, hp], rfl⟩
        by_cases hn : n ∈ e.names o' <;> simp [hn, hm]
      · exact ⟨m, by simp [hoo, hm], p, by simp [hoo, hp], rfl⟩
    · simp only [ho]
      exact ⟨m, hm, p, hp, rfl⟩
  properties_newQObject := fun e r _ o ho => by
    cases r <;> exact MapEngine.create_properties e _ _ o ho
  properties_newFunction := fun e _ o ho => MapEngine.create_properties e _ _ o ho
  properties_newObject := fun e o ho => MapEngine.create_properties e _ _ o ho
  properties_setData := fun _ _ _ _ => rfl
  properties_setProcessEventsInterval := fun _ _ _ => rfl
  processEventsInterval_setProcessEventsInterval := fun _ _ => rfl

/-! ## `reset` -/

/-- C11: `reset` replaces the engine by a newly constructed one that is given the interval
of the prior engine and depends on nothing else of it: its global object and the properties
of every object are those of a newly constructed engine, so no property installed on the
prior engine is left. It sets `lineNumber` to 1, `isInitialized` and `exit` to false, and
leaves `useGlobalEngine`, `fileName`, the host API object with the script arguments, the
exit code, the world and the log as they are. -/
theorem reset_replaces_the_engine (h : Host σ E V) (L : EngineLaws h) (s : Shell σ E V) :
    (s.reset h).d.engine =
        h.setProcessEventsInterval h.newEngine (h.processEventsInterval s.d.engine) ∧
      h.globalObject (s.reset h).d.engine = h.globalObject h.newEngine ∧
      (∀ o, h.properties (s.reset h).d.engine o = h.properties h.newEngine o) ∧
      h.processEventsInterval (s.reset h).d.engine = h.processEventsInterval s.d.engine ∧
      (s.reset h).d.lineNumber = 1 ∧ (s.reset h).d.isInitialized = false ∧
      (s.reset h).d.exit = false ∧
      (s.reset h).d.useGlobalEngine = s.d.useGlobalEngine ∧
      (s.reset h).d.fileName = s.d.fileName ∧
      (s.reset h).d.scriptableEngine = s.d.scriptableEngine ∧
      (s.reset h).d.exitCode = s.d.exitCode ∧
      (s.reset h).world = s.world ∧ (s.reset h).log = s.log :=
  ⟨rfl, L.globalObject_setProcessEventsInterval _ _,
    fun _ => L.properties_setProcessEventsInterval _ _ _,
    L.processEventsInterval_setProcessEventsInterval _ _,
    rfl, rfl, rfl, rfl, rfl, rfl, rfl, rfl, rfl⟩

/-- C11 on a concrete shell, whose engine has a global property `a` and the interval 25:
after `reset` the global object has no property, and the interval is 25. -/
theorem reset_replaces_the_engine_witness :
    EngineLaws mapHost ∧
      mapHost.properties
          ((mapShell (mapHost.setProcessEventsInterval abEngine 25)).reset mapHost).d.engine
          (mapHost.globalObject mapHost.newEngine) = [] ∧
      mapHost.processEventsInterval
          ((mapShell (mapHost.setProcessEventsInterval abEngine 25)).reset mapHost).d.engine
        = 25 :=
  ⟨mapHost_lawful,
    (reset_replaces_the_engine mapHost mapHost_lawful
      (mapShell (mapHost.setProcessEventsInterval abEngine 25))).2.2.1 _,
    (reset_replaces_the_engine mapHost mapHost_lawful
      (mapShell (mapHost.setProcessEventsInterval abEngine 25))).2.2.2.1⟩

/-! ## `initEngine` and the global namespace -/

theorem initEngine.copy_append (h : Host σ E V) (w : V) (ps : List (PropertyEntry V))
    (p : PropertyEntry V) (e : E) :
    initEngine.copy h w (ps ++ [p]) e =
      if p.name ≠ "print" then
        h.setProperty (initEngine.copy h w ps e) w p.name p.value p.flags
      else initEngine.copy h w ps e := by
  simp [initEngine.copy, List.foldl_append]

theorem initEngine.copy_globalObject (h : Host σ E V) (L : EngineLaws h) (w : V)
    (ps : List (PropertyEntry V)) (e : E) :
    h.globalObject (initEngine.copy h w ps e) = h.globalObject e := by
  induction ps using List.reverseRecOn with
  | nil => rfl
  | append_singleton ps p ih =>
    rw [initEngine.copy_append]
    split
    · rw [L.globalObject_setProperty, ih]
    · exact ih

theorem initEngine.copy_property_print (h : Host σ E V) (L : EngineLaws h) (w : V)
    (ps : List (PropertyEntry V)) (e : E) :
    h.property (initEngine.copy h w ps e) w (some "print") = h.property e w (some "print") := by
  induction ps using List.reverseRecOn with
  | nil => rfl
  | append_singleton ps p ih =>
    rw [initEngine.copy_append]
    split
    · rename_i hp
      rw [L.property_setProperty_other, ih]
      right
      intro hh
      apply hp
      have : (⟨p.name.data⟩ : String) = ⟨"print".data⟩ := by
        rw [← hh]; rfl
      exact this
    · exact ih

theorem initEngine.copy_property (h : Host σ E V) (L : EngineLaws h) (w : V)
    (hw : h.isObject w = true) (ps : List (PropertyEntry V)) (e : E)
    (hps : ∀ it ∈ ps, ∀ it' ∈ ps, it.name = it'.name → it.value = it'.value)
    (it : PropertyEntry V) (hit : it ∈ ps) (hn : it.name ≠ "print") :
    h.property (initEngine.copy h w ps e) w (some it.name) = it.value := by
  induction ps using List.reverseRecOn with
  | nil => simp at hit
  | append_singleton ps p ih =>
    rw [initEngine.copy_append]
    by_cases hnp : it.name = p.name
    · have hv : it.value = p.value :=
        hps it hit p (by simp) hnp
      rw [if_pos (by rw [← hnp]; exact hn), hnp, hv]
      exact L.property_setProperty_same _ _ _ _ _ hw
    · have hmem : it ∈ ps := by
        rcases List.mem_append.1 hit with hh | hh
        · exact hh
        · simp at hh; subst hh; exact absurd rfl hnp
      have ih' := ih (fun a ha b hb => hps a (by simp [ha]) b (by simp [hb])) hmem
      split
      · rw [L.property_setProperty_other, ih']
        right
        intro hh
        apply hnp
        have : (⟨it.name.data⟩ : String) = ⟨p.name.data⟩ := by
          rw [← hh]; rfl
        exact this
      · exact ih'

theorem initEngine_merge_engine (h : Host σ E V) (d : ShellPrivate E)
    (hm : d.useGlobalEngine = true) :
    (initEngine h d).engine =
      (let wrapper := h.newQObject d.engine .scriptableEngine true
      let e2 := initEngine.copy h wrapper.1
        (h.properties wrapper.2 (h.globalObject d.engine)) wrapper.2
      let e3 := h.setGlobalObject e2 wrapper.1
      let sr := h.newObject e3
      let e5 := h.setProperty sr.2 wrapper.1 "sr" sr.1 Undeletable
      let eng := h.newQObject e5 .scriptableEngine true
      h.setProperty eng.2 sr.1 "engine" eng.1 Undeletable) := by
  simp [initEngine, hm]

theorem initEngine_isolate_engine (h : Host σ E V) (d : ShellPrivate E)
    (hm : d.useGlobalEngine = false) :
    (initEngine h d).engine =
      (let printFunction := h.newFunction d.engine .print
      let data := h.newQObject printFunction.2 .shell false
      let e3 := h.setData data.2 printFunction.1 data.1
      let e4 := h.setProperty e3 (h.globalObject e3) "print" printFunction.1 Undeletable
      let sr := h.newObject e4
      let e6 := h.setProperty sr.2 (h.globalObject d.engine) "sr" sr.1 Undeletable
      let eng := h.newQObject e6 .scriptableEngine true
      h.setProperty eng.2 sr.1 "engine" eng.1 Undeletable) := by
  simp [initEngine, hm]

theorem String.data_ne_of_ne {a b : String} (hab : a ≠ b) :
    QString.chars (some a) ≠ b.data := by
  intro hh
  apply hab
  have : (⟨a.data⟩ : String) = ⟨b.data⟩ := by
    rw [← hh]; rfl
  exact this

/-- C12: under the merge policy, after `initEngine` the global object is the wrapper of the
host API object; every property the global object had before, other than `print` and `sr`,
is a property of the new global object with the value it had; `print` on the new global
object is the wrapper's own, whatever the old global object had; and `sr` is an object
created by `initEngine`. -/
theorem initEngine_merge_keeps_globals (h : Host σ E V) (L : EngineLaws h)
    (d : ShellPrivate E) (hm : d.useGlobalEngine = true) :
    h.globalObject (initEngine h d).engine =
        (h.newQObject d.engine .scriptableEngine true).1 ∧
      (∀ it ∈ h.properties d.engine (h.globalObject d.engine),
        it.name ≠ "print" → it.name ≠ "sr" →
        h.property (initEngine h d).engine (h.globalObject (initEngine h d).engine)
          (some it.name) = it.value) ∧
      h.property (initEngine h d).engine (h.globalObject (initEngine h d).engine)
          (some "print") =
        h.property (h.newQObject d.engine .scriptableEngine true).2
          (h.newQObject d.engine .scriptableEngine true).1 (some "print") ∧
      ∃ e, h.property (initEngine h d).engine (h.globalObject (initEngine h d).engine)
          (some "sr") = (h.newObject e).1 := by
  rw [initEngine_merge_engine h d hm]
  generalize hw : h.newQObject d.engine .scriptableEngine true = wrapper
  have hwo : h.isObject wrapper.1 = true := by
    rw [← hw]; exact L.isObject_newQObject _ _ _
  have hwg : h.globalObject d.engine ≠ wrapper.1 := by
    rw [← hw]; exact fun hh => L.newQObject_ne_globalObject _ _ _ hh.symm
  have hprops : h.properties wrapper.2 (h.globalObject d.engine) =
      h.properties d.engine (h.globalObject d.engine) := by
    rw [← hw]; exact L.properties_newQObject _ _ _ _ (by rw [hw]; exact hwg)
  simp only [hprops]
  generalize he2 : initEngine.copy h wrapper.1
    (h.properties d.engine (h.globalObject d.engine)) wrapper.2 = e2
  generalize he3 : h.setGlobalObject e2 wrapper.1 = e3
  have hg3 : h.globalObject e3 = wrapper.1 := by
    rw [← he3]; exact L.globalObject_setGlobalObject _ _ hwo
  generalize hsr : h.newObject e3 = sr
  have hsrw : wrapper.1 ≠ sr.1 := by
    rw [← hsr, ← hg3]; exact fun hh => L.newObject_ne_globalObject _ hh.symm
  have hg4 : h.globalObject sr.2 = wrapper.1 := by
    rw [← hsr, L.globalObject_newObject, hg3]
  generalize he5 : h.setProperty sr.2 wrapper.1 "sr" sr.1 Undeletable = e5
  have hg5 : h.globalObject e5 = wrapper.1 := by
    rw [← he5, L.globalObject_setProperty, hg4]
  generalize heng : h.newQObject e5 .scriptableEngine true = eng
  have hengw : wrapper.1 ≠ eng.1 := by
    rw [← heng, ← hg5]; exact fun hh => L.newQObject_ne_globalObject _ _ _ hh.symm
  have hg6 : h.globalObject eng.2 = wrapper.1 := by
    rw [← heng, L.globalObject_newQObject, hg5]
  have hg7 : h.globalObject (h.setProperty eng.2 sr.1 "engine" eng.1 Undeletable) =
      wrapper.1 := by
    rw [L.globalObject_setProperty, hg6]
  -- the properties of the wrapper from the state after the loop onwards
  have hframe5 : ∀ n, h.property (h.setProperty eng.2 sr.1 "engine" eng.1 Undeletable)
      wrapper.1 n = h.property e5 wrapper.1 n := by
    intro n
    rw [L.property_setProperty_other _ _ _ _ _ _ _ (Or.inl hsrw), ← heng,
      L.property_newQObject _ _ _ _ _ (by rw [heng]; exact hengw)]
  have hframe : ∀ n : String, n ≠ "sr" →
      h.property (h.setProperty eng.2 sr.1 "engine" eng.1 Undeletable) wrapper.1 (some n) =
        h.property e2 wrapper.1 (some n) := by
    intro n hn
    rw [hframe5, ← he5,
      L.property_setProperty_other _ _ _ _ _ _ _ (Or.inr (String.data_ne_of_ne hn)), ← hsr,
      L.property_newObject _ _ _ (by rw [hsr]; exact hsrw), ← he3,
      L.property_setGlobalObject]
  simp only [hg7]
  refine ⟨trivial, ?_, ?_, ?_⟩
  · intro it hit hp hs
    rw [hframe _ hs, ← he2]
    refine initEngine.copy_property h L _ hwo _ _ ?_ it hit hp
    intro a ha b hb hab
    rw [← L.properties_value _ _ a ha, ← L.properties_value _ _ b hb, hab]
  · rw [hframe _ (by decide), ← he2, initEngine.copy_property_print h L]
  · refine ⟨e3, ?_⟩
    rw [hframe5, ← he5, hsr]
    exact L.property_setProperty_same _ _ _ _ _ hwo

/-- C12, amended, on a concrete engine, whose global object has the property `a`: after
`initEngine` the new global object has `a` with the value it had, and its `print` is the
one of the host API object. -/
theorem initEngine_merge_keeps_globals_witness :
    EngineLaws mapHost ∧ (mapShell abEngine).d.useGlobalEngine = true ∧
      mapHost.property (initEngine mapHost (mapShell abEngine).d).engine
          (mapHost.globalObject (initEngine mapHost (mapShell abEngine).d).engine)
          (some "a") = .object 1 none ∧
      mapHost.property (initEngine mapHost (mapShell abEngine).d).engine
          (mapHost.globalObject (initEngine mapHost (mapShell abEngine).d).engine)
          (some "print") = .native "sr.engine.print" :=
  ⟨mapHost_lawful, rfl,
    (initEngine_merge_keeps_globals mapHost mapHost_lawful (mapShell abEngine).d rfl).2.1
      ⟨"a", .object 1 none, 0⟩ (List.mem_singleton.2 rfl) (by decide) (by decide),
    (initEngine_merge_keeps_globals mapHost mapHost_lawful (mapShell abEngine).d rfl).2.2.1⟩

/-- The properties of the global object of `srEngine`. -/
theorem srEngine_properties :
    mapHost.properties srEngine (mapHost.globalObject srEngine) =
      [⟨"sr", .number 5, 0⟩, ⟨"x", .number 6, 0⟩] := rfl

/-- C12, as stated, fails: under the merge policy a property `sr` of the old global object,
which is not named `print`, is not a property of the new global object with its value. -/
theorem initEngine_merge_keeps_globals_counterexample :
    ¬ ∀ it ∈ mapHost.properties srEngine (mapHost.globalObject srEngine),
      it.name ≠ "print" →
      mapHost.property (initEngine mapHost (mapShell srEngine).d).engine
        (mapHost.globalObject (initEngine mapHost (mapShell srEngine).d).engine)
        (some it.name) = it.value := by
  intro H
  have h1 := H ⟨"sr", .number 5, 0⟩ (by rw [srEngine_properties]; simp) (by decide)
  revert h1
  decide

/-- C13: under the isolate policy, after `initEngine` the global object is the one the
engine had; it has the property `print`, the function created from `print`, flagged
undeletable; and every property it had before, other than `print` and `sr`, is still its
property, with the same value and flags, and is bound to that value; `sr` is an object
created by `initEngine`, flagged undeletable. -/
theorem initEngine_isolate_adds_print (h : Host σ E V) (L : EngineLaws h)
    (d : ShellPrivate E) (hm : d.useGlobalEngine = false) :
    h.globalObject (initEngine h d).engine = h.globalObject d.engine ∧
      ⟨"print", (h.newFunction d.engine .print).1, Undeletable⟩ ∈
        h.properties (initEngine h d).engine (h.globalObject d.engine) ∧
      (∀ it ∈ h.properties d.engine (h.globalObject d.engine),
        it.name ≠ "print" → it.name ≠ "sr" →
        it ∈ h.properties (initEngine h d).engine (h.globalObject d.engine) ∧
          h.property (initEngine h d).engine (h.globalObject d.engine) (some it.name) =
            it.value) ∧
      ∃ e, ⟨"sr", (h.newObject e).1, Undeletable⟩ ∈
        h.properties (initEngine h d).engine (h.globalObject d.engine) := by
  rw [initEngine_isolate_engine h d hm]
  dsimp only
  generalize hg : h.globalObject d.engine = g
  have hgo : h.isObject g = true := by
    rw [← hg]; exact L.isObject_globalObject _
  generalize hpf : h.newFunction d.engine .print = printFunction
  have hpfo : h.isObject printFunction.1 = true := by
    rw [← hpf]; exact L.isObject_newFunction _ _
  have hgpf : g ≠ printFunction.1 := by
    rw [← hpf, ← hg]; exact fun hh => L.newFunction_ne_globalObject _ _ hh.symm
  have hg1 : h.globalObject printFunction.2 = g := by
    rw [← hpf, L.globalObject_newFunction, hg]
  generalize hdata : h.newQObject printFunction.2 .shell false = data
  have hgdata : g ≠ data.1 := by
    rw [← hdata, ← hg1]; exact fun hh => L.newQObject_ne_globalObject _ _ _ hh.symm
  have hg2 : h.globalObject data.2 = g := by
    rw [← hdata, L.globalObject_newQObject, hg1]
  generalize he3 : h.setData data.2 printFunction.1 data.1 = e3
  have hg3 : h.globalObject e3 = g := by
    rw [← he3, L.globalObject_setData, hg2]
  rw [hg3]
  generalize he4 : h.setProperty e3 g "print" printFunction.1 Undeletable = e4
  have hg4 : h.globalObject e4 = g := by
    rw [← he4, L.globalObject_setProperty, hg3]
  generalize hsr : h.newObject e4 = sr
  have hsro : h.isObject sr.1 = true := by
    rw [← hsr]; exact L.isObject_newObject _
  have hgsr : g ≠ sr.1 := by
    rw [← hsr, ← hg4]; exact fun hh => L.newObject_ne_globalObject _ hh.symm
  have hg5 : h.globalObject sr.2 = g := by
    rw [← hsr, L.globalObject_newObject, hg4]
  generalize he6 : h.setProperty sr.2 g "sr" sr.1 Undeletable = e6
  have hg6 : h.globalObject e6 = g := by
    rw [← he6, L.globalObject_setProperty, hg5]
  generalize heng : h.newQObject e6 .scriptableEngine true = eng
  have hgeng : g ≠ eng.1 := by
    rw [← heng, ← hg6]; exact fun hh => L.newQObject_ne_globalObject _ _ _ hh.symm
  have hg7 : h.globalObject eng.2 = g := by
    rw [← heng, L.globalObject_newQObject, hg6]
  -- what the iterator shows of the global object, from each state to the last one
  have hfrom6 : ∀ it, it ∈ h.properties e6 g →
      it ∈ h.properties (h.setProperty eng.2 sr.1 "engine" eng.1 Undeletable) g := by
    intro it hit
    apply L.mem_properties_setProperty_other _ _ _ _ _ _ _ _ (Or.inl hgsr)
    rw [← heng, L.properties_newQObject _ _ _ _ (by rw [heng]; exact hgeng)]
    exact hit
  have hfrom4 : ∀ it, it ∈ h.properties e4 g → it.name ≠ "sr" →
      it ∈ h.properties (h.setProperty eng.2 sr.1 "engine" eng.1 Undeletable) g := by
    intro it hit hn
    apply hfrom6
    rw [← he6]
    apply L.mem_properties_setProperty_other _ _ _ _ _ _ _ _ (Or.inr hn)
    rw [← hsr, L.properties_newObject _ _ (by rw [hsr]; exact hgsr)]
    exact hit
  have hfrom0 : ∀ it, it ∈ h.properties d.engine g → it.name ≠ "print" → it.name ≠ "sr" →
      it ∈ h.properties (h.setProperty eng.2 sr.1 "engine" eng.1 Undeletable) g := by
    intro it hit hp hs
    apply hfrom4 _ _ hs
    rw [← he4]
    apply L.mem_properties_setProperty_other _ _ _ _ _ _ _ _ (Or.inr hp)
    rw [← he3, L.properties_setData, ← hdata,
      L.properties_newQObject _ _ _ _ (by rw [hdata]; exact hgdata), ← hpf,
      L.properties_newFunction _ _ _ (by rw [hpf]; exact hgpf)]
    exact hit
  refine ⟨?_, ?_, ?_, ?_⟩
  · rw [L.globalObject_setProperty, hg7]
  · apply hfrom4 _ _ (show ("print" : String) ≠ "sr" by decide)
    rw [← he4]
    exact L.mem_properties_setProperty_same _ _ _ _ hgo hpfo
  · intro it hit hp hs
    exact ⟨hfrom0 it hit hp hs, L.properties_value _ _ _ (hfrom0 it hit hp hs)⟩
  · refine ⟨e4, hfrom6 _ ?_⟩
    rw [← he6, hsr]
    exact L.mem_properties_setProperty_same _ _ _ _ hgo hsro

/-- C13, amended, on a concrete engine, whose global object has the properties `sr` and
`x`, under the isolate policy: after `initEngine` the global object has `print`,
undeletable, and `x` as it was. -/
theorem initEngine_isolate_adds_print_witness :
    EngineLaws mapHost ∧
      ({ (mapShell srEngine).d with useGlobalEngine := false }).useGlobalEngine = false ∧
      (⟨"print", .object 1 none, Undeletable⟩ : PropertyEntry MapValue) ∈
        mapHost.properties
          (initEngine mapHost { (mapShell srEngine).d with useGlobalEngine := false }).engine
          (mapHost.globalObject srEngine) ∧
      (⟨"x", .number 6, 0⟩ : PropertyEntry MapValue) ∈
        mapHost.properties
          (initEngine mapHost { (mapShell srEngine).d with useGlobalEngine := false }).engine
          (mapHost.globalObject srEngine) :=
  ⟨mapHost_lawful, rfl,
    (initEngine_isolate_adds_print mapHost mapHost_lawful
      { (mapShell srEngine).d with useGlobalEngine := false } rfl).2.1,
    ((initEngine_isolate_adds_print mapHost mapHost_lawful
      { (mapShell srEngine).d with useGlobalEngine := false } rfl).2.2.1
      ⟨"x", .number 6, 0⟩
      (by
        show (_ : PropertyEntry MapValue) ∈
          mapHost.properties srEngine (mapHost.globalObject srEngine)
        rw [srEngine_properties]; simp)
      (by decide) (by decide)).1⟩

/-- C13, as stated, fails: under the isolate policy a property `sr` of the global object,
which is not named `print`, is not bound to its value after `initEngine`. -/
theorem initEngine_isolate_adds_print_counterexample :
    ¬ ∀ it ∈ mapHost.properties srEngine (mapHost.globalObject srEngine),
      it.name ≠ "print" →
      mapHost.property
        (initEngine mapHost { (mapShell srEngine).d with useGlobalEngine := false }).engine
        (mapHost.globalObject srEngine) (some it.name) = it.value := by
  intro H
  have h1 := H ⟨"sr", .number 5, 0⟩ (by rw [srEngine_properties]; simp) (by decide)
  revert h1
  decide

/-! ## The loops of `completeScriptExpression` end -/

/-- A `while` loop whose body keeps an invariant `I` and lowers a measure `μ` ends, given
more fuel than the measure: it returns a state where the invariant holds and the condition
is false. -/
theorem whileLoop_ends {α : Type} (cond : α → Option Bool) (body : α → Option α)
    (I : α → Prop) (μ : α → Nat)
    (hc : ∀ a, I a → ∃ b, cond a = some b)
    (hb : ∀ a, I a → cond a = some true → ∃ a', body a = some a' ∧ I a' ∧ μ a' < μ a) :
    ∀ (fuel : Nat) (a : α), I a → μ a < fuel →
      ∃ r, whileLoop cond body fuel a = some r ∧ I r ∧ cond r = some false ∧ μ r ≤ μ a := by
  intro fuel
  induction fuel with
  | zero => intro a _ h; omega
  | succ fuel ih =>
    intro a hI hμ
    obtain ⟨b, hcb⟩ := hc a hI
    cases b with
    | false => exact ⟨a, by simp [whileLoop, hcb], hI, hcb, le_refl _⟩
    | true =>
      obtain ⟨a', hba, hI', hlt⟩ := hb a hI hcb
      obtain ⟨r, hr, hIr, hcr, hle⟩ := ih a' hI' (by omega)
      exact ⟨r, by simp [whileLoop, hcb, hba, hr], hIr, hcr, by omega⟩

theorem QString.at_isSome (s : QString) (i : Int) (h0 : 0 ≤ i) (h1 : i < QString.length s) :
    ∃ ch, QString.at s i = some ch := by
  have h2 : i.toNat < (QString.chars s).length := by
    unfold QString.length at h1
    omega
  exact ⟨(QString.chars s)[i.toNat], by simp [QString.at, h0, List.getElem?_eq_getElem h2]⟩

/-- The loop that skips an identifier ends, within as many tests as the place it starts
from has characters before it and one more: it stops at a place that is not after the
start and not before the beginning. -/
theorem Shell.completeScriptExpression.skipIdentifier_ends (h : Host σ E V)
    (expression : QString) (fuel : Nat) (startWord : Int) (h0 : 0 ≤ startWord)
    (h1 : startWord ≤ QString.length expression) (hf : startWord.toNat < fuel) :
    ∃ r, Shell.completeScriptExpression.skipIdentifier h expression fuel startWord = some r ∧
      0 ≤ r ∧ r ≤ startWord := by
  obtain ⟨r, hr, hI, _, hle⟩ := whileLoop_ends
    (fun startWord =>
      if startWord > 0 then (QString.at expression (startWord - 1)).map (isIdentifierChar h)
      else some false)
    (fun startWord => some (startWord - 1))
    (fun a => 0 ≤ a ∧ a ≤ QString.length expression) Int.toNat
    (by
      intro a ha
      by_cases hp : a > 0
      · obtain ⟨ch, hch⟩ := QString.at_isSome expression (a - 1) (by omega) (by omega)
        exact ⟨isIdentifierChar h ch, by simp [hp, hch]⟩
      · exact ⟨false, by simp [hp]⟩)
    (by
      intro a ha hc
      have hp : a > 0 := by
        by_contra hp
        simp [hp] at hc
      exact ⟨a - 1, rfl, ⟨by omega, by omega⟩, by omega⟩)
    fuel startWord ⟨h0, h1⟩ hf
  exact ⟨r, hr, hI.1, by omega⟩

/-- The loop that collects the path ends. -/
theorem Shell.completeScriptExpression.pathLoop_ends (h : Host σ E V)
    (expression : QString) (fuel : Nat) (startWord : Int) (path : QStringList)
    (h1 : startWord < QString.length expression)
    (hf : (QString.length expression).toNat < fuel) :
    ∃ r, Shell.completeScriptExpression.pathLoop h expression fuel startWord path =
      some r := by
  obtain ⟨r, hr, _⟩ := whileLoop_ends
    (fun (a : Int × QStringList) =>
      if a.1 > 0 then (QString.at expression a.1).map fun ch => decide (ch = '.')
      else some false)
    (fun a =>
      match Shell.completeScriptExpression.skipIdentifier h expression fuel a.1 with
      | none => none
      | some startWord =>
        some (startWord - 1, QString.mid expression startWord (a.1 - startWord) :: a.2))
    (fun a => a.1 < QString.length expression) (fun a => a.1.toNat)
    (by
      intro a ha
      by_cases hp : a.1 > 0
      · obtain ⟨ch, hch⟩ := QString.at_isSome expression a.1 (by omega) ha
        exact ⟨decide (ch = '.'), by simp [hp, hch]⟩
      · exact ⟨false, by simp [hp]⟩)
    (by
      intro a ha hc
      have hp : a.1 > 0 := by
        by_contra hp
        simp [hp] at hc
      obtain ⟨r, hr, hr0, hr1⟩ := Shell.completeScriptExpression.skipIdentifier_ends h
        expression fuel a.1 (by omega) (by omega) (by omega)
      refine ⟨(r - 1, QString.mid expression r (a.1 - r) :: a.2), by simp only [hr], ?_, ?_⟩
      · show r - 1 < QString.length expression
        omega
      · show (r - 1).toNat < a.1.toNat
        omega)
    fuel (startWord, path) h1 (by show startWord.toNat < fuel; omega)
  exact ⟨r, hr⟩

/-- The parse of lines 604-633 returns, for every expression. -/
theorem Shell.completeScriptExpression.parse_returns (h : Host σ E V)
    (expression : QString) :
    ∃ path name start, Shell.completeScriptExpression.parse h expression
      ((QString.chars expression).length + 2) = some (path, name, start) := by
  unfold Shell.completeScriptExpression.parse
  by_cases he : QString.isEmpty expression = true
  · exact ⟨[], none, 0, by simp [he]⟩
  · simp only [he]
    have hlen : QString.length expression = ((QString.chars expression).length : Int) := rfl
    obtain ⟨r, hr, hr0, hr1⟩ := Shell.completeScriptExpression.skipIdentifier_ends h
      expression ((QString.chars expression).length + 2)
      (QString.length expression) (by omega) (by omega) (by omega)
    obtain ⟨p, hp⟩ := Shell.completeScriptExpression.pathLoop_ends h expression
      ((QString.chars expression).length + 2) (r - 1) [] (by omega) (by omega)
    have hs : QString.length expression - 1 + 1 = QString.length expression := by omega
    simp only [hs, hr, hp]
    exact ⟨_, _, _, rfl⟩

/-- Lines 604-636 return, for every expression: the outcome of `findCompletions` on the
parsed path and name, and the parsed start of the completion. -/
theorem completions_eq (h : Host σ E V) (engine : E) (expression : QString)
    (start0 : Int) (commonName : QString) (path : QStringList) (name : QString)
    (start : Int)
    (hp : Shell.completeScriptExpression.parse h expression
      ((QString.chars expression).length + 2) = some (path, name, start)) :
    completions h engine expression start0 commonName =
      some ((findCompletions h engine (h.currentContext engine) path name commonName).1,
        start,
        (findCompletions h engine (h.currentContext engine) path name commonName).2) := by
  simp [completions, hp]

/-! ## The order of `QString` and the sort -/

theorem ucstrcmpLess_total (a b : List Nat) :
    ucstrcmpLess b a = false ∨ ucstrcmpLess a b = false := by
  induction a generalizing b with
  | nil => cases b <;> simp [ucstrcmpLess]
  | cons x xs ih =>
    cases b with
    | nil => simp [ucstrcmpLess]
    | cons y ys =>
      simp only [ucstrcmpLess, Bool.or_eq_false_iff, Bool.and_eq_false_imp, decide_eq_false_iff_not,
        decide_eq_true_eq]
      rcases Nat.lt_trichotomy x y with hxy | hxy | hxy
      · left; exact ⟨by omega, fun hh => by omega⟩
      · subst hxy
        rcases ih ys with hh | hh
        · left; exact ⟨by omega, fun _ => hh⟩
        · right; exact ⟨by omega, fun _ => hh⟩
      · right; exact ⟨by omega, fun hh => by omega⟩

theorem ucstrcmpLess_trans (a b c : List Nat) (hab : ucstrcmpLess b a = false)
    (hbc : ucstrcmpLess c b = false) : ucstrcmpLess c a = false := by
  induction a generalizing b c with
  | nil => cases c <;> rfl
  | cons x xs ih =>
    cases b with
    | nil => simp [ucstrcmpLess] at hab
    | cons y ys =>
      cases c with
      | nil => simp [ucstrcmpLess] at hbc
      | cons z zs =>
        simp only [ucstrcmpLess, Bool.or_eq_false_iff, Bool.and_eq_false_imp,
          decide_eq_false_iff_not, decide_eq_true_eq] at hab hbc ⊢
        refine ⟨by omega, fun hzx => ?_⟩
        subst hzx
        have hy : y = z := by omega
        subst hy
        exact ih ys zs (hab.2 rfl) (hbc.2 rfl)

/-- The sorted list has the entries of the list, each as often. -/
theorem qStableSort_perm (list : QStringList) : (qStableSort list).Perm list :=
  List.perm_insertionSort _ list

/-- In the sorted list no entry is less than one before it. -/
theorem qStableSort_sorted (list : QStringList) :
    (qStableSort list).Sorted QString.notAfter := by
  haveI : IsTotal QString QString.notAfter := ⟨fun _ _ => ucstrcmpLess_total _ _⟩
  haveI : IsTrans QString QString.notAfter :=
    ⟨fun _ _ _ hab hbc => ucstrcmpLess_trans _ _ _ hab hbc⟩
  exact List.sorted_insertionSort _ list

/-! ## The strings `findCompletions` works with -/

theorem findCompletions.commonLength_le (a b : List Char) :
    findCompletions.commonLength a b ≤ a.length := by
  induction a generalizing b with
  | nil => simp [findCompletions.commonLength]
  | cons x xs ih =>
    cases b with
    | nil => simp [findCompletions.commonLength]
    | cons y ys =>
      simp only [findCompletions.commonLength]
      split
      · omega
      · have := ih ys; simp; omega

theorem findCompletions.take_commonLength_prefix (a b : List Char) :
    a.take (findCompletions.commonLength a b) <+: b := by
  induction a generalizing b with
  | nil => simp
  | cons x xs ih =>
    cases b with
    | nil => simp [findCompletions.commonLength]
    | cons y ys =>
      simp only [findCompletions.commonLength]
      split
      · simp
      · rename_i hxy
        have hxy' : x = y := by simpa using hxy
        subst hxy'
        simpa [List.take_succ_cons, List.cons_prefix_cons] using ih ys

theorem findCompletions.prefix_take_commonLength (a b q : List Char) (ha : q <+: a)
    (hb : q <+: b) : q <+: a.take (findCompletions.commonLength a b) := by
  induction q generalizing a b with
  | nil => simp
  | cons c q ih =>
    obtain ⟨ra, rfl⟩ := ha
    obtain ⟨rb, rfl⟩ := hb
    have := ih (q ++ ra) (q ++ rb) (List.prefix_append _ _) (List.prefix_append _ _)
    simpa [findCompletions.commonLength, List.take_succ_cons, List.cons_prefix_cons] using this

theorem QString.mid_zero (t : String) (i : Nat) (hi : i ≤ t.data.length) :
    ∃ u : String, QString.mid (some t) 0 i = some u ∧ u.data = t.data.take i := by
  unfold QString.mid
  have h1 : ¬ ((0 : Int) > (t.data.length : Int)) := by omega
  have h2 : ¬ ((i : Int) < 0) := by omega
  have h3 : ¬ ((i : Int) + 0 > (t.data.length : Int)) := by omega
  simp only [h1, h2, h3, if_false, lt_self_iff_false]
  by_cases h4 : (i : Int) = (t.data.length : Int)
  · refine ⟨t, by simp only [h4, and_self, if_true], ?_⟩
    have : i = t.data.length := by omega
    simp [this]
  · simp only [h4, and_false, if_false]
    exact ⟨_, rfl, by simp⟩

theorem QString.mid_rest (t : String) (k : Nat) (h0 : 0 < k) (hk : k ≤ t.data.length) :
    ∃ u : String, QString.mid (some t) k (-1) = some u ∧ u.data = t.data.drop k := by
  unfold QString.mid
  have h1 : ¬ ((k : Int) > (t.data.length : Int)) := by omega
  have h2 : ((-1 : Int) < 0) := by omega
  have h3 : ¬ ((k : Int) < 0) := by omega
  have h4 : ¬ ((t.data.length : Int) - (k : Int) + (k : Int) > (t.data.length : Int)) := by
    omega
  have h5 : ¬ ((k : Int) = 0 ∧ (t.data.length : Int) - (k : Int) = (t.data.length : Int)) := by
    omega
  simp only [h1, h2, h3, h4, h5, if_false, if_true]
  refine ⟨_, rfl, ?_⟩
  have : ((t.data.length : Int) - (k : Int)).toNat = t.data.length - k := by omega
  simp [this]

theorem QString.prefix_of_startsWith (p : String) (name : QString)
    (hs : QString.startsWith (some p) name = true) : QString.chars name <+: p.data := by
  unfold QString.startsWith at hs
  simp only at hs
  split at hs
  · have : QString.chars name = [] := by
      simpa using hs
    rw [this]; exact List.nil_prefix
  · split at hs
    · simp at hs
    · exact List.isPrefixOf_iff_prefix.1 hs

/-! ## What `findCompletions` collects -/

theorem findCompletions.foldl_names (props : List (PropertyEntry V)) (acc : QStringList) :
    props.foldl (fun (result : QStringList) it => result ++ [some it.name]) acc =
      acc ++ props.map fun it => (some it.name : QString) := by
  induction props generalizing acc with
  | nil => simp
  | cons p ps ih => simp [ih]

theorem findCompletions.foldl_step_fst (name : QString) (props : List (PropertyEntry V))
    (acc : QStringList × QString) :
    (props.foldl (findCompletions.step name) acc).1 =
      acc.1 ++ (props.map fun it => (some it.name : QString)).filter
        fun p => QString.startsWith p name := by
  induction props generalizing acc with
  | nil => simp
  | cons p ps ih =>
    rw [List.foldl_cons, ih]
    by_cases hp : QString.startsWith (some p.name) name = true
    · simp [findCompletions.step, hp]
    · simp [findCompletions.step, hp]

/-- The list `findCompletions` collects: the names of the properties, all of them when the
name is empty and else those that start with the name, and after them, when the path is
empty, the reserved words, chosen in the same way. -/
theorem findCompletions.collect_fst (h : Host σ E V) (engine : E)
    (context : QScriptContext V) (path : QStringList) (name commonName : QString) :
    (findCompletions.collect h engine context path name commonName).1 =
      (findCompletions.propertyNames h engine context path).filter
          (fun p => QString.isEmpty name || QString.startsWith p name) ++
        if path.isEmpty then
          reservedWords.filter fun word => QString.isEmpty name || QString.startsWith word name
        else [] := by
  have hl : (path.length = 0) = (path.isEmpty = true) := by
    cases path <;> simp
  unfold findCompletions.collect
  by_cases hn : QString.isEmpty name = true
  · simp only [hn, if_true, Bool.true_or, List.filter_true, findCompletions.foldl_names,
      List.nil_append, findCompletions.propertyNames, hl]
    split <;> simp
  · simp only [hn, Bool.false_eq_true, if_false, Bool.false_or, findCompletions.foldl_step_fst,
      List.nil_append, findCompletions.propertyNames, hl]
    split <;> simp

/-- The method returns what lines 604-636 compute on the engine after the guard. -/
theorem Shell.completeScriptExpression_snd (h : Host σ E V) (s : Shell σ E V)
    (expression : QString) (start0 : Int) (commonName : QString) (path : QStringList)
    (name : QString) (start : Int)
    (hp : Shell.completeScriptExpression.parse h expression
      ((QString.chars expression).length + 2) = some (path, name, start)) :
    (Shell.completeScriptExpression h (completions h) s expression start0 commonName).2 =
      some
        (qStableSort (findCompletions.collect h (s.initIfNeeded h).d.engine
            (h.currentContext (s.initIfNeeded h).d.engine) path name commonName).1,
          start,
          (findCompletions.collect h (s.initIfNeeded h).d.engine
            (h.currentContext (s.initIfNeeded h).d.engine) path name commonName).2) := by
  simp only [Shell.completeScriptExpression]
  rw [completions_eq h _ expression start0 commonName path name start hp]
  rfl

/-- C16: for every expression and every shell, `completeScriptExpression` returns, and the
candidates it returns are, each as often, the names of the properties of the resolved value
that start with the parsed name (all of them when the name is empty), together with, when
the parsed path is empty and only then, the words among `this`, `true`, `false`, `null` that
start with the name (all four when the name is empty). -/
theorem candidates_are_matching_names_and_words (h : Host σ E V) (s : Shell σ E V)
    (expression : QString) (start0 : Int) (commonName : QString) :
    ∃ path name start candidates common,
      Shell.completeScriptExpression.parse h expression
        ((QString.chars expression).length + 2) = some (path, name, start) ∧
      (Shell.completeScriptExpression h (completions h) s expression start0 commonName).2 =
        some (candidates, start, common) ∧
      candidates.Perm
        ((findCompletions.propertyNames h (s.initIfNeeded h).d.engine
            (h.currentContext (s.initIfNeeded h).d.engine) path).filter
            (fun p => QString.isEmpty name || QString.startsWith p name) ++
          if path.isEmpty then
            reservedWords.filter fun word =>
              QString.isEmpty name || QString.startsWith word name
          else []) := by
  obtain ⟨path, name, start, hp⟩ :=
    Shell.completeScriptExpression.parse_returns h expression
  refine ⟨path, name, start, _, _, hp,
    Shell.completeScriptExpression_snd h s expression start0 commonName path name start hp, ?_⟩
  rw [← findCompletions.collect_fst h _ _ path name commonName]
  exact qStableSort_perm _

/-- C19: for every expression and every shell, `completeScriptExpression` returns, and the
list it returns is in ascending order, no entry being less than an earlier one by the
comparison of `QString`, and has the entries of the collected list, each as often. -/
theorem candidates_are_sorted (h : Host σ E V) (s : Shell σ E V)
    (expression : QString) (start0 : Int) (commonName : QString) :
    ∃ path name start candidates common,
      Shell.completeScriptExpression.parse h expression
        ((QString.chars expression).length + 2) = some (path, name, start) ∧
      (Shell.completeScriptExpression h (completions h) s expression start0 commonName).2 =
        some (candidates, start, common) ∧
      candidates.Sorted (fun a b => QString.less b a = false) ∧
      candidates.Perm
        (findCompletions.collect h (s.initIfNeeded h).d.engine
          (h.currentContext (s.initIfNeeded h).d.engine) path name commonName).1 := by
  obtain ⟨path, name, start, hp⟩ :=
    Shell.completeScriptExpression.parse_returns h expression
  exact ⟨path, name, start, _, _, hp,
    Shell.completeScriptExpression_snd h s expression start0 commonName path name start hp,
    qStableSort_sorted _, qStableSort_perm _⟩

/-! ## The common text -/

theorem findCompletions.step_append (name : QString) (ps : List (PropertyEntry V))
    (p : PropertyEntry V) (acc : QStringList × QString) :
    (ps ++ [p]).foldl (findCompletions.step name) acc =
      findCompletions.step name (ps.foldl (findCompletions.step name) acc) p := by
  simp [List.foldl_append]

/-- While no property name starts with the name, the loop leaves `common` alone. -/
theorem findCompletions.foldl_step_snd_of_no_match (name : QString)
    (props : List (PropertyEntry V)) (acc : QStringList × QString)
    (hno : ∀ it ∈ props, QString.startsWith (some it.name) name = false) :
    (props.foldl (findCompletions.step name) acc).2 = acc.2 := by
  induction props generalizing acc with
  | nil => rfl
  | cons p ps ih =>
    rw [List.foldl_cons, ih _ (fun it hit => hno it (by simp [hit]))]
    simp [findCompletions.step, hno p (by simp)]

/-- After the loop `common` is null when no property name starts with the name, and else the
longest common prefix of the property names that start with the name. -/
theorem findCompletions.foldl_step_snd (name : QString) (props : List (PropertyEntry V))
    (result : QStringList) :
    ((props.map fun it => (some it.name : QString)).filter
          (fun p => QString.startsWith p name) = [] ∧
        (props.foldl (findCompletions.step name) (result, none)).2 = none) ∨
      ∃ t : String, (props.foldl (findCompletions.step name) (result, none)).2 = some t ∧
        IsLongestCommonPrefix t.data
          (((props.map fun it => (some it.name : QString)).filter
            (fun p => QString.startsWith p name)).map QString.chars) := by
  induction props using List.reverseRecOn with
  | nil => left; simp
  | append_singleton ps p ih =>
    rw [findCompletions.step_append]
    by_cases hp : QString.startsWith (some p.name) name = true
    · right
      rcases ih with ⟨hM, hc⟩ | ⟨t, hc, hpre, hmax⟩
      · refine ⟨p.name, by simp [findCompletions.step, hp, hc, QString.isNull], ?_⟩
        simp only [List.map_append, List.filter_append, hM, List.map_cons, List.map_nil,
          List.nil_append]
        simp only [List.filter_cons, hp, if_true, List.filter_nil, List.map_cons, List.map_nil,
          QString.chars]
        exact ⟨fun m hm => by simp at hm; subst hm; exact List.prefix_refl _,
          fun q hq => hq _ (by simp)⟩
      · obtain ⟨u, hu, hud⟩ := QString.mid_zero t
          (findCompletions.commonLength t.data p.name.data)
          (findCompletions.commonLength_le _ _)
        refine ⟨u, by simp [findCompletions.step, hp, hc, QString.isNull, QString.chars, hu],
          ?_⟩
        simp only [List.map_append, List.filter_append, List.map_cons, List.map_nil,
          List.filter_cons, hp, if_true, List.filter_nil, QString.chars, hud]
        constructor
        · intro m hm
          rcases List.mem_append.1 hm with hm | hm
          · exact (List.take_prefix _ _).trans (hpre m hm)
          · simp at hm; subst hm
            exact findCompletions.take_commonLength_prefix _ _
        · intro q hq
          apply findCompletions.prefix_take_commonLength
          · exact hmax q (fun m hm => hq m (List.mem_append.2 (Or.inl hm)))
          · exact hq _ (by simp)
    · have hstep : findCompletions.step name
          (ps.foldl (findCompletions.step name) (result, none)) p =
          ps.foldl (findCompletions.step name) (result, none) := by
        simp [findCompletions.step, hp]
      rw [hstep]
      simpa [List.filter_append, List.filter_cons, hp] using ih

/-- The value `findCompletions` leaves in `commonName` when the name is empty or no property
name starts with it: the value that came in. -/
theorem findCompletions.collect_snd_of_no_match (h : Host σ E V) (engine : E)
    (context : QScriptContext V) (path : QStringList) (name commonName : QString)
    (hno : QString.isEmpty name = true ∨
      (findCompletions.propertyNames h engine context path).filter
        (fun p => QString.startsWith p name) = []) :
    (findCompletions.collect h engine context path name commonName).2 = commonName := by
  unfold findCompletions.collect
  by_cases hn : QString.isEmpty name = true
  · simp [hn]
  · have hno' := hno.resolve_left hn
    have hnone : ∀ it ∈ h.properties engine (findCompletions.resolve h engine context path),
        QString.startsWith (some it.name) name = false := by
      intro it hit
      by_contra hs
      have : (some it.name : QString) ∈ (findCompletions.propertyNames h engine context
          path).filter (fun p => QString.startsWith p name) := by
        simp only [List.mem_filter, findCompletions.propertyNames, List.mem_map]
        exact ⟨⟨it, hit, rfl⟩, by simpa using hs⟩
      rw [hno'] at this
      simp at this
    simp only [hn, Bool.false_eq_true, if_false]
    rw [findCompletions.foldl_step_snd_of_no_match name _ _ hnone]
    simp [QString.isNull]

/-- The value `findCompletions` leaves in `commonName` when the name is not empty and some
property name starts with it: with the name before it, the longest common prefix of the
property names that start with the name. -/
theorem findCompletions.collect_snd_of_match (h : Host σ E V) (engine : E)
    (context : QScriptContext V) (path : QStringList) (name commonName : QString)
    (hname : QString.isEmpty name = false)
    (hmatch : (findCompletions.propertyNames h engine context path).filter
      (fun p => QString.startsWith p name) ≠ []) :
    ∃ common : String,
      (findCompletions.collect h engine context path name commonName).2 = some common ∧
      IsLongestCommonPrefix (QString.chars name ++ common.data)
        (((findCompletions.propertyNames h engine context path).filter
          (fun p => QString.startsWith p name)).map QString.chars) := by
  unfold findCompletions.collect
  simp only [hname, Bool.false_eq_true, if_false]
  rcases findCompletions.foldl_step_snd name
      (h.properties engine (findCompletions.resolve h engine context path)) [] with
    ⟨hM, _⟩ | ⟨t, hc, hlcp⟩
  · exact absurd hM hmatch
  · have hpre : QString.chars name <+: t.data := by
      apply hlcp.2
      intro m hm
      simp only [List.mem_map, List.mem_filter] at hm
      obtain ⟨q, ⟨⟨it, _, rfl⟩, hq⟩, rfl⟩ := hm
      exact QString.prefix_of_startsWith it.name name hq
    have hk0 : 0 < (QString.chars name).length := by
      cases hcn : QString.chars name with
      | nil => simp [QString.isEmpty, hcn] at hname
      | cons a l => simp
    obtain ⟨u, hu, hud⟩ := QString.mid_rest t (QString.chars name).length hk0 hpre.length_le
    refine ⟨u, by simp [hc, QString.isNull, QString.length, hu], ?_⟩
    have : QString.chars name ++ u.data = t.data := by
      obtain ⟨r, hr⟩ := hpre
      rw [hud, ← hr]
      simp
    rw [this]
    exact hlcp

/-- C18: for every expression whose parsed name is empty, and for every expression and shell
in which no property name of the resolved value starts with the name,
`completeScriptExpression` returns and never writes `commonName`: the common text it
reports is the value `commonName` had before the call, which need not be empty. -/
theorem commonName_is_left_as_it_came (h : Host σ E V) (s : Shell σ E V)
    (expression : QString) (start0 : Int) (commonName : QString) (path : QStringList)
    (name : QString) (start : Int)
    (hp : Shell.completeScriptExpression.parse h expression
      ((QString.chars expression).length + 2) = some (path, name, start))
    (hno : QString.isEmpty name = true ∨
      (findCompletions.propertyNames h (s.initIfNeeded h).d.engine
          (h.currentContext (s.initIfNeeded h).d.engine) path).filter
        (fun p => QString.startsWith p name) = []) :
    ∃ candidates : QStringList,
      (Shell.completeScriptExpression h (completions h) s expression start0 commonName).2 =
        some (candidates, start, commonName) := by
  refine ⟨qStableSort (findCompletions.collect h (s.initIfNeeded h).d.engine
    (h.currentContext (s.initIfNeeded h).d.engine) path name commonName).1, ?_⟩
  rw [Shell.completeScriptExpression_snd h s expression start0 commonName path name start hp,
    findCompletions.collect_snd_of_no_match h _ _ path name commonName hno]

/-- C18 on a concrete call: the empty expression, with `x` in `commonName` before the call;
the common text reported is `x`. -/
theorem commonName_is_left_as_it_came_witness :
    Shell.completeScriptExpression.parse mapHost (some "") 2 = some ([], none, 0) ∧
      (QString.isEmpty none = true ∨
        (findCompletions.propertyNames mapHost
            ((mapShell abEngine).initIfNeeded mapHost).d.engine
            (mapHost.currentContext ((mapShell abEngine).initIfNeeded mapHost).d.engine)
            []).filter
          (fun p => QString.startsWith p none) = []) ∧
      ∃ candidates : QStringList,
        (Shell.completeScriptExpression mapHost (completions mapHost) (mapShell abEngine)
          (some "") 0 (some "x")).2 = some (candidates, 0, some "x") :=
  ⟨rfl, Or.inl rfl,
    commonName_is_left_as_it_came mapHost (mapShell abEngine) (some "") 0 (some "x") [] none 0
      rfl (Or.inl rfl)⟩

/-- C20: completing `a.b.` on a shell whose global object has a property `a` with a
property `b` with the properties `foo`, `bar` and `baz`, in this order, parses the path `a`,
`b` and no name, and returns the candidates `bar`, `baz`, `foo` and the start 4; the common
text it reports is what `commonName` held before the call: `x` when that was `x`, and the
null string when that was the null string. -/
theorem completing_a_b_dot :
    findCompletions.propertyNames mapHost ((mapShell abEngine).initIfNeeded mapHost).d.engine
        (mapHost.currentContext ((mapShell abEngine).initIfNeeded mapHost).d.engine)
        [some "a", some "b"] = [some "foo", some "bar", some "baz"] ∧
      Shell.completeScriptExpression.parse mapHost (some "a.b.") 6 =
        some ([some "a", some "b"], none, 4) ∧
      (Shell.completeScriptExpression mapHost (completions mapHost) (mapShell abEngine)
        (some "a.b.") 0 (some "x")).2 =
        some ([some "bar", some "baz", some "foo"], 4, some "x") ∧
      (Shell.completeScriptExpression mapHost (completions mapHost) (mapShell abEngine)
        (some "a.b.") 0 none).2 =
        some ([some "bar", some "baz", some "foo"], 4, none) := by
  decide

/-! ## What the scans of `completeScriptExpression` find -/

theorem QString.at_natCast (s : QString) (i : Nat) :
    QString.at s (i : Int) = (QString.chars s)[i]? := by
  simp [QString.at]

theorem whileLoop_succ {α : Type} (cond : α → Option Bool) (body : α → Option α)
    (fuel : Nat) (a : α) :
    whileLoop cond body (fuel + 1) a =
      match cond a with
      | none => none
      | some false => some a
      | some true =>
        match body a with
        | none => none
        | some a => whileLoop cond body fuel a := rfl

/-- The loop that skips an identifier, started at the place `s` of an expression, stops at
a place `r` not after `s`: the characters from `r` up to `s` are identifier characters,
and `r` is the beginning of the expression or the character before `r` is not an
identifier character. -/
theorem Shell.completeScriptExpression.skipIdentifier_spec (h : Host σ E V)
    (expression : QString) (fuel : Nat) (s : Nat)
    (h1 : s ≤ (QString.chars expression).length) (hf : s < fuel) :
    ∃ r : Nat,
      Shell.completeScriptExpression.skipIdentifier h expression fuel (s : Int) =
        some (r : Int) ∧ r ≤ s ∧
      (∀ i : Nat, r ≤ i → i < s →
        ∃ ch, (QString.chars expression)[i]? = some ch ∧ isIdentifierChar h ch = true) ∧
      (r = 0 ∨
        ∃ ch, (QString.chars expression)[r - 1]? = some ch ∧ isIdentifierChar h ch = false) := by
  obtain ⟨r, hr, hI, hc, _⟩ := whileLoop_ends
    (fun startWord : Int =>
      if startWord > 0 then (QString.at expression (startWord - 1)).map (isIdentifierChar h)
      else some false)
    (fun startWord => some (startWord - 1))
    (fun a => 0 ≤ a ∧ a ≤ (s : Int) ∧ ∀ i : Nat, a ≤ (i : Int) → i < s →
      ∃ ch, (QString.chars expression)[i]? = some ch ∧ isIdentifierChar h ch = true)
    Int.toNat
    (by
      intro a ha
      by_cases hp : a > 0
      · obtain ⟨ch, hch⟩ := QString.at_isSome expression (a - 1) (by omega)
          (by unfold QString.length; omega)
        exact ⟨isIdentifierChar h ch, by simp [hp, hch]⟩
      · exact ⟨false, by simp [hp]⟩)
    (by
      intro a ha hc
      have hp : a > 0 := by
        by_contra hp
        simp [hp] at hc
      refine ⟨a - 1, rfl, ⟨by omega, by omega, ?_⟩, by omega⟩
      intro i hi his
      by_cases hia : a ≤ (i : Int)
      · exact ha.2.2 i hia his
      · have hia' : a - 1 = (i : Int) := by omega
        simp only [hp, if_true, hia', QString.at_natCast, Option.map_eq_some'] at hc
        exact hc)
    fuel (s : Int) ⟨by omega, le_refl _, fun i hi his => by omega⟩ (by simpa using hf)
  obtain ⟨hr0, hrs, hall⟩ := hI
  refine ⟨r.toNat, ?_, by omega, ?_, ?_⟩
  · have : ((r.toNat : Nat) : Int) = r := by omega
    rw [this]
    exact hr
  · intro i hi his
    exact hall i (by omega) his
  · by_cases hp : r > 0
    · right
      have hr1 : r - 1 = ((r.toNat - 1 : Nat) : Int) := by omega
      simp only [hp, if_true, hr1, QString.at_natCast, Option.map_eq_some'] at hc
      obtain ⟨ch, hch, hid⟩ := hc
      exact ⟨ch, hch, by simpa using hid⟩
    · left; omega

/-- The characters of a part of a string. -/
theorem QString.mid_chars (t : String) (position n : Nat)
    (hn : position + n ≤ t.data.length) :
    ∃ u : String, QString.mid (some t) position n = some u ∧
      u.data = (t.data.drop position).take n := by
  unfold QString.mid
  have h1 : ¬ ((position : Int) > (t.data.length : Int)) := by omega
  have h2 : ¬ ((n : Int) < 0) := by omega
  have h3 : ¬ ((position : Int) < 0) := by omega
  have h4 : ¬ ((n : Int) + (position : Int) > (t.data.length : Int)) := by omega
  simp only [h1, h2, h3, h4, if_false]
  by_cases h5 : (position : Int) = 0 ∧ (n : Int) = (t.data.length : Int)
  · simp only [h5, and_self, if_true]
    refine ⟨t, rfl, ?_⟩
    have hp : position = 0 := by omega
    have hn' : n = t.data.length := by omega
    simp [hp, hn']
  · simp only [h5, if_false]
    exact ⟨_, rfl, by simp⟩

/-- What lines 604-622 make of an expression that is not empty: the name is the text from
the place `r` where the first scan stops to the end, `r` is written to
`completitionStartAt`, and the path is the one the loop of lines 624-632 collects from the
place before `r`. -/
theorem Shell.completeScriptExpression.parse_spec (h : Host σ E V) (expression : QString)
    (he : QString.isEmpty expression = false) :
    ∃ (r : Nat) (name : QString),
      r ≤ (QString.chars expression).length ∧
      QString.chars name = (QString.chars expression).drop r ∧
      (∀ i : Nat, r ≤ i → i < (QString.chars expression).length →
        ∃ ch, (QString.chars expression)[i]? = some ch ∧ isIdentifierChar h ch = true) ∧
      (r = 0 ∨
        ∃ ch, (QString.chars expression)[r - 1]? = some ch ∧
          isIdentifierChar h ch = false) ∧
      Shell.completeScriptExpression.parse h expression
          ((QString.chars expression).length + 2) =
        match Shell.completeScriptExpression.pathLoop h expression
            ((QString.chars expression).length + 2) ((r : Int) - 1) [] with
        | none => none
        | some a => some (a.2, name, (r : Int)) := by
  obtain ⟨r, hr, hrs, hall, hstop⟩ := Shell.completeScriptExpression.skipIdentifier_spec h
    expression ((QString.chars expression).length + 2) (QString.chars expression).length
    (le_refl _) (by omega)
  have hs : QString.length expression - 1 + 1 =
      (((QString.chars expression).length : Nat) : Int) := by
    unfold QString.length; omega
  cases expression with
  | none => simp [QString.isEmpty, QString.chars] at he
  | some t =>
    obtain ⟨u, hu, hud⟩ := QString.mid_chars t r (t.data.length - r)
      (by simp only [QString.chars] at hrs; omega)
    by_cases hlt : r < t.data.length
    · refine ⟨r, some u, hrs, ?_, hall, hstop, ?_⟩
      · simp only [QString.chars] at hrs ⊢
        rw [hud]
        simp
      · unfold Shell.completeScriptExpression.parse
        simp only [he, Bool.false_eq_true, if_false, hs, hr]
        have hle : (r : Int) ≤ QString.length (some t) - 1 := by
          simp only [QString.length, QString.chars]; omega
        have hn : QString.length (some t) - 1 - (r : Int) + 1 =
            ((t.data.length - r : Nat) : Int) := by
          simp only [QString.length, QString.chars]; omega
        simp only [hle, if_true, hn, hu]
    · refine ⟨r, none, hrs, ?_, hall, hstop, ?_⟩
      · simp only [QString.chars] at hrs ⊢
        have : r = t.data.length := by omega
        simp [this]
      · unfold Shell.completeScriptExpression.parse
        simp only [he, Bool.false_eq_true, if_false, hs, hr]
        have hle : ¬ (r : Int) ≤ QString.length (some t) - 1 := by
          simp only [QString.length, QString.chars] at hrs ⊢; omega
        simp only [hle, if_false]

/-- The loop that collects the path stops where `startWord` is not positive or the
character there is not a dot. -/
theorem Shell.completeScriptExpression.pathLoop_stop (h : Host σ E V)
    (expression : QString) (fuel f : Nat) (s : Int) (path : QStringList)
    (hstop : s ≤ 0 ∨ ∃ ch, QString.at expression s = some ch ∧ ch ≠ '.') :
    whileLoop (Shell.completeScriptExpression.pathLoop.cond expression)
        (Shell.completeScriptExpression.pathLoop.body h expression fuel) (f + 1) (s, path) =
      some (s, path) := by
  rw [whileLoop_succ]
  have : Shell.completeScriptExpression.pathLoop.cond expression (s, path) = some false := by
    unfold Shell.completeScriptExpression.pathLoop.cond
    by_cases hp : s > 0
    · rcases hstop with h0 | ⟨ch, hch, hne⟩
      · omega
      · simp [hp, hch, hne]
    · simp [hp]
  simp only [this]

/-- One turn of the loop that collects the path, at a dot at the place `s`, which is not
the first: the identifier before the dot, from the place `r` on, is put in front of the
path, and the loop goes on from the place before `r`. -/
theorem Shell.completeScriptExpression.pathLoop_step (h : Host σ E V)
    (expression : QString) (fuel f : Nat) (s : Nat) (path : QStringList)
    (hs0 : 0 < s) (hs : s < (QString.chars expression).length)
    (hdot : (QString.chars expression)[s]? = some '.')
    (hf : (QString.chars expression).length < fuel) :
    ∃ (r : Nat) (u : String),
      r ≤ s ∧ u.data = ((QString.chars expression).drop r).take (s - r) ∧
      (∀ i : Nat, r ≤ i → i < s →
        ∃ ch, (QString.chars expression)[i]? = some ch ∧ isIdentifierChar h ch = true) ∧
      (r = 0 ∨
        ∃ ch, (QString.chars expression)[r - 1]? = some ch ∧
          isIdentifierChar h ch = false) ∧
      whileLoop (Shell.completeScriptExpression.pathLoop.cond expression)
          (Shell.completeScriptExpression.pathLoop.body h expression fuel) (f + 1)
          ((s : Int), path) =
        whileLoop (Shell.completeScriptExpression.pathLoop.cond expression)
          (Shell.completeScriptExpression.pathLoop.body h expression fuel) f
          ((r : Int) - 1, some u :: path) := by
  obtain ⟨r, hr, hrs, hall, hstop⟩ := Shell.completeScriptExpression.skipIdentifier_spec h
    expression fuel s (by omega) (by omega)
  cases expression with
  | none => simp [QString.chars] at hs
  | some t =>
    obtain ⟨u, hu, hud⟩ := QString.mid_chars t r (s - r)
      (by simp only [QString.chars] at hs; omega)
    refine ⟨r, u, hrs, hud, hall, hstop, ?_⟩
    rw [whileLoop_succ]
    have hc : Shell.completeScriptExpression.pathLoop.cond (some t) ((s : Int), path) =
        some true := by
      unfold Shell.completeScriptExpression.pathLoop.cond
      have hp : (s : Int) > 0 := by omega
      simp [hp, QString.at_natCast, hdot]
    have hn : (s : Int) - (r : Int) = ((s - r : Nat) : Int) := by omega
    have hb : Shell.completeScriptExpression.pathLoop.body h (some t) fuel ((s : Int), path) =
        some ((r : Int) - 1, some u :: path) := by
      unfold Shell.completeScriptExpression.pathLoop.body
      simp only [hr, hn, hu]
    simp only [hc, hb]

/-- The place where the scan of an identifier stops is fixed by what it leaves behind: if
the text before the place `s` is `q` and then `w`, where `w` has identifier characters
only and `q` is empty or ends in another character, the scan from `s` stops after `q`. -/
theorem scan_unique (p : Char → Bool) (cs q w rest : List Char) (hcs : cs = q ++ w ++ rest)
    (hw : ∀ c ∈ w, p c = true)
    (hq : q = [] ∨ ∃ q' c, q = q' ++ [c] ∧ p c = false)
    (r : Nat) (hr : r ≤ q.length + w.length)
    (hall : ∀ i : Nat, r ≤ i → i < q.length + w.length →
      ∃ ch, cs[i]? = some ch ∧ p ch = true)
    (hstop : r = 0 ∨ ∃ ch, cs[r - 1]? = some ch ∧ p ch = false) :
    r = q.length := by
  rcases Nat.lt_trichotomy r q.length with hlt | heq | hgt
  · exfalso
    rcases hq with hq | ⟨q', c, hq, hc⟩
    · simp [hq] at hlt
    · obtain ⟨ch, hch, hp⟩ := hall (q.length - 1) (by omega) (by omega)
      have : cs[q.length - 1]? = some c := by
        subst hq
        rw [hcs, List.append_assoc, List.append_assoc,
          List.getElem?_append_right (by simp)]
        simp
      rw [this] at hch
      simp only [Option.some.injEq] at hch
      rw [hch, hp] at hc
      exact absurd hc (by decide)
  · exact heq
  · exfalso
    rcases hstop with h0 | ⟨ch, hch, hp⟩
    · omega
    · have hi : r - 1 - q.length < w.length := by omega
      have : cs[r - 1]? = some (w[r - 1 - q.length]) := by
        rw [hcs, List.append_assoc, List.getElem?_append_right (by omega),
          List.getElem?_append_left hi, List.getElem?_eq_getElem hi]
      rw [this] at hch
      simp only [Option.some.injEq] at hch
      have := hw _ (List.getElem_mem hi)
      rw [hch, hp] at this
      exact absurd this (by decide)

theorem List.take_succ_eq_take_append_segment (cs : List Char) (r s : Nat) (c : Char)
    (hrs : r ≤ s) (hc : cs[s]? = some c) :
    cs.take (s + 1) = cs.take r ++ ((cs.drop r).take (s - r) ++ [c]) := by
  have hs : s < cs.length := by
    by_contra hh
    rw [List.getElem?_eq_none (by omega)] at hc
    exact absurd hc (by simp)
  have h1 : cs.take (s + 1) = cs.take s ++ [c] := by
    rw [List.take_succ, hc]; rfl
  have h2 : cs.take s = cs.take r ++ (cs.drop r).take (s - r) := by
    have : s = r + (s - r) := by omega
    conv_lhs => rw [this, List.take_add]
  rw [h1, h2, List.append_assoc]

/-- The loop that collects the path ends, for every place it starts from: it puts items
in front of the path, stops at a place `r`, and the text it went over, from after `r` up to
the place it started from, is the items it put there, each followed by a dot. The items
have identifier characters only and none is the null string. -/
theorem Shell.completeScriptExpression.pathLoop_spec (h : Host σ E V)
    (expression : QString) (fuel : Nat) (hf : (QString.chars expression).length < fuel) :
    ∀ (f : Nat) (s : Int) (path0 : QStringList), -1 ≤ s →
      s < ((QString.chars expression).length : Int) → (s + 1).toNat < f →
      ∃ (r : Int) (path : QStringList),
        whileLoop (Shell.completeScriptExpression.pathLoop.cond expression)
            (Shell.completeScriptExpression.pathLoop.body h expression fuel) f (s, path0) =
          some (r, path ++ path0) ∧
        -1 ≤ r ∧ r ≤ s ∧
        ((QString.chars expression).take (s + 1).toNat).drop (r + 1).toNat =
          (path.map fun p => QString.chars p ++ ['.']).flatten ∧
        (∀ p ∈ path, QString.isNull p = false ∧
          ∀ c ∈ QString.chars p, isIdentifierChar h c = true) := by
  intro f
  induction f with
  | zero => intro s _ _ _ hlt; omega
  | succ f ih =>
    intro s path0 hs0 hs1 hsf
    by_cases hgo : s > 0 ∧ (QString.chars expression)[s.toNat]? = some '.'
    · obtain ⟨hpos, hdot⟩ := hgo
      have hsn : ((s.toNat : Nat) : Int) = s := by omega
      obtain ⟨r1, u, hr1, hud, hall, _, hstep⟩ :=
        Shell.completeScriptExpression.pathLoop_step h expression fuel f s.toNat path0
          (by omega) (by omega) hdot hf
      rw [hsn] at hstep
      obtain ⟨r, path, hres, hr0, hrle, hrel, hids⟩ :=
        ih ((r1 : Int) - 1) (some u :: path0) (by omega) (by omega) (by omega)
      refine ⟨r, path ++ [some u], ?_, hr0, by omega, ?_, ?_⟩
      · rw [hstep, hres]; simp
      · have e1 : (s + 1).toNat = s.toNat + 1 := by omega
        have e2 : ((r1 : Int) - 1 + 1).toNat = r1 := by omega
        rw [e2] at hrel
        rw [e1, List.take_succ_eq_take_append_segment _ r1 s.toNat '.' hr1 hdot,
          List.drop_append_of_le_length (by
            rw [List.length_take]; omega)]
        have hu : QString.chars (some u) =
            ((QString.chars expression).drop r1).take (s.toNat - r1) := hud
        rw [hrel, List.map_append, List.flatten_append, List.map_singleton,
          List.flatten_singleton, hu]
      · intro p hp
        rcases List.mem_append.1 hp with hp | hp
        · exact hids p hp
        · simp only [List.mem_singleton] at hp
          subst hp
          refine ⟨rfl, ?_⟩
          intro c hc
          have hu : QString.chars (some u) =
              ((QString.chars expression).drop r1).take (s.toNat - r1) := hud
          rw [hu] at hc
          obtain ⟨i, hi⟩ := List.mem_iff_getElem?.1 hc
          have hin : i < s.toNat - r1 := by
            by_contra hh
            rw [List.getElem?_take_eq_none (by omega)] at hi
            exact absurd hi (by simp)
          rw [List.getElem?_take_of_lt hin, List.getElem?_drop] at hi
          obtain ⟨ch, hch, hid⟩ := hall (r1 + i) (by omega) (by omega)
          rw [hi] at hch
          simp only [Option.some.injEq] at hch
          rw [hch]; exact hid
    · refine ⟨s, [], ?_, hs0, le_refl _, by simp, by simp⟩
      rw [List.nil_append]
      apply Shell.completeScriptExpression.pathLoop_stop
      by_cases hpos : s > 0
      · right
        have hlt : s.toNat < (QString.chars expression).length := by omega
        refine ⟨(QString.chars expression)[s.toNat], ?_, ?_⟩
        · have hsn : s = ((s.toNat : Nat) : Int) := by omega
          have := QString.at_natCast expression s.toNat
          rw [← hsn, List.getElem?_eq_getElem hlt] at this
          exact this
        · intro hh
          apply hgo
          exact ⟨hpos, by rw [List.getElem?_eq_getElem hlt, hh]⟩
      · left; omega

/-- What lines 604-633 make of an expression, for every expression: the parse returns; the
name is the text from the place `r` to the end, it has identifier characters only, and `r`
is the beginning or comes after a character that is not an identifier character; `r` is
written to `completitionStartAt`; and the text from after some place `q` up to `r` is the
items of the path, each followed by a dot. -/
theorem Shell.completeScriptExpression.parse_full_spec (h : Host σ E V)
    (expression : QString) :
    ∃ (path : QStringList) (name : QString) (r : Nat) (q : Int),
      Shell.completeScriptExpression.parse h expression
          ((QString.chars expression).length + 2) = some (path, name, (r : Int)) ∧
      r ≤ (QString.chars expression).length ∧
      QString.chars name = (QString.chars expression).drop r ∧
      (∀ i : Nat, r ≤ i → i < (QString.chars expression).length →
        ∃ ch, (QString.chars expression)[i]? = some ch ∧ isIdentifierChar h ch = true) ∧
      (r = 0 ∨
        ∃ ch, (QString.chars expression)[r - 1]? = some ch ∧
          isIdentifierChar h ch = false) ∧
      -1 ≤ q ∧ q ≤ (r : Int) - 1 ∧
      ((QString.chars expression).take r).drop (q + 1).toNat =
        (path.map fun p => QString.chars p ++ ['.']).flatten ∧
      (∀ p ∈ path, QString.isNull p = false ∧
        ∀ c ∈ QString.chars p, isIdentifierChar h c = true) := by
  by_cases he : QString.isEmpty expression = true
  · have hcs : QString.chars expression = [] := by
      simpa [QString.isEmpty] using he
    refine ⟨[], none, 0, -1, ?_, by simp, by rw [hcs]; rfl, ?_, Or.inl rfl,
      le_refl _, by simp, by simp, by simp⟩
    · simp [Shell.completeScriptExpression.parse, he]
    · intro i _ hi
      rw [hcs] at hi
      simp at hi
  · have he' : QString.isEmpty expression = false := by simpa using he
    obtain ⟨r, name, hr, hname, hall, hstop, hparse⟩ :=
      Shell.completeScriptExpression.parse_spec h expression he'
    obtain ⟨q, path, hres, hq0, hq1, hrel, hids⟩ :=
      Shell.completeScriptExpression.pathLoop_spec h expression
        ((QString.chars expression).length + 2) (by omega)
        ((QString.chars expression).length + 2) ((r : Int) - 1) [] (by omega) (by omega)
        (by omega)
    have e1 : ((r : Int) - 1 + 1).toNat = r := by omega
    rw [e1] at hrel
    refine ⟨path, name, r, q, ?_, hr, hname, hall, hstop, hq0, hq1, hrel, hids⟩
    rw [hparse]
    unfold Shell.completeScriptExpression.pathLoop
    rw [hres]
    simp

/-- The method returns for every expression, with the parsed start of the completion. -/
theorem Shell.completeScriptExpression_returns (h : Host σ E V) (s : Shell σ E V)
    (expression : QString) (start0 : Int) (commonName : QString) (path : QStringList)
    (name : QString) (start : Int)
    (hp : Shell.completeScriptExpression.parse h expression
      ((QString.chars expression).length + 2) = some (path, name, start)) :
    ∃ (candidates : QStringList) (common : QString),
      (Shell.completeScriptExpression h (completions h) s expression start0 commonName).2 =
        some (candidates, start, common) :=
  ⟨_, _, Shell.completeScriptExpression_snd h s expression start0 commonName path name start
    hp⟩

/-- C22: for every expression, `completeScriptExpression` returns; the name it parses is
the longest suffix of the expression that has identifier characters only (a suffix with
identifier characters only, than which no such suffix is longer), and the value written to
`completitionStartAt` is the length of the expression minus the length of the name. -/
theorem name_is_longest_identifier_suffix (h : Host σ E V) (s : Shell σ E V)
    (expression : QString) (start0 : Int) (commonName : QString) :
    ∃ (path : QStringList) (name : QString) (start : Int) (candidates : QStringList)
      (common : QString),
      Shell.completeScriptExpression.parse h expression
          ((QString.chars expression).length + 2) = some (path, name, start) ∧
      (Shell.completeScriptExpression h (completions h) s expression start0 commonName).2 =
        some (candidates, start, common) ∧
      QString.chars name <:+ QString.chars expression ∧
      (∀ c ∈ QString.chars name, isIdentifierChar h c = true) ∧
      (∀ w : List Char, w <:+ QString.chars expression →
        (∀ c ∈ w, isIdentifierChar h c = true) →
        w.length ≤ (QString.chars name).length) ∧
      start = QString.length expression - QString.length name := by
  obtain ⟨path, name, r, q, hp, hr, hname, hall, hstop, _⟩ :=
    Shell.completeScriptExpression.parse_full_spec h expression
  obtain ⟨candidates, common, hm⟩ := Shell.completeScriptExpression_returns h s expression
    start0 commonName path name r hp
  refine ⟨path, name, r, candidates, common, hp, hm, ?_, ?_, ?_, ?_⟩
  · rw [hname]; exact List.drop_suffix _ _
  · intro c hc
    rw [hname] at hc
    obtain ⟨i, hi⟩ := List.mem_iff_getElem?.1 hc
    rw [List.getElem?_drop] at hi
    have hlt : r + i < (QString.chars expression).length := by
      by_contra hh
      rw [List.getElem?_eq_none (by omega)] at hi
      exact absurd hi (by simp)
    obtain ⟨ch, hch, hid⟩ := hall (r + i) (by omega) hlt
    rw [hi] at hch
    simp only [Option.some.injEq] at hch
    rw [hch]; exact hid
  · intro w hw hwid
    rw [hname, List.length_drop]
    by_contra hlen
    have hwl : w.length ≤ (QString.chars expression).length := hw.length_le
    rcases hstop with h0 | ⟨ch, hch, hid⟩
    · omega
    · obtain ⟨pre, hpre⟩ := hw
      have hpl : pre.length + w.length = (QString.chars expression).length := by
        rw [← hpre, List.length_append]
      have hi : r - 1 - pre.length < w.length := by omega
      have : (QString.chars expression)[r - 1]? = some (w[r - 1 - pre.length]) := by
        rw [← hpre, List.getElem?_append_right (by omega), List.getElem?_eq_getElem hi]
      rw [this] at hch
      simp only [Option.some.injEq] at hch
      have := hwid _ (List.getElem_mem hi)
      rw [hch, hid] at this
      exact absurd this (by decide)
  · simp only [QString.length, hname, List.length_drop]
    omega

/-- C28: for every expression, the two scans of `completeScriptExpression` end within as
many tests of their conditions as the expression has characters, and two more; no call of
`expression.at` is out of range, for the parse is defined; and the value written to
`completitionStartAt` is at least 0 and at most the length of the expression. -/
theorem scans_end_in_range (h : Host σ E V) (s : Shell σ E V)
    (expression : QString) (start0 : Int) (commonName : QString) :
    ∃ (path : QStringList) (name : QString) (start : Int) (candidates : QStringList)
      (common : QString),
      Shell.completeScriptExpression.parse h expression
          ((QString.chars expression).length + 2) = some (path, name, start) ∧
      (Shell.completeScriptExpression h (completions h) s expression start0 commonName).2 =
        some (candidates, start, common) ∧
      0 ≤ start ∧ start ≤ QString.length expression := by
  obtain ⟨path, name, r, q, hp, hr, _⟩ :=
    Shell.completeScriptExpression.parse_full_spec h expression
  obtain ⟨candidates, common, hm⟩ := Shell.completeScriptExpression_returns h s expression
    start0 commonName path name r hp
  exact ⟨path, name, r, candidates, common, hp, hm, by omega,
    by simp only [QString.length]; omega⟩

theorem intercalate_append_sep (sep : List Char) (l : List (List Char)) (hl : l ≠ []) :
    List.intercalate sep l ++ sep = (l.map fun x => x ++ sep).flatten := by
  induction l with
  | nil => exact absurd rfl hl
  | cons x xs ih =>
    cases xs with
    | nil => simp [List.intercalate]
    | cons y ys =>
      have := ih (by simp)
      simp only [List.intercalate, List.intersperse, List.flatten_cons, List.map_cons,
        List.append_assoc] at this ⊢
      rw [this]

/-- C27: for every expression, `completeScriptExpression` returns, and the path and the
name it parses make up a suffix of the expression: the expression ends with the name, and
the value written to `completitionStartAt` is where that suffix starts; when the path is
not empty, the expression ends with the items of the path joined by dots, a dot, and the
name. -/
theorem path_and_name_make_a_suffix (h : Host σ E V) (s : Shell σ E V)
    (expression : QString) (start0 : Int) (commonName : QString) :
    ∃ (path : QStringList) (name : QString) (start : Int) (candidates : QStringList)
      (common : QString),
      Shell.completeScriptExpression.parse h expression
          ((QString.chars expression).length + 2) = some (path, name, start) ∧
      (Shell.completeScriptExpression h (completions h) s expression start0 commonName).2 =
        some (candidates, start, common) ∧
      QString.chars name <:+ QString.chars expression ∧
      start = QString.length expression - QString.length name ∧
      (path ≠ [] →
        List.intercalate ['.'] (path.map QString.chars) ++ '.' :: QString.chars name <:+
          QString.chars expression) := by
  obtain ⟨path, name, r, q, hp, hr, hname, _, _, _, _, hrel, _⟩ :=
    Shell.completeScriptExpression.parse_full_spec h expression
  obtain ⟨candidates, common, hm⟩ := Shell.completeScriptExpression_returns h s expression
    start0 commonName path name r hp
  refine ⟨path, name, r, candidates, common, hp, hm, ?_, ?_, ?_⟩
  · rw [hname]; exact List.drop_suffix _ _
  · simp only [QString.length, hname, List.length_drop]
    omega
  · intro hne
    have h1 : List.intercalate ['.'] (path.map QString.chars) ++ '.' :: QString.chars name =
        (path.map fun p => QString.chars p ++ ['.']).flatten ++ QString.chars name := by
      have := intercalate_append_sep ['.'] (path.map QString.chars) (by simpa using hne)
      rw [List.map_map] at this
      have h2 : List.intercalate ['.'] (path.map QString.chars) ++ '.' :: QString.chars name =
          (List.intercalate ['.'] (path.map QString.chars) ++ ['.']) ++ QString.chars name := by
        simp
      rw [h2, this]
      rfl
    rw [h1, ← hrel, hname]
    refine ⟨((QString.chars expression).take r).take (q + 1).toNat, ?_⟩
    rw [← List.append_assoc, List.take_append_drop, List.take_append_drop]

/-- A text that ends with a dot, or with the end of a text that is empty or ends in a
character that is not an identifier character: it is empty or ends in a character that is
not an identifier character. -/
theorem ends_outside_of_segments (p : Char → Bool) (hdot : p '.' = false)
    (pre : List Char) (hpre : pre = [] ∨ ∃ p' c, pre = p' ++ [c] ∧ p c = false)
    (segs : List (List Char)) :
    pre ++ (segs.map fun sg => sg ++ ['.']).flatten = [] ∨
      ∃ q' c, pre ++ (segs.map fun sg => sg ++ ['.']).flatten = q' ++ [c] ∧ p c = false := by
  induction segs using List.reverseRecOn with
  | nil => simpa using hpre
  | append_singleton segs sg _ =>
    right
    refine ⟨pre ++ (segs.map fun sg => sg ++ ['.']).flatten ++ sg, '.', ?_, hdot⟩
    simp

/-- The loop that collects the path, started at the last dot of a text `pre`, `s1`, dot,
..., `sk`, dot, where each `si` is a string of identifier characters that is not empty and
`pre` is empty or ends in a character that is neither an identifier character nor a dot,
puts `s1`, ..., `sk` in front of the path. -/
theorem Shell.completeScriptExpression.pathLoop_of_segments (h : Host σ E V)
    (expression : QString) (fuel : Nat) (hf : (QString.chars expression).length < fuel)
    (hdot : isIdentifierChar h '.' = false) (pre : List Char)
    (hpre : pre = [] ∨ ∃ p' c, pre = p' ++ [c] ∧ isIdentifierChar h c = false ∧ c ≠ '.') :
    ∀ (segs : List (List Char)) (rest : List Char) (path0 : QStringList) (f : Nat),
      (∀ sg ∈ segs, sg ≠ [] ∧ ∀ c ∈ sg, isIdentifierChar h c = true) →
      QString.chars expression = pre ++ (segs.map fun sg => sg ++ ['.']).flatten ++ rest →
      segs.length < f →
      ∃ r, whileLoop (Shell.completeScriptExpression.pathLoop.cond expression)
          (Shell.completeScriptExpression.pathLoop.body h expression fuel) f
          (((pre ++ (segs.map fun sg => sg ++ ['.']).flatten).length : Int) - 1, path0) =
        some (r, (segs.map fun sg => (some (String.mk sg) : QString)) ++ path0) := by
  intro segs
  induction segs using List.reverseRecOn with
  | nil =>
    intro rest path0 f _ hcs hlen
    obtain ⟨f, rfl⟩ : ∃ f', f = f' + 1 := ⟨f - 1, by simp at hlen; omega⟩
    refine ⟨((pre.length : Nat) : Int) - 1, ?_⟩
    simp only [List.map_nil, List.flatten_nil, List.append_nil, List.nil_append] at hcs ⊢
    apply Shell.completeScriptExpression.pathLoop_stop
    rcases hpre with hp | ⟨p', c, hp, _, hc⟩
    · left; simp [hp]
    · right
      refine ⟨c, ?_, hc⟩
      have h1 : ((pre.length : Nat) : Int) - 1 = ((p'.length : Nat) : Int) := by
        rw [hp]; simp
      rw [h1, QString.at_natCast, hcs, hp, List.append_assoc,
        List.getElem?_append_right (le_refl _)]
      simp
  | append_singleton segs sg ih =>
    intro rest path0 f hsegs hcs hlen
    obtain ⟨f, rfl⟩ : ∃ f', f = f' + 1 := ⟨f - 1, by simp at hlen; omega⟩
    have hsg := hsegs sg (by simp)
    have hflat : ((segs ++ [sg]).map fun sg => sg ++ ['.']).flatten =
        (segs.map fun sg => sg ++ ['.']).flatten ++ (sg ++ ['.']) := by
      simp
    rw [hflat] at hcs ⊢
    obtain ⟨q, hq⟩ : ∃ q, pre ++ (segs.map fun sg => sg ++ ['.']).flatten = q := ⟨_, rfl⟩
    have hcs' : QString.chars expression = q ++ sg ++ ('.' :: rest) := by
      rw [hcs, ← hq]; simp
    have hsgl : 0 < sg.length := List.length_pos.2 hsg.1
    have hpos : ((pre ++ ((segs.map fun sg => sg ++ ['.']).flatten ++ (sg ++ ['.']))).length
        : Int) - 1 = ((q.length + sg.length : Nat) : Int) := by
      rw [← List.append_assoc, hq]
      simp only [List.length_append, List.length_singleton]
      omega
    rw [hpos]
    have hlenq : (QString.chars expression).length = q.length + sg.length + 1 + rest.length := by
      rw [hcs']; simp; omega
    have hdotat : (QString.chars expression)[q.length + sg.length]? = some '.' := by
      rw [hcs', List.getElem?_append_right (by simp)]
      simp
    obtain ⟨r, u, hr, hud, hall, hstop, hstep⟩ :=
      Shell.completeScriptExpression.pathLoop_step h expression fuel f (q.length + sg.length)
        path0 (by omega) (by omega) hdotat hf
    have hqend : q = [] ∨ ∃ q' c, q = q' ++ [c] ∧ isIdentifierChar h c = false := by
      rw [← hq]
      exact ends_outside_of_segments (isIdentifierChar h) hdot pre
        (hpre.imp id (fun ⟨p', c, e, hc, _⟩ => ⟨p', c, e, hc⟩)) segs
    have hrq : r = q.length :=
      scan_unique (isIdentifierChar h) (QString.chars expression) q sg ('.' :: rest) hcs'
        hsg.2 hqend r hr hall hstop
    subst hrq
    have hu : u = String.mk sg := by
      have : u.data = sg := by
        rw [hud, hcs']
        simp
      cases u
      simp only at this
      rw [this]
    subst hu
    obtain ⟨r2, hr2⟩ := ih (sg ++ '.' :: rest) (some (String.mk sg) :: path0) f
      (fun x hx => hsegs x (by simp [hx]))
      (by rw [hq, hcs']; simp) (by simp at hlen; omega)
    refine ⟨r2, ?_⟩
    rw [hstep]
    rw [hq] at hr2
    rw [hr2]
    simp

theorem length_le_length_flatten_segments (segs : List (List Char)) :
    segs.length ≤ (segs.map fun sg => sg ++ ['.']).flatten.length := by
  induction segs with
  | nil => simp
  | cons sg segs ih =>
    rw [List.map_cons, List.flatten_cons, List.length_append, List.length_append,
      List.length_cons, List.length_singleton]
    omega

/-- The parse of an expression `pre`, `s1`, dot, ..., `sk`, dot, `n`, where `n` and each
`si` are strings of identifier characters, no `si` is empty, and `pre` is empty or ends in
a character that is neither an identifier character nor a dot: the path is `s1`, ..., `sk`,
the name has the characters of `n`, and the completion starts where `n` starts. -/
theorem Shell.completeScriptExpression.parse_of_segments (h : Host σ E V)
    (expression : QString) (pre : List Char) (segs : List (List Char)) (n : List Char)
    (hdot : isIdentifierChar h '.' = false)
    (hpre : pre = [] ∨ ∃ p' c, pre = p' ++ [c] ∧ isIdentifierChar h c = false ∧ c ≠ '.')
    (hsegs : ∀ sg ∈ segs, sg ≠ [] ∧ ∀ c ∈ sg, isIdentifierChar h c = true)
    (hn : ∀ c ∈ n, isIdentifierChar h c = true)
    (hexpr : QString.chars expression =
      pre ++ (segs.map fun sg => sg ++ ['.']).flatten ++ n) :
    ∃ name : QString,
      Shell.completeScriptExpression.parse h expression
          ((QString.chars expression).length + 2) =
        some (segs.map (fun sg => (some (String.mk sg) : QString)), name,
          ((pre ++ (segs.map fun sg => sg ++ ['.']).flatten).length : Int)) ∧
      QString.chars name = n := by
  by_cases he : QString.isEmpty expression = true
  · have hcs : QString.chars expression = [] := by
      simpa [QString.isEmpty] using he
    rw [hcs] at hexpr
    have h0 := congrArg List.length hexpr
    simp only [List.length_nil, List.length_append] at h0
    have hs : segs = [] := by
      have := length_le_length_flatten_segments segs
      exact List.length_eq_zero.1 (by omega)
    have hp : pre = [] := List.length_eq_zero.1 (by omega)
    have hn0 : n = [] := List.length_eq_zero.1 (by omega)
    subst hs hp hn0
    exact ⟨none, by simp [Shell.completeScriptExpression.parse, he], rfl⟩
  · have he' : QString.isEmpty expression = false := by simpa using he
    obtain ⟨r, name, hr, hname, hall, hstop, hparse⟩ :=
      Shell.completeScriptExpression.parse_spec h expression he'
    obtain ⟨q, hq⟩ : ∃ q, pre ++ (segs.map fun sg => sg ++ ['.']).flatten = q := ⟨_, rfl⟩
    have hcs' : QString.chars expression = q ++ n ++ [] := by
      rw [hexpr, hq]; simp
    have hlen : (QString.chars expression).length = q.length + n.length := by
      rw [hcs']; simp
    have hqend : q = [] ∨ ∃ q' c, q = q' ++ [c] ∧ isIdentifierChar h c = false := by
      rw [← hq]
      exact ends_outside_of_segments (isIdentifierChar h) hdot pre
        (hpre.imp id (fun ⟨p', c, e, hc, _⟩ => ⟨p', c, e, hc⟩)) segs
    have hrq : r = q.length :=
      scan_unique (isIdentifierChar h) (QString.chars expression) q n [] hcs' hn hqend r
        (by omega) (fun i hi hlt => hall i hi (by omega)) hstop
    subst hrq
    obtain ⟨r2, hr2⟩ := Shell.completeScriptExpression.pathLoop_of_segments h expression
      ((QString.chars expression).length + 2) (by omega) hdot pre hpre segs n []
      ((QString.chars expression).length + 2) hsegs hexpr
      (by
        have := length_le_length_flatten_segments segs
        rw [hexpr]
        simp only [List.length_append]
        omega)
    refine ⟨name, ?_, ?_⟩
    · rw [hparse]
      unfold Shell.completeScriptExpression.pathLoop
      rw [← hq, hr2]
      simp
    · rw [hname, hcs']
      simp

/-- C23: for every expression `pre`, `s1`, dot, ..., `sk`, dot, `n`, where `k` may be 0,
`n` and each `si` are strings of identifier characters, no `si` is empty, and `pre` is
empty or ends in a character that is neither an identifier character nor a dot,
`completeScriptExpression` returns and the path it parses is `s1`, ..., `sk`. The dot is
taken not to be an identifier character. -/
theorem path_of_dotted_identifiers (h : Host σ E V) (s : Shell σ E V)
    (expression : QString) (start0 : Int) (commonName : QString) (pre : List Char)
    (segs : List (List Char)) (n : List Char)
    (hdot : isIdentifierChar h '.' = false)
    (hpre : pre = [] ∨ ∃ p' c, pre = p' ++ [c] ∧ isIdentifierChar h c = false ∧ c ≠ '.')
    (hsegs : ∀ sg ∈ segs, sg ≠ [] ∧ ∀ c ∈ sg, isIdentifierChar h c = true)
    (hn : ∀ c ∈ n, isIdentifierChar h c = true)
    (hexpr : QString.chars expression =
      pre ++ (segs.map fun sg => sg ++ ['.']).flatten ++ n) :
    ∃ (name : QString) (start : Int) (candidates : QStringList) (common : QString),
      Shell.completeScriptExpression.parse h expression
          ((QString.chars expression).length + 2) =
        some (segs.map (fun sg => (some (String.mk sg) : QString)), name, start) ∧
      (Shell.completeScriptExpression h (completions h) s expression start0 commonName).2 =
        some (candidates, start, common) := by
  obtain ⟨name, hp, _⟩ := Shell.completeScriptExpression.parse_of_segments h expression pre
    segs n hdot hpre hsegs hn hexpr
  obtain ⟨candidates, common, hm⟩ := Shell.completeScriptExpression_returns h s expression
    start0 commonName _ name _ hp
  exact ⟨name, _, candidates, common, hp, hm⟩

/-- C23 on a concrete expression: `foo(a.b_1.c2` has the path `a`, `b_1`. -/
theorem path_of_dotted_identifiers_witness :
    isIdentifierChar mapHost '.' = false ∧
      (∀ sg ∈ ["a".data, "b_1".data],
        sg ≠ [] ∧ ∀ c ∈ sg, isIdentifierChar mapHost c = true) ∧
      (∀ c ∈ "c2".data, isIdentifierChar mapHost c = true) ∧
      ∃ (name : QString) (start : Int) (candidates : QStringList) (common : QString),
        Shell.completeScriptExpression.parse mapHost (some "foo(a.b_1.c2") 14 =
          some ([some "a", some "b_1"], name, start) ∧
        (Shell.completeScriptExpression mapHost (completions mapHost) (mapShell abEngine)
          (some "foo(a.b_1.c2") 0 none).2 = some (candidates, start, common) :=
  ⟨by decide, by decide, by decide,
    path_of_dotted_identifiers mapHost (mapShell abEngine) (some "foo(a.b_1.c2") 0 none
      "foo(".data ["a".data, "b_1".data] "c2".data (by decide)
      (Or.inr ⟨"foo".data, '(', rfl, by decide, by decide⟩) (by decide) (by decide) rfl⟩

/-- The parse of an expression that is a dot and then identifier characters: the dot is the
first character, so the loop that collects the path does not run, and the path is empty. -/
theorem Shell.completeScriptExpression.parse_of_leading_dot (h : Host σ E V)
    (expression : QString) (n : List Char) (hdot : isIdentifierChar h '.' = false)
    (hn : ∀ c ∈ n, isIdentifierChar h c = true)
    (hexpr : QString.chars expression = '.' :: n) :
    ∃ name : QString,
      Shell.completeScriptExpression.parse h expression
          ((QString.chars expression).length + 2) = some ([], name, 1) ∧
      QString.chars name = n := by
  have he : QString.isEmpty expression = false := by
    simp [QString.isEmpty, hexpr]
  obtain ⟨r, name, hr, hname, hall, hstop, hparse⟩ :=
    Shell.completeScriptExpression.parse_spec h expression he
  have hcs' : QString.chars expression = ['.'] ++ n ++ [] := by
    rw [hexpr]; simp
  have hlen : (QString.chars expression).length = 1 + n.length := by
    rw [hexpr]; simp; omega
  have hrq : r = ['.'].length :=
    scan_unique (isIdentifierChar h) (QString.chars expression) ['.'] n [] hcs' hn
      (Or.inr ⟨[], '.', rfl, hdot⟩) r (by simp; omega)
      (fun i hi hlt => hall i hi (by simp at hlt; omega)) hstop
  simp only [List.length_singleton] at hrq
  subst hrq
  refine ⟨name, ?_, by rw [hname, hexpr]; simp⟩
  rw [hparse]
  unfold Shell.completeScriptExpression.pathLoop
  have := Shell.completeScriptExpression.pathLoop_stop h expression
    ((QString.chars expression).length + 2) ((QString.chars expression).length + 1)
    (((1 : Nat) : Int) - 1) [] (Or.inl (by omega))
  rw [this]
  simp

/-- The parse of an expression that ends with a character that is not an identifier
character, a dot and then identifier characters: the last item of the path is the empty
string. -/
theorem Shell.completeScriptExpression.parse_of_empty_segment (h : Host σ E V)
    (expression : QString) (pre : List Char) (c : Char) (n : List Char)
    (hdot : isIdentifierChar h '.' = false) (hc : isIdentifierChar h c = false)
    (hn : ∀ c ∈ n, isIdentifierChar h c = true)
    (hexpr : QString.chars expression = pre ++ [c, '.'] ++ n) :
    ∃ (rest : QStringList) (name : QString),
      Shell.completeScriptExpression.parse h expression
          ((QString.chars expression).length + 2) =
        some (rest ++ [some ""], name, ((pre.length + 2 : Nat) : Int)) ∧
      QString.chars name = n := by
  have he : QString.isEmpty expression = false := by
    simp [QString.isEmpty, hexpr]
  obtain ⟨r, name, hr, hname, hall, hstop, hparse⟩ :=
    Shell.completeScriptExpression.parse_spec h expression he
  have hcs' : QString.chars expression = (pre ++ [c, '.']) ++ n ++ [] := by
    rw [hexpr]; simp
  have hlen : (QString.chars expression).length = pre.length + 2 + n.length := by
    rw [hexpr]; simp; omega
  have hrq : r = (pre ++ [c, '.']).length :=
    scan_unique (isIdentifierChar h) (QString.chars expression) (pre ++ [c, '.']) n [] hcs'
      hn (Or.inr ⟨pre ++ [c], '.', by simp, hdot⟩) r (by simp; omega)
      (fun i hi hlt => hall i hi (by simp at hlt; omega)) hstop
  simp only [List.length_append, List.length_cons, List.length_nil] at hrq
  have hr2 : r = pre.length + 2 := by omega
  subst hr2
  -- the turn of the loop at the dot
  have hdotat : (QString.chars expression)[pre.length + 1]? = some '.' := by
    rw [hexpr, List.append_assoc, List.getElem?_append_right (by omega)]
    simp
  obtain ⟨r1, u, hr1, hud, hall1, hstop1, hstep⟩ :=
    Shell.completeScriptExpression.pathLoop_step h expression
      ((QString.chars expression).length + 2) ((QString.chars expression).length + 1)
      (pre.length + 1) [] (by omega) (by omega) hdotat (by omega)
  have hcs1 : QString.chars expression = (pre ++ [c]) ++ [] ++ ('.' :: n) := by
    rw [hexpr]; simp
  have hr1q : r1 = (pre ++ [c]).length :=
    scan_unique (isIdentifierChar h) (QString.chars expression) (pre ++ [c]) [] ('.' :: n)
      hcs1 (by simp) (Or.inr ⟨pre, c, rfl, hc⟩) r1 (by simp; omega)
      (fun i hi hlt => hall1 i hi (by simp at hlt; omega)) hstop1
  simp only [List.length_append, List.length_singleton] at hr1q
  subst hr1q
  have hu : u = "" := by
    have : u.data = [] := by
      rw [hud]; simp
    cases u
    simp only at this
    rw [this]
  subst hu
  -- the turns after it
  obtain ⟨q, path, hres, _⟩ :=
    Shell.completeScriptExpression.pathLoop_spec h expression
      ((QString.chars expression).length + 2) (by omega)
      ((QString.chars expression).length + 1) (((pre.length + 1 : Nat) : Int) - 1)
      [some ""] (by omega) (by omega) (by omega)
  refine ⟨path, name, ?_, by rw [hname, hexpr]; simp⟩
  rw [hparse]
  unfold Shell.completeScriptExpression.pathLoop
  have e1 : ((pre.length + 2 : Nat) : Int) - 1 = ((pre.length + 1 : Nat) : Int) := by omega
  rw [e1, hstep, hres]

/-- The walk along a path whose last item is the empty string ends with the lookup of the
property with the empty name. -/
theorem findCompletions.resolve_of_empty_segment (h : Host σ E V) (engine : E)
    (context : QScriptContext V) (rest : QStringList) :
    ∃ v, findCompletions.resolve h engine context (rest ++ [some ""]) =
      h.property engine v (some "") := by
  cases rest with
  | nil =>
    refine ⟨context.thisObject, ?_⟩
    have : QString.equals (some "") (QString.fromLatin1 "this") = false := by decide
    simp [findCompletions.resolve, this]
  | cons first rest =>
    simp only [findCompletions.resolve, List.cons_append]
    split
    · refine ⟨rest.foldl (fun v item => h.property engine v item) context.thisObject, ?_⟩
      rw [show List.drop 1 (first :: (rest ++ [some ""])) = rest ++ [some ""] from rfl,
        List.foldl_append]
      rfl
    · refine ⟨(first :: rest).foldl (fun v item => h.property engine v item)
        context.thisObject, ?_⟩
      rw [show List.drop 0 (first :: (rest ++ [some ""])) = (first :: rest) ++ [some ""]
        from rfl, List.foldl_append]
      rfl

/-- C21: a dot with no identifier before it is an empty item of the path when it is not
the first character of the expression. For every expression that ends with a character that
is not an identifier character (another dot, for one), a dot and then identifier
characters, `completeScriptExpression` returns, the last item of the path it parses is the
empty string, the walk ends with the lookup of the property with the empty name, and the
candidates are names of properties only, without `this`, `true`, `false`, `null`. For an
expression that is a dot and then identifier characters, `completeScriptExpression`
returns, the path is empty and the completion starts after the dot; no property is looked
up, for the value whose properties are enumerated is the `this` object of the context; and
the candidates are, each as often, the names of the properties of that object that start
with the name, together with the words among `this`, `true`, `false`, `null` that start
with the name (all of them when the name is empty). The dot is taken not to be an
identifier character. -/
theorem empty_segment_unless_leading_dot (h : Host σ E V) (s : Shell σ E V)
    (expression : QString) (start0 : Int) (commonName : QString) (n : List Char)
    (hdot : isIdentifierChar h '.' = false)
    (hn : ∀ c ∈ n, isIdentifierChar h c = true) :
    (∀ (pre : List Char) (c : Char), isIdentifierChar h c = false →
      QString.chars expression = pre ++ [c, '.'] ++ n →
      ∃ (rest : QStringList) (name : QString) (start : Int) (candidates : QStringList)
        (common : QString) (v : V),
        Shell.completeScriptExpression.parse h expression
            ((QString.chars expression).length + 2) =
          some (rest ++ [some ""], name, start) ∧
        (Shell.completeScriptExpression h (completions h) s expression start0
          commonName).2 = some (candidates, start, common) ∧
        findCompletions.resolve h (s.initIfNeeded h).d.engine
            (h.currentContext (s.initIfNeeded h).d.engine) (rest ++ [some ""]) =
          h.property (s.initIfNeeded h).d.engine v (some "") ∧
        candidates.Perm
          ((findCompletions.propertyNames h (s.initIfNeeded h).d.engine
              (h.currentContext (s.initIfNeeded h).d.engine) (rest ++ [some ""])).filter
            (fun p => QString.isEmpty name || QString.startsWith p name))) ∧
      (QString.chars expression = '.' :: n →
        ∃ (name : QString) (candidates : QStringList) (common : QString),
          Shell.completeScriptExpression.parse h expression
              ((QString.chars expression).length + 2) = some ([], name, 1) ∧
          QString.chars name = n ∧
          (Shell.completeScriptExpression h (completions h) s expression start0
            commonName).2 = some (candidates, 1, common) ∧
          findCompletions.resolve h (s.initIfNeeded h).d.engine
              (h.currentContext (s.initIfNeeded h).d.engine) [] =
            (h.currentContext (s.initIfNeeded h).d.engine).thisObject ∧
          candidates.Perm
            (((h.properties (s.initIfNeeded h).d.engine
                (h.currentContext (s.initIfNeeded h).d.engine).thisObject).map
                fun it => (some it.name : QString)).filter
                (fun p => QString.isEmpty name || QString.startsWith p name) ++
              reservedWords.filter fun word =>
                QString.isEmpty name || QString.startsWith word name)) := by
  constructor
  · intro pre c hc hexpr
    obtain ⟨rest, name, hp, _⟩ := Shell.completeScriptExpression.parse_of_empty_segment h
      expression pre c n hdot hc hn hexpr
    obtain ⟨v, hv⟩ := findCompletions.resolve_of_empty_segment h (s.initIfNeeded h).d.engine
      (h.currentContext (s.initIfNeeded h).d.engine) rest
    refine ⟨rest, name, _, _, _, v, hp,
      Shell.completeScriptExpression_snd h s expression start0 commonName _ name _ hp, hv, ?_⟩
    have hcol := findCompletions.collect_fst h (s.initIfNeeded h).d.engine
      (h.currentContext (s.initIfNeeded h).d.engine) (rest ++ [some ""]) name commonName
    have hne : (rest ++ [some ""]).isEmpty = false := by
      cases rest <;> rfl
    rw [hne] at hcol
    simp only [Bool.false_eq_true, if_false, List.append_nil] at hcol
    rw [← hcol]
    exact qStableSort_perm _
  · intro hexpr
    obtain ⟨name, hp, hname⟩ := Shell.completeScriptExpression.parse_of_leading_dot h
      expression n hdot hn hexpr
    have hcol := findCompletions.collect_fst h (s.initIfNeeded h).d.engine
      (h.currentContext (s.initIfNeeded h).d.engine) [] name commonName
    simp only [List.isEmpty_nil, if_true] at hcol
    refine ⟨name, _, _, hp, hname,
      Shell.completeScriptExpression_snd h s expression start0 commonName [] name 1 hp, rfl,
      ?_⟩
    have hperm := qStableSort_perm (findCompletions.collect h (s.initIfNeeded h).d.engine
      (h.currentContext (s.initIfNeeded h).d.engine) [] name commonName).1
    refine hperm.trans ?_
    rw [hcol]
    exact List.Perm.refl _

/-- C21, amended, on concrete expressions: `(.` has the path with the empty string only,
and `.f` has the empty path, and its candidates are the word `false` and no other, no name
of a property of the `this` object starting with `f`. -/
theorem empty_segment_unless_leading_dot_witness :
    isIdentifierChar mapHost '.' = false ∧
      (∃ (rest : QStringList) (name : QString) (start : Int) (candidates : QStringList)
        (common : QString) (v : MapValue),
        Shell.completeScriptExpression.parse mapHost (some "(.") 4 =
          some (rest ++ [some ""], name, start) ∧
        (Shell.completeScriptExpression mapHost (completions mapHost) (mapShell abEngine)
          (some "(.") 0 none).2 = some (candidates, start, common) ∧
        findCompletions.resolve mapHost ((mapShell abEngine).initIfNeeded mapHost).d.engine
            (mapHost.currentContext ((mapShell abEngine).initIfNeeded mapHost).d.engine)
            (rest ++ [some ""]) =
          mapHost.property ((mapShell abEngine).initIfNeeded mapHost).d.engine v (some "") ∧
        candidates.Perm
          ((findCompletions.propertyNames mapHost
              ((mapShell abEngine).initIfNeeded mapHost).d.engine
              (mapHost.currentContext ((mapShell abEngine).initIfNeeded mapHost).d.engine)
              (rest ++ [some ""])).filter
            (fun p => QString.isEmpty name || QString.startsWith p name))) ∧
      (Shell.completeScriptExpression mapHost (completions mapHost) (mapShell abEngine)
        (some ".f") 0 none).2 = some ([some "false"], 1, none) ∧
      ∃ (name : QString) (candidates : QStringList) (common : QString),
        Shell.completeScriptExpression.parse mapHost (some ".f") 4 =
          some ([], name, 1) ∧
        QString.chars name = "f".data ∧
        (Shell.completeScriptExpression mapHost (completions mapHost) (mapShell abEngine)
          (some ".f") 0 none).2 = some (candidates, 1, common) ∧
        findCompletions.resolve mapHost ((mapShell abEngine).initIfNeeded mapHost).d.engine
            (mapHost.currentContext ((mapShell abEngine).initIfNeeded mapHost).d.engine) [] =
          (mapHost.currentContext
            ((mapShell abEngine).initIfNeeded mapHost).d.engine).thisObject ∧
        candidates.Perm
          (((mapHost.properties ((mapShell abEngine).initIfNeeded mapHost).d.engine
              (mapHost.currentContext
                ((mapShell abEngine).initIfNeeded mapHost).d.engine).thisObject).map
              fun it => (some it.name : QString)).filter
              (fun p => QString.isEmpty name || QString.startsWith p name) ++
            reservedWords.filter fun word =>
              QString.isEmpty name || QString.startsWith word name) :=
  ⟨by decide,
    (empty_segment_unless_leading_dot mapHost (mapShell abEngine) (some "(.") 0 none []
      (by decide) (by decide)).1 [] '(' (by decide) rfl,
    by decide,
    (empty_segment_unless_leading_dot mapHost (mapShell abEngine) (some ".f") 0 none
      "f".data (by decide) (by decide)).2 rfl⟩

/-- C21, as stated, fails: for the expressions `.` and `.foo` the parsed path is empty, so
it holds no empty string, no property is looked up, and for `.` the words `this`, `true`,
`false` and `null` are among the candidates. -/
theorem empty_segment_unless_leading_dot_counterexample :
    Shell.completeScriptExpression.parse mapHost (some ".") 3 = some ([], none, 1) ∧
      Shell.completeScriptExpression.parse mapHost (some ".foo") 6 =
        some ([], some "foo", 1) ∧
      (Shell.completeScriptExpression mapHost (completions mapHost) (mapShell abEngine)
        (some ".") 0 none).2 =
        some ([some "a", some "exit", some "false", some "null", some "print", some "sr",
          some "this", some "true"], 1, none) := by
  decide

/-! ## The walk along the path -/

/-- The value `findCompletions` completes on is the one the walk along the path reaches,
where a first item `this` is left out. -/
theorem findCompletions.resolve_eq_walk (h : Host σ E V) (engine : E)
    (context : QScriptContext V) (path : QStringList) :
    findCompletions.resolve h engine context path =
      walk h engine context.thisObject (walkedSegments path) := by
  cases path with
  | nil => rfl
  | cons first rest =>
    simp only [findCompletions.resolve, walkedSegments, walk, QString.equals,
      QString.fromLatin1, QString.chars, decide_eq_true_eq]
    split <;> rfl

/-- The property-map host treats what is not an object as a script engine does. -/
theorem mapHost_lookupLaws : LookupLaws mapHost where
  property_of_not_object := fun e v n hv => by
    have hv' : v.isObject = false := hv
    show (MapEngine.property e v n).isObject = false
    unfold MapEngine.property
    rw [hv']
    rfl
  properties_of_not_object := fun e v hv => by
    have hv' : v.isObject = false := hv
    simp [mapHost, MapEngine.properties, hv']

theorem walk_not_object (h : Host σ E V) (L : LookupLaws h) (engine : E) (c : V)
    (hc : h.isObject c = false) (segments : QStringList) :
    h.isObject (walk h engine c segments) = false := by
  induction segments generalizing c with
  | nil => exact hc
  | cons x xs ih => exact ih _ (L.property_of_not_object engine c x hc)

theorem walk_append (h : Host σ E V) (engine : E) (c : V) (a b : QStringList) :
    walk h engine c (a ++ b) = walk h engine (walk h engine c a) b := by
  simp [walk, List.foldl_append]

/-- C24: the value whose properties are enumerated is the one reached from the `this`
object of the context by looking up the items of the path in order as property names, after
dropping the first item when it is `this`, and no other item; and for an expression that is
`this.`, or ends in `this.` after a character that is neither an identifier character nor
a dot, `completeScriptExpression` returns, the path is `this` alone, and the candidates are
the names of the properties of the `this` object of the context, each as often, without
`this`, `true`, `false`, `null`. The letters of `this` are taken to be identifier
characters, and the dot not. -/
theorem walk_drops_leading_this (h : Host σ E V) (s : Shell σ E V)
    (expression : QString) (start0 : Int) (commonName : QString) (pre : List Char)
    (hdot : isIdentifierChar h '.' = false)
    (hthis : ∀ c ∈ "this".data, isIdentifierChar h c = true)
    (hpre : pre = [] ∨ ∃ p' c, pre = p' ++ [c] ∧ isIdentifierChar h c = false ∧ c ≠ '.')
    (hexpr : QString.chars expression = pre ++ "this.".data) :
    (∀ (engine : E) (context : QScriptContext V) (path : QStringList),
      findCompletions.resolve h engine context path =
        walk h engine context.thisObject (walkedSegments path)) ∧
      ∃ (name : QString) (start : Int) (candidates : QStringList) (common : QString),
        Shell.completeScriptExpression.parse h expression
            ((QString.chars expression).length + 2) = some ([some "this"], name, start) ∧
        (Shell.completeScriptExpression h (completions h) s expression start0
          commonName).2 = some (candidates, start, common) ∧
        candidates.Perm
          ((h.properties (s.initIfNeeded h).d.engine
            (h.currentContext (s.initIfNeeded h).d.engine).thisObject).map
            fun it => (some it.name : QString)) := by
  refine ⟨findCompletions.resolve_eq_walk h, ?_⟩
  obtain ⟨name, hp, hname⟩ := Shell.completeScriptExpression.parse_of_segments h expression
    pre ["this".data] [] hdot hpre
    (by
      intro sg hsg
      simp only [List.mem_singleton] at hsg
      subst hsg
      exact ⟨by decide, hthis⟩)
    (by simp)
    (by
      rw [hexpr, List.append_nil]
      exact congrArg (pre ++ ·) (by decide))
  have hp' : Shell.completeScriptExpression.parse h expression
      ((QString.chars expression).length + 2) =
      some ([some "this"], name,
        ((pre ++ (["this".data].map fun sg => sg ++ ['.']).flatten).length : Int)) := hp
  refine ⟨name, _, _, _, hp',
    Shell.completeScriptExpression_snd h s expression start0 commonName _ name _ hp', ?_⟩
  have hcol := findCompletions.collect_fst h (s.initIfNeeded h).d.engine
    (h.currentContext (s.initIfNeeded h).d.engine) [some "this"] name commonName
  have hempty : QString.isEmpty name = true := by
    simp [QString.isEmpty, hname]
  have hres : findCompletions.resolve h (s.initIfNeeded h).d.engine
      (h.currentContext (s.initIfNeeded h).d.engine) [some "this"] =
      (h.currentContext (s.initIfNeeded h).d.engine).thisObject := by
    rw [findCompletions.resolve_eq_walk]
    rfl
  simp only [hempty, Bool.true_or, List.filter_true, List.isEmpty_cons, Bool.false_eq_true,
    if_false, List.append_nil, findCompletions.propertyNames, hres] at hcol
  rw [← hcol]
  exact qStableSort_perm _

/-- C24, amended, on a concrete expression: `(this.` has the path `this` alone, and the
candidates are the names of the properties of the `this` object. -/
theorem walk_drops_leading_this_witness :
    isIdentifierChar mapHost '.' = false ∧
      (∀ c ∈ "this".data, isIdentifierChar mapHost c = true) ∧
      ∃ (name : QString) (start : Int) (candidates : QStringList) (common : QString),
        Shell.completeScriptExpression.parse mapHost (some "(this.") 8 =
          some ([some "this"], name, start) ∧
        (Shell.completeScriptExpression mapHost (completions mapHost) (mapShell abEngine)
          (some "(this.") 0 none).2 = some (candidates, start, common) ∧
        candidates.Perm
          ((mapHost.properties ((mapShell abEngine).initIfNeeded mapHost).d.engine
            (mapHost.currentContext
              ((mapShell abEngine).initIfNeeded mapHost).d.engine).thisObject).map
            fun it => (some it.name : QString)) :=
  ⟨by decide, by decide,
    (walk_drops_leading_this mapHost (mapShell abEngine) (some "(this.") 0 none "(".data
      (by decide) (by decide) (Or.inr ⟨[], '(', rfl, by decide, by decide⟩) rfl).2⟩

/-- C24, as stated, fails: the expressions `a.this.` and `xthis.` end in `this.`, and their
paths are `a`, `this` and `xthis`, not `this` alone; the candidates for `a.this.` are not
the names of the properties of the `this` object, which are `print`, `exit`, `a` and
`sr`. -/
theorem walk_drops_leading_this_counterexample :
    Shell.completeScriptExpression.parse mapHost (some "a.this.") 9 =
        some ([some "a", some "this"], none, 7) ∧
      Shell.completeScriptExpression.parse mapHost (some "xthis.") 8 =
        some ([some "xthis"], none, 6) ∧
      (Shell.completeScriptExpression mapHost (completions mapHost) (mapShell abEngine)
        (some "a.this.") 0 none).2 = some ([], 7, none) ∧
      (mapHost.properties ((mapShell abEngine).initIfNeeded mapHost).d.engine
          (mapHost.currentContext
            ((mapShell abEngine).initIfNeeded mapHost).d.engine).thisObject).map
          (fun it => it.name) = ["print", "exit", "a", "sr"] := by
  decide

/-! ## Lookups that fail -/

/-- C25: for every expression whose parsed path is not empty, if some lookup along the
path, after a first item `this` is left out, gives a value that is not an object, the
invalid or the undefined value for one, `completeScriptExpression` returns the empty list
of candidates. The engine is taken to give no property for what is not an object. -/
theorem failed_lookup_gives_no_candidates (h : Host σ E V) (L : LookupLaws h)
    (s : Shell σ E V) (expression : QString) (start0 : Int) (commonName : QString)
    (path : QStringList) (name : QString) (start : Int)
    (hp : Shell.completeScriptExpression.parse h expression
      ((QString.chars expression).length + 2) = some (path, name, start))
    (hne : path ≠ [])
    (hfail : ∃ k, k < (walkedSegments path).length ∧
      h.isObject (walk h (s.initIfNeeded h).d.engine
        (h.currentContext (s.initIfNeeded h).d.engine).thisObject
        ((walkedSegments path).take (k + 1))) = false) :
    ∃ common : QString,
      (Shell.completeScriptExpression h (completions h) s expression start0 commonName).2 =
        some ([], start, common) := by
  obtain ⟨k, _, hk⟩ := hfail
  have hres : h.isObject (findCompletions.resolve h (s.initIfNeeded h).d.engine
      (h.currentContext (s.initIfNeeded h).d.engine) path) = false := by
    rw [findCompletions.resolve_eq_walk, ← List.take_append_drop (k + 1) (walkedSegments path),
      walk_append]
    exact walk_not_object h L _ _ hk _
  have hcol := findCompletions.collect_fst h (s.initIfNeeded h).d.engine
    (h.currentContext (s.initIfNeeded h).d.engine) path name commonName
  have hpe : path.isEmpty = false := by
    cases path with
    | nil => exact absurd rfl hne
    | cons _ _ => rfl
  simp only [findCompletions.propertyNames, L.properties_of_not_object _ _ hres, hpe,
    List.map_nil, List.filter_nil, Bool.false_eq_true, if_false, List.append_nil] at hcol
  refine ⟨(findCompletions.collect h (s.initIfNeeded h).d.engine
    (h.currentContext (s.initIfNeeded h).d.engine) path name commonName).2, ?_⟩
  rw [Shell.completeScriptExpression_snd h s expression start0 commonName path name start hp,
    hcol]
  rfl

/-- C25 on a concrete expression: `a.zz.y`, where `a` has no property `zz`. -/
theorem failed_lookup_gives_no_candidates_witness :
    LookupLaws mapHost ∧
      Shell.completeScriptExpression.parse mapHost (some "a.zz.y") 8 =
        some ([some "a", some "zz"], some "y", 5) ∧
      mapHost.isObject (walk mapHost ((mapShell abEngine).initIfNeeded mapHost).d.engine
        (mapHost.currentContext ((mapShell abEngine).initIfNeeded mapHost).d.engine).thisObject
        ((walkedSegments [some "a", some "zz"]).take 2)) = false ∧
      ∃ common : QString,
        (Shell.completeScriptExpression mapHost (completions mapHost) (mapShell abEngine)
          (some "a.zz.y") 0 none).2 = some ([], 5, common) :=
  ⟨mapHost_lookupLaws, by decide, by decide,
    failed_lookup_gives_no_candidates mapHost mapHost_lookupLaws (mapShell abEngine)
      (some "a.zz.y") 0 none [some "a", some "zz"] (some "y") 5 (by decide) (by decide)
      ⟨1, by decide, by decide⟩⟩

/-! ## The common text and the reserved words -/

/-- C26: for every expression with an empty path and a name that is not empty, when some
property name starts with the name, `completeScriptExpression` returns, the name followed by
the common text it reports is the longest common prefix of the property names that start
with the name, and the candidates are those property names together with the words among
`this`, `true`, `false`, `null` that start with the name: the words are candidates and have
no part in the common text. -/
theorem commonName_ignores_reserved_words (h : Host σ E V) (s : Shell σ E V)
    (expression : QString) (start0 : Int) (commonName : QString) (name : QString)
    (start : Int)
    (hp : Shell.completeScriptExpression.parse h expression
      ((QString.chars expression).length + 2) = some ([], name, start))
    (hname : QString.isEmpty name = false)
    (hmatch : (findCompletions.propertyNames h (s.initIfNeeded h).d.engine
        (h.currentContext (s.initIfNeeded h).d.engine) []).filter
      (fun p => QString.startsWith p name) ≠ []) :
    ∃ (candidates : QStringList) (common : String),
      (Shell.completeScriptExpression h (completions h) s expression start0 commonName).2 =
        some (candidates, start, some common) ∧
      IsLongestCommonPrefix (QString.chars name ++ common.data)
        (((findCompletions.propertyNames h (s.initIfNeeded h).d.engine
            (h.currentContext (s.initIfNeeded h).d.engine) []).filter
          (fun p => QString.startsWith p name)).map QString.chars) ∧
      candidates.Perm
        ((findCompletions.propertyNames h (s.initIfNeeded h).d.engine
            (h.currentContext (s.initIfNeeded h).d.engine) []).filter
            (fun p => QString.startsWith p name) ++
          reservedWords.filter fun word => QString.startsWith word name) := by
  obtain ⟨common, hc, hl⟩ := findCompletions.collect_snd_of_match h
    (s.initIfNeeded h).d.engine (h.currentContext (s.initIfNeeded h).d.engine) [] name
    commonName hname hmatch
  have hcol := findCompletions.collect_fst h (s.initIfNeeded h).d.engine
    (h.currentContext (s.initIfNeeded h).d.engine) [] name commonName
  simp only [hname, Bool.false_or, List.isEmpty_nil, if_true] at hcol
  refine ⟨qStableSort (findCompletions.collect h (s.initIfNeeded h).d.engine
    (h.currentContext (s.initIfNeeded h).d.engine) [] name commonName).1, common, ?_, hl, ?_⟩
  · rw [Shell.completeScriptExpression_snd h s expression start0 commonName [] name start hp,
      hc]
  · rw [← hcol]
    exact qStableSort_perm _

/-- C26 on a concrete expression: `t`, with the global property `top`; the candidates are
`this`, `top` and `true`, and the common text is `op`. -/
theorem commonName_ignores_reserved_words_witness :
    Shell.completeScriptExpression.parse mapHost (some "t") 3 = some ([], some "t", 0) ∧
      QString.isEmpty (some "t") = false ∧
      (findCompletions.propertyNames mapHost
          ((mapShell topEngine).initIfNeeded mapHost).d.engine
          (mapHost.currentContext ((mapShell topEngine).initIfNeeded mapHost).d.engine)
          []).filter
        (fun p => QString.startsWith p (some "t")) ≠ [] ∧
      (Shell.completeScriptExpression mapHost (completions mapHost) (mapShell topEngine)
        (some "t") 0 none).2 =
        some ([some "this", some "top", some "true"], 0, some "op") ∧
      ∃ (candidates : QStringList) (common : String),
        (Shell.completeScriptExpression mapHost (completions mapHost) (mapShell topEngine)
          (some "t") 0 none).2 = some (candidates, 0, some common) ∧
        IsLongestCommonPrefix (QString.chars (some "t") ++ common.data)
          (((findCompletions.propertyNames mapHost
              ((mapShell topEngine).initIfNeeded mapHost).d.engine
              (mapHost.currentContext ((mapShell topEngine).initIfNeeded mapHost).d.engine)
              []).filter
            (fun p => QString.startsWith p (some "t"))).map QString.chars) ∧
        candidates.Perm
          ((findCompletions.propertyNames mapHost
              ((mapShell topEngine).initIfNeeded mapHost).d.engine
              (mapHost.currentContext ((mapShell topEngine).initIfNeeded mapHost).d.engine)
              []).filter
              (fun p => QString.startsWith p (some "t")) ++
            reservedWords.filter fun word => QString.startsWith word (some "t")) :=
  ⟨by decide, rfl, by decide, by decide,
    commonName_ignores_reserved_words mapHost (mapShell topEngine) (some "t") 0 none
      (some "t") 0 (by decide) rfl (by decide)⟩

/-! ## A refused connection leaves the registry -/

theorem QMap.value_take {α : Type} (map : List (QString × α)) (key : QString) :
    QMap.value (QMap.take map key).2 key = none := by
  simp only [QMap.value, QMap.take, Option.map_eq_none', List.find?_eq_none, List.mem_filter]
  intro entry hentry
  simpa using hentry.2

/-- C29: when the connection registered under a name is read-only, `addDatabase` and
`cloneDatabase` under that name return 0, and throw when and only when `m_autoThrow` is
set; but they have taken the entry out of `m_connections` before, and do not put it back:
afterwards no connection is registered under the name. -/
theorem refused_connection_is_unregistered (h : SqlHost ω D) (sql : ScriptableSql D) (w : ω)
    (type connectionName : QString) (other old : ScriptableDatabase D)
    (hold : QMap.value sql.m_connections connectionName = some old)
    (hro : old.isReadOnly = true) :
    (sql.addDatabase h w type connectionName).result = none ∧
      (sql.addDatabase h w type connectionName).thrown =
        (if sql.m_autoThrow then some (ScriptableSql.existsMessage connectionName)
          else none) ∧
      (sql.addDatabase h w type connectionName).sql.m_connections =
        (QMap.take sql.m_connections connectionName).2 ∧
      QMap.value (sql.addDatabase h w type connectionName).sql.m_connections connectionName =
        none ∧
      (sql.cloneDatabase h w other connectionName).result = none ∧
      (sql.cloneDatabase h w other connectionName).thrown =
        (if sql.m_autoThrow then some (ScriptableSql.existsMessage connectionName)
          else none) ∧
      (sql.cloneDatabase h w other connectionName).sql.m_connections =
        (QMap.take sql.m_connections connectionName).2 ∧
      QMap.value (sql.cloneDatabase h w other connectionName).sql.m_connections
        connectionName = none := by
  have hadd : sql.addDatabase h w type connectionName =
      ScriptableSql.refuse
        { sql with m_connections := (QMap.take sql.m_connections connectionName).2 } w
        connectionName := by
    simp [ScriptableSql.addDatabase, QMap.take, hold, hro]
  have hclone : sql.cloneDatabase h w other connectionName =
      ScriptableSql.refuse
        { sql with m_connections := (QMap.take sql.m_connections connectionName).2 } w
        connectionName := by
    simp [ScriptableSql.cloneDatabase, QMap.take, hold, hro]
  rw [hadd, hclone]
  exact ⟨rfl, rfl, rfl, QMap.value_take _ _, rfl, rfl, rfl, QMap.value_take _ _⟩

/-- C29 on a concrete registry: the read-only connection `c` is the only one registered,
and `m_autoThrow` is not set; after `addDatabase("QSQLITE", "c")`, and after
`cloneDatabase` under `c`, the registry is empty. -/
theorem refused_connection_is_unregistered_witness :
    QMap.value
        ({ m_autoThrow := false
           m_connections := [(some "c", { db := "c", isReadOnly := true, autoThrow := false })]
         } : ScriptableSql String).m_connections (some "c") =
        some { db := "c", isReadOnly := true, autoThrow := false } ∧
      (ScriptableSql.addDatabase namesSqlHost
        { m_autoThrow := false
          m_connections := [(some "c", { db := "c", isReadOnly := true, autoThrow := false })] }
        ["c"] (some "QSQLITE") (some "c")).sql.m_connections = [] ∧
      (ScriptableSql.cloneDatabase namesSqlHost
        { m_autoThrow := false
          m_connections := [(some "c", { db := "c", isReadOnly := true, autoThrow := false })] }
        ["c"] { db := "d", isReadOnly := false, autoThrow := false }
        (some "c")).sql.m_connections = [] :=
  ⟨rfl,
    (refused_connection_is_unregistered namesSqlHost
      { m_autoThrow := false
        m_connections := [(some "c", { db := "c", isReadOnly := true, autoThrow := false })] }
      ["c"] (some "QSQLITE") (some "c") { db := "d", isReadOnly := false, autoThrow := false }
      { db := "c", isReadOnly := true, autoThrow := false } rfl rfl).2.2.1,
    (refused_connection_is_unregistered namesSqlHost
      { m_autoThrow := false
        m_connections := [(some "c", { db := "c", isReadOnly := true, autoThrow := false })] }
      ["c"] (some "QSQLITE") (some "c") { db := "d", isReadOnly := false, autoThrow := false }
      { db := "c", isReadOnly := true, autoThrow := false } rfl rfl).2.2.2.2.2.2.1⟩

/-! ## The print source -/

/-- C30: in the print source of `MainWindow::run` the part `footerLast` is governed by the
text `headerLast`, not by its own: with a null `headerLast` the print source is the same
whatever `footerLast` is, so a `footerLast` that is not null is left out; and with a
`headerLast` that is not null the part `footerLast` is appended for a null `footerLast`. -/
theorem footerLast_follows_headerLast (isRunResultValid : Bool)
    (errorMessage header headerFirst content footer footerFirst
      footerLast footerLast' : QString) :
    MainWindow.run.printSource isRunResultValid errorMessage header headerFirst none content
        footer footerFirst footerLast =
      MainWindow.run.printSource isRunResultValid errorMessage header headerFirst none content
        footer footerFirst footerLast' ∧
    MainWindow.run.printSource true none (some "h") none none (some "c") (some "f") none
        (some "x") =
      "<!-- header -->\nh\n<!-- content -->\nc\n<!-- footer -->\nf\n" ∧
    MainWindow.run.printSource true none (some "h") none (some "") (some "c") (some "f") none
        none =
      "<!-- header -->\nh\n<!-- headerLast -->\n\n<!-- content -->\nc\n" ++
        "<!-- footer -->\nf\n<!-- footerLast -->\n\n" := by
  refine ⟨rfl, by decide, by decide⟩

end ScriptReport
